import Mathlib

/-!
Verification development for the rebel runtime (parser `parse.rs`,
memory arena, single-pass compiler and stack VM `vm.rs`, standard
library `stdlib.rs`, current arena revision `mem.rs`).

The parser, compiler, VM loop and native functions are translated
directly from the Rust sources.  The `mem` module version that `vm.rs`
imports (typed values, `Series`, binding cells, `NativeFunc`/`Func`
descriptors) is not part of the source tree — only its callers are — so
that layer is modelled from the specification; every such definition
carries a doc comment starting with `Modelled from the spec:`.

Conventions of the embedding:
* machine integers are `Nat`/`Int` with explicit `% 2 ^ w` where the
  Rust code can wrap or truncate (`u16` compile-time stack length,
  `as u8` casts, `u32` immediates);
* byte positions in the parser are character indices — identical to
  byte offsets for the ASCII inputs all theorems use;
* fallible operations return `Except`/`Option`.
-/

/-- Decidable equality for `Except`, used to evaluate runs of the
embedded code inside proofs. -/
instance {ε α : Type} [DecidableEq ε] [DecidableEq α] :
    DecidableEq (Except ε α) := fun x y =>
  match x, y with
  | Except.ok a, Except.ok b =>
    if h : a = b then isTrue (by rw [h]) else isFalse (by simp [h])
  | Except.error e, Except.error f =>
    if h : e = f then isTrue (by rw [h]) else isFalse (by simp [h])
  | Except.ok _, Except.error _ => isFalse (by simp)
  | Except.error _, Except.ok _ => isFalse (by simp)

namespace Rebel

/-- Word kinds of the parser (`parse.rs`, `WordKind`). -/
inductive WordKind where
  | word : WordKind
  | setWord : WordKind
  | getWord : WordKind
deriving DecidableEq, Repr

/-- Parser errors (`parse.rs`, `ParserError`).  The collector error
payload is collapsed into a bare `collectorError` marker; no claim
depends on the inner error value. -/
inductive PErr where
  | endOfInput : PErr
  | unexpectedChar : Char → PErr
  | integerOverflow : PErr
  | floatOverflow : PErr
  | unexpectedError : PErr
  | emptyWord : PErr
  | collectorError : PErr
deriving DecidableEq, Repr

/-- Collector interface (`parse.rs`, trait `Collector`): callbacks a
parser run feeds with tokens.  A callback returning `none` aborts the
parse with `PErr.collectorError`. -/
structure Collector (σ : Type) where
  string : σ → String → Option σ
  word : σ → WordKind → String → Option σ
  integer : σ → Int → Option σ
  float : σ → Float → Option σ
  begin_block : σ → Option σ
  end_block : σ → Option σ
  begin_path : σ → Option σ
  end_path : σ → Option σ

/-- Lift a collector callback result into the parser monad
(`ParserError::CollectorError`). -/
def collRes {σ : Type} (r : Option σ) : Except PErr σ :=
  match r with
  | some st => Except.ok st
  | none => Except.error PErr.collectorError

/-- Rust `char::is_ascii_whitespace`. -/
def asciiWs (c : Char) : Bool :=
  c = ' ' || c = '\t' || c = '\n' || c = '\x0d' || c = '\x0c'

/-- Rust `char::is_ascii_digit` — the code-point range of `0`–`9`. -/
def asciiDigit (c : Char) : Bool :=
  48 ≤ c.toNat && c.toNat ≤ 57

/-- Rust `char::is_ascii_alphabetic`. -/
def asciiAlpha (c : Char) : Bool :=
  ('a' ≤ c && c ≤ 'z') || ('A' ≤ c && c ≤ 'Z')

/-- Rust `char::is_ascii_alphanumeric`. -/
def asciiAlnum (c : Char) : Bool :=
  asciiAlpha c || asciiDigit c

/-- Rust `char::to_digit(10)` on an ASCII digit. -/
def digitVal (c : Char) : Nat :=
  c.toNat - '0'.toNat

/-- Whitespace/comment scanning loop (`parse.rs`,
`skip_whitespace`): the flag carries "inside a `;` line comment", the
shape the Rust nested comment loop has when folded into one structural
recursion. -/
def skipWsAux : Bool → List Char → Option (Char × List Char)
  | _, [] => none
  | true, c :: rest =>
    if c = '\n' then skipWsAux false rest else skipWsAux true rest
  | false, c :: rest =>
    if asciiWs c then skipWsAux false rest
    else if c = ';' then skipWsAux true rest
    else some (c, rest)

/-- Whitespace/comment skipping (`parse.rs`, `skip_whitespace`):
returns the first significant character and the input after it. -/
def skipWhitespace (input : List Char) : Option (Char × List Char) :=
  skipWsAux false input

/-- String-literal scanning loop (`parse.rs`, `Parser::parse_string`).
`acc` is the unescaped content so far, `escaped` the escape flag; on
the closing quote the collector's `string` callback fires; running out
of input yields `EndOfInput`; a bad escape yields `UnexpectedChar`.
The Rust function always leaves `consumed = None`. -/
def parseStringLoop {σ : Type} (col : Collector σ) (st : σ)
    (acc : List Char) (escaped : Bool) :
    List Char → Except PErr (σ × Option Char × List Char)
  | [] => Except.error PErr.endOfInput
  | c :: rest =>
    if escaped then
      if c = 'n' then parseStringLoop col st (acc ++ ['\n']) false rest
      else if c = 'r' then parseStringLoop col st (acc ++ ['\x0d']) false rest
      else if c = 't' then parseStringLoop col st (acc ++ ['\t']) false rest
      else if c = '\"' then parseStringLoop col st (acc ++ ['\"']) false rest
      else if c = '\\' then parseStringLoop col st (acc ++ ['\\']) false rest
      else Except.error (PErr.unexpectedChar c)
    else if c = '\\' then parseStringLoop col st acc true rest
    else if c = '\"' then
      match col.string st (String.mk acc) with
      | some st1 => Except.ok (st1, none, rest)
      | none => Except.error PErr.collectorError
    else parseStringLoop col st (acc ++ [c]) false rest

/-- Word-scanning loop (`parse.rs`, the `loop` inside
`Parser::parse_word`): accumulates continuation characters of the word
and reports the terminator it consumed (`:` upgrades the word to a
set-word; `]`, `/` and whitespace terminate; other characters are
errors).  Instead of slicing the input by byte positions as the Rust
code does, the word text is accumulated directly — equivalent for the
same character sequence. -/
def parseWordLoop (acc : List Char) (kind : WordKind) :
    List Char → Except PErr (List Char × WordKind × Option Char × List Char)
  | [] => Except.ok (acc, kind, none, [])
  | c :: rest =>
    if c = ':' then Except.ok (acc, WordKind.setWord, some c, rest)
    else if c = ']' then Except.ok (acc, kind, some c, rest)
    else if c = '/' then Except.ok (acc, kind, some c, rest)
    else if asciiAlnum c || c = '_' || c = '-' || c = '?' then
      parseWordLoop (acc ++ [c]) kind rest
    else if asciiWs c then Except.ok (acc, kind, some c, rest)
    else Except.error (PErr.unexpectedChar c)

/-- Path bookkeeping before a word event (`parse.rs`,
`Parser::collect_word`): entering a path on a `/` terminator emits
`begin_path` before the word itself.  Returns the updated collector
state, the updated `in_path` flag and the consumed terminator. -/
def collectWord {σ : Type} (col : Collector σ) (st : σ) (inPath : Bool)
    (symbol : String) (kind : WordKind) (consumed : Option Char) :
    Except PErr (σ × Bool × Option Char) :=
  match consumed with
  | some '/' =>
    if inPath then do
      let st1 ← collRes (col.word st kind symbol)
      Except.ok (st1, inPath, consumed)
    else do
      let st1 ← collRes (col.begin_path st)
      let st2 ← collRes (col.word st1 kind symbol)
      Except.ok (st2, true, consumed)
  | _ => do
    let st1 ← collRes (col.word st kind symbol)
    Except.ok (st1, inPath, consumed)

/-- Word parsing (`parse.rs`, `Parser::parse_word`): `first` is the
character `do_parse` dispatched on; a leading `:` makes a get-word
whose text starts after the colon.  An empty word text is
`EmptyWord`. -/
def parseWord {σ : Type} (col : Collector σ) (st : σ) (inPath : Bool)
    (first : Char) (rest : List Char) :
    Except PErr (σ × Bool × Option Char × List Char) := do
  let kind0 := if first = ':' then WordKind.getWord else WordKind.word
  let acc0 := if first = ':' then [] else [first]
  let (acc, kind, consumed, rest1) ← parseWordLoop acc0 kind0 rest
  if acc.isEmpty then Except.error PErr.emptyWord
  else do
    let (st1, inPath1, consumed1) ←
      collectWord col st inPath (String.mk acc) kind consumed
    Except.ok (st1, inPath1, consumed1, rest1)

/-- State of the number-scanning loop (`parse.rs`,
`Parser::parse_number`): mutable locals of the Rust function. -/
structure NumState where
  intValue : Int
  floatValue : Float
  isNegative : Bool
  hasDigits : Bool
  isFloat : Bool
  decimalPosition : Float

/-- Number-scanning loop (`parse.rs`, the `for` loop of
`Parser::parse_number`): accumulates decimal digits with `i32` checked
arithmetic (overflow reports `IntegerOverflow`), switches to float
mode at the first `.`, stops at `]` (consumed) or whitespace.  Float
accumulation uses Lean `Float` in place of Rust `f32`; no theorem
depends on a float value. -/
def parseNumberLoop (s : NumState) :
    List Char → Except PErr (NumState × Option Char × List Char)
  | [] => Except.ok (s, none, [])
  | c :: rest =>
    if c = '.' && !s.isFloat then
      parseNumberLoop
        { s with isFloat := true, floatValue := Float.ofInt s.intValue } rest
    else if asciiDigit c then
      let digit : Int := (digitVal c : Int)
      if s.isFloat then
        parseNumberLoop
          { s with hasDigits := true,
                   floatValue :=
                     s.floatValue + Float.ofInt digit * s.decimalPosition,
                   decimalPosition := s.decimalPosition * 0.1 } rest
      else
        let v := s.intValue * 10 + digit
        if v > 2147483647 then Except.error PErr.integerOverflow
        else parseNumberLoop { s with hasDigits := true, intValue := v } rest
    else if c = ']' then Except.ok (s, some c, rest)
    else if asciiWs c then Except.ok (s, none, rest)
    else Except.error (PErr.unexpectedChar c)

/-- Number parsing (`parse.rs`, `Parser::parse_number`): dispatched on
a `+`, `-` or digit; a signless-digit token is an integer or float
event, a bare sign is a word event, negation is `i32`-checked. -/
def parseNumber {σ : Type} (col : Collector σ) (st : σ)
    (first : Char) (rest : List Char) :
    Except PErr (σ × Option Char × List Char) := do
  let s0 : NumState :=
    { intValue := 0, floatValue := 0.0, isNegative := false,
      hasDigits := false, isFloat := false, decimalPosition := 0.1 }
  let s0 ←
    if first = '+' then Except.ok s0
    else if first = '-' then Except.ok { s0 with isNegative := true }
    else if asciiDigit first then
      Except.ok { s0 with intValue := (digitVal first : Int),
                          hasDigits := true }
    else Except.error (PErr.unexpectedChar first)
  let (s, consumed, rest1) ← parseNumberLoop s0 rest
  if !s.hasDigits then do
    let minus : String := String.mk ['-']
    let plus : String := String.mk ['+']
    let st1 ← collRes
      (col.word st WordKind.word (if s.isNegative then minus else plus))
    Except.ok (st1, consumed, rest1)
  else if s.isFloat then do
    let fv := if s.isNegative then -s.floatValue else s.floatValue
    let st1 ← collRes (col.float st fv)
    Except.ok (st1, consumed, rest1)
  else do
    let iv ←
      if s.isNegative then
        let n := -s.intValue
        if n < -2147483648 then Except.error PErr.integerOverflow
        else Except.ok n
      else Except.ok s.intValue
    let st1 ← collRes (col.integer st iv)
    Except.ok (st1, consumed, rest1)

/-- Token postlude (`parse.rs`, `Parser::process_block_end`): a
non-`/` terminator closes an open path; a `]` terminator closes the
block. -/
def processBlockEnd {σ : Type} (col : Collector σ) (st : σ) (inPath : Bool)
    (consumed : Option Char) : Except PErr (σ × Bool) := do
  let (st1, inPath1) ←
    match consumed with
    | some '/' => Except.ok (st, inPath)
    | _ =>
      if inPath then do
        let st1 ← collRes (col.end_path st)
        Except.ok (st1, false)
      else Except.ok (st, inPath)
  match consumed with
  | some ']' => do
    let st2 ← collRes (col.end_block st1)
    Except.ok (st2, inPath1)
  | _ => Except.ok (st1, inPath1)

/-- Main parse loop (`parse.rs`, `Parser::do_parse`), written with a
fuel parameter for termination; every iteration consumes at least one
character, so `input.length + 1` fuel (used by `parse`) never runs
out.  Dispatches on the first significant character exactly as the
Rust `match`. -/
def doParse {σ : Type} (col : Collector σ) :
    Nat → σ → Bool → List Char → Except PErr σ
  | 0, _, _, _ => Except.error PErr.unexpectedError
  | fuel + 1, st, inPath, input =>
    match skipWhitespace input with
    | none => Except.ok st
    | some (c, rest) => do
      let (st1, inPath1, consumed, rest1) ←
        if c = '[' then do
          let st1 ← collRes (col.begin_block st)
          Except.ok (st1, inPath, (none : Option Char), rest)
        else if c = ']' then
          Except.ok (st, inPath, some c, rest)
        else if c = '\"' then do
          let (st1, consumed, rest1) ← parseStringLoop col st [] false rest
          Except.ok (st1, inPath, consumed, rest1)
        else if c = ':' then parseWord col st inPath c rest
        else if asciiAlpha c || c = '<' || c = '>' then
          parseWord col st inPath c rest
        else if asciiDigit c || c = '+' || c = '-' then do
          let (st1, consumed, rest1) ← parseNumber col st c rest
          Except.ok (st1, inPath, consumed, rest1)
        else Except.error (PErr.unexpectedChar c)
      let (st2, inPath2) ← processBlockEnd col st1 inPath1 consumed
      doParse col fuel st2 inPath2 rest1

/-- Parse entry point (`parse.rs`, `Parser::parse`): consumes the
input exactly as given. -/
def parse {σ : Type} (col : Collector σ) (st : σ) (input : List Char) :
    Except PErr σ :=
  doParse col (input.length + 1) st false input

/-- Block entry point (`parse.rs`, `Parser::parse_block`): wraps the
input in one `begin_block`/`end_block` pair. -/
def parseBlock {σ : Type} (col : Collector σ) (st : σ) (input : List Char) :
    Except PErr σ := do
  let st1 ← collRes (col.begin_block st)
  let st2 ← parse col st1 input
  collRes (col.end_block st2)

/-- Parse events, for observing a parser run as a token list. -/
inductive Event where
  | str : String → Event
  | word : WordKind → String → Event
  | int : Int → Event
  | flt : Float → Event
  | beginBlock : Event
  | endBlock : Event
  | beginPath : Event
  | endPath : Event

/-- Event-recording collector (the shape of `SimpleCollector` in the
`parse.rs` tests): every callback appends one event. -/
def evCollector : Collector (List Event) :=
  { string := fun evs s => some (evs ++ [Event.str s]),
    word := fun evs k s => some (evs ++ [Event.word k s]),
    integer := fun evs n => some (evs ++ [Event.int n]),
    float := fun evs x => some (evs ++ [Event.flt x]),
    begin_block := fun evs => some (evs ++ [Event.beginBlock]),
    end_block := fun evs => some (evs ++ [Event.endBlock]),
    begin_path := fun evs => some (evs ++ [Event.beginPath]),
    end_path := fun evs => some (evs ++ [Event.endPath]) }

/-! VM-level errors (`vm.rs` `VmError` and the memory errors of the
spec's §7 taxonomy, flattened into one type; `outOfFuel` is the
embedding's marker for an exhausted interpreter fuel). -/

/-- Error type shared by the memory model, compiler and VM. -/
inductive Err where
  | outOfMemory : Err
  | outOfBounds : Err
  | stackOverflow : Err
  | stackUnderflow : Err
  | typeMismatch : Err
  | invalidTag : Err
  | wordNotFound : Err
  | invalidCode : Err
  | integerOverflow : Err
  | badNativeFunctionIndex : Err
  | outOfFuel : Err
deriving DecidableEq, Repr

/-- Modelled from the spec: the 8-byte tagged `Value` of the missing
`mem` module — a pair `(kind, data)` of 32-bit words (§3 of the
spec). -/
structure Value where
  kind : Nat
  data : Nat
deriving DecidableEq, Repr

/-- Modelled from the spec: numeric kind tags in the order of the
spec's §3 kind table; `vm.rs` only needs them distinct and
byte-sized. -/
def Value.NONE : Nat := 0

def Value.INT : Nat := 1

def Value.FLOAT : Nat := 2

def Value.BOOL : Nat := 3

def Value.STRING : Nat := 4

def Value.BLOCK : Nat := 5

def Value.PATH : Nat := 6

def Value.WORD : Nat := 7

def Value.SET_WORD : Nat := 8

def Value.GET_WORD : Nat := 9

def Value.NATIVE_FUNC : Nat := 10

def Value.FUNC : Nat := 11

/-- Two's-complement encoding of an `i32` into a `u32` data word. -/
def ofI32 (n : Int) : Nat := (n % 4294967296).toNat

/-- Two's-complement reading of a `u32` data word as an `i32`. -/
def toI32 (d : Nat) : Int :=
  if d < 2147483648 then (d : Int) else (d : Int) - 4294967296

/-- Modelled from the spec: `Value::int`. -/
def Value.int (n : Int) : Value := ⟨Value.INT, ofI32 n⟩

/-- Modelled from the spec: `Value::bool` (data 0 / 1). -/
def Value.bool (b : Bool) : Value := ⟨Value.BOOL, if b then 1 else 0⟩

/-- Modelled from the spec: `Value::string` over a byte-series
address. -/
def Value.string (a : Nat) : Value := ⟨Value.STRING, a⟩

/-- Modelled from the spec: `Value::native` over a native-descriptor
address. -/
def Value.native (a : Nat) : Value := ⟨Value.NATIVE_FUNC, a⟩

/-- Modelled from the spec: `Value::func` over a function-descriptor
address. -/
def Value.func (a : Nat) : Value := ⟨Value.FUNC, a⟩

/-- Modelled from the spec: `Value::any_word` — a word value of the
given parse kind over a symbol address. -/
def Value.any_word (k : WordKind) (a : Nat) : Value :=
  match k with
  | WordKind.word => ⟨Value.WORD, a⟩
  | WordKind.setWord => ⟨Value.SET_WORD, a⟩
  | WordKind.getWord => ⟨Value.GET_WORD, a⟩

/-- Modelled from the spec: `Value::as_int` — `TypeMismatch` unless
the kind is INT; the data word is read as a two's-complement
`i32`. -/
def asInt (v : Value) : Except Err Int :=
  if v.kind = Value.INT then Except.ok (toI32 v.data)
  else Except.error Err.typeMismatch

/-- Modelled from the spec: `Value::as_bool`. -/
def asBool (v : Value) : Except Err Bool :=
  if v.kind = Value.BOOL then Except.ok (v.data ≠ 0)
  else Except.error Err.typeMismatch

/-- Modelled from the spec: `Value::as_block` — the address of a value
series. -/
def asBlock (v : Value) : Except Err Nat :=
  if v.kind = Value.BLOCK then Except.ok v.data
  else Except.error Err.typeMismatch

/-- Modelled from the spec: the objects the arena can hold.  The real
arena is a flat byte buffer; the model types each allocation, which is
the data the spec ascribes to it: a value series with its `bindings`
extension field (0 = unset), a byte series (bytecode or string bytes),
a `NativeFunc` descriptor `(id, arity, consume)`, a `Func` descriptor
`(arity, body)`, a binding cell holding one `Value`, and an interned
or plain string. -/
inductive Obj where
  | values : List Value → Nat → Obj
  | bytes : List Nat → Obj
  | native : Nat → Nat → Nat → Obj
  | funcd : Nat → Nat → Obj
  | cell : Value → Obj
  | str : String → Obj
deriving DecidableEq, Repr

/-- Modelled from the spec: the arena state.  `heap` is the bump
allocator (object `i` lives at address `i + 1`; 0 is the unset/null
address), `words` the `system_words` binding table as an association
list from symbol address to binding-cell address (the spec fixes only
its lookup/store semantics, the hash layout is irrelevant), `symbols`
the symbol table from interned text to symbol address. -/
structure Mem where
  heap : List Obj
  words : List (Nat × Nat)
  symbols : List (String × Nat)
deriving DecidableEq, Repr

/-- Modelled from the spec: read the object at an address. -/
def getObj (m : Mem) (a : Nat) : Option Obj :=
  if a = 0 then none else m.heap.get? (a - 1)

/-- Modelled from the spec: bump allocation.  Addresses are 32-bit in
the real arena, so the model refuses growth past `2 ^ 32` objects
(`OutOfMemory`); every allocated address is nonzero and below
`2 ^ 32`. -/
def allocObj (m : Mem) (o : Obj) : Except Err (Nat × Mem) :=
  if m.heap.length + 1 < 4294967296 then
    Except.ok (m.heap.length + 1, { m with heap := m.heap ++ [o] })
  else Except.error Err.outOfMemory

/-- Modelled from the spec: overwrite the object at an (existing)
address in place. -/
def setObjRaw (m : Mem) (a : Nat) (o : Obj) : Mem :=
  { m with heap := m.heap.set (a - 1) o }

/-- Modelled from the spec: `get_mut::<Value>` on a binding cell plus
the write — update the cell at `a` to hold `v`. -/
def setCell (m : Mem) (a : Nat) (v : Value) : Except Err Mem :=
  match getObj m a with
  | some (Obj.cell _) => Except.ok (setObjRaw m a (Obj.cell v))
  | _ => Except.error Err.typeMismatch

/-- Association-list lookup used by the binding table model. -/
def assocNat (l : List (Nat × Nat)) (k : Nat) : Option Nat :=
  match l with
  | [] => none
  | (k1, v) :: rest => if k1 = k then some v else assocNat rest k

/-- Association-list lookup used by the symbol table model. -/
def assocStr (l : List (String × Nat)) (k : String) : Option Nat :=
  match l with
  | [] => none
  | (k1, v) :: rest => if k1 = k then some v else assocStr rest k

/-- Modelled from the spec: `bind_word(symbol, create)` — return the
stable binding-cell address for a symbol, creating a NONE-initialized
cell when `create` is set, else failing with `WordNotFound`. -/
def bind_word (m : Mem) (sym : Nat) (create : Bool) :
    Except Err (Nat × Mem) :=
  match assocNat m.words sym with
  | some cell => Except.ok (cell, m)
  | none =>
    if create then do
      let (cellAddr, m1) ← allocObj m (Obj.cell ⟨Value.NONE, 0⟩)
      Except.ok (cellAddr, { m1 with words := (sym, cellAddr) :: m1.words })
    else Except.error Err.wordNotFound

/-- Modelled from the spec: `get_word(symbol)` — the current `Value`
bound to a symbol, or `WordNotFound`. -/
def get_word (m : Mem) (sym : Nat) : Except Err Value :=
  match assocNat m.words sym with
  | some cell =>
    match getObj m cell with
    | some (Obj.cell v) => Except.ok v
    | _ => Except.error Err.typeMismatch
  | none => Except.error Err.wordNotFound

/-- Modelled from the spec: `set_word(symbol, v)` — bind (creating the
cell if needed) and store. -/
def set_word (m : Mem) (sym : Nat) (v : Value) : Except Err Mem := do
  let (cell, m1) ← bind_word m sym true
  setCell m1 cell v

/-- Modelled from the spec: `get_or_add_symbol` — intern a name,
returning the existing symbol address when the text was interned
before. -/
def get_or_add_symbol (m : Mem) (name : String) :
    Except Err (Nat × Mem) :=
  match assocStr m.symbols name with
  | some a => Except.ok (a, m)
  | none => do
    let (a, m1) ← allocObj m (Obj.str name)
    Except.ok (a, { m1 with symbols := (name, a) :: m1.symbols })

/-! The standard library (`stdlib.rs`). -/

/-- Host-side native implementations (`stdlib.rs` functions `add`,
`lt`, `either`, `func`); the `+` and `<` descriptors reuse `add` and
`lt`. -/
inductive NativeImpl where
  | addImpl : NativeImpl
  | ltImpl : NativeImpl
  | eitherImpl : NativeImpl
  | funcImpl : NativeImpl
deriving DecidableEq, Repr

/-- Native-function descriptor (`vm.rs`, `NativeDescriptor`): name,
description, host function, arity and consume count. -/
structure NativeDescriptor where
  name : String
  description : String
  func : NativeImpl
  arity : Nat
  consume : Nat
deriving DecidableEq, Repr

/-- Descriptor constructor for normal calls (`vm.rs`,
`NativeDescriptor::new`): `consume` is set equal to `arity`. -/
def NativeDescriptor.new (name description : String) (func : NativeImpl)
    (arity : Nat) : NativeDescriptor :=
  ⟨name, description, func, arity, arity⟩

/-- Descriptor constructor for operator forms (`vm.rs`,
`NativeDescriptor::new_op`): `arity` and `consume` are given
separately. -/
def NativeDescriptor.new_op (name description : String) (func : NativeImpl)
    (arity consume : Nat) : NativeDescriptor :=
  ⟨name, description, func, arity, consume⟩

/-- The native-function table of the standard library (`stdlib.rs`,
`NATIVES`), in registration order; a native's id is its index. -/
def NATIVES : List NativeDescriptor :=
  [NativeDescriptor.new "add" "add two numbers function" NativeImpl.addImpl 2,
   NativeDescriptor.new_op "+" "add two numbers operator" NativeImpl.addImpl 1 2,
   NativeDescriptor.new "lt" "less than function" NativeImpl.ltImpl 2,
   NativeDescriptor.new_op "<" "less than operator" NativeImpl.ltImpl 1 2,
   NativeDescriptor.new "either" "execute one of two blocks" NativeImpl.eitherImpl 3,
   NativeDescriptor.new "func" "create a function" NativeImpl.funcImpl 2]

/-- Native registration loop of `Vm::new` (`vm.rs`): for each
descriptor, intern its name, allocate its description string and its
`NativeFunc` object (id = registration index), and bind the name to a
NATIVE_FUNC value. -/
def registerNatives : Nat → List NativeDescriptor → Mem → Except Err Mem
  | _, [], m => Except.ok m
  | i, d :: rest, m => do
    let (symbolAddr, m1) ← get_or_add_symbol m d.name
    let (_descAddr, m2) ← allocObj m1 (Obj.str d.description)
    let (nAddr, m3) ← allocObj m2 (Obj.native i d.arity d.consume)
    let m4 ← set_word m3 symbolAddr (Value.native nAddr)
    registerNatives (i + 1) rest m4

/-- Initial VM memory (`Vm::new`): the arena after registering the
standard library.  The real constructor also reserves a descriptor
series up front; the model allocates each descriptor as its own
object, which only shifts concrete addresses. -/
def vmNew : Except Err Mem := registerNatives 0 NATIVES ⟨[], [], []⟩

/-! The single-pass compiler (`vm.rs`, `Process::compile`). -/

/-- Bytecode opcodes (`vm.rs`, `Code`). -/
def Code.RET : Nat := 0

def Code.CONST : Nat := 1

def Code.NONE : Nat := 2

def Code.WORD : Nat := 3

def Code.SET_WORD : Nat := 4

def Code.LEAVE : Nat := 5

def Code.CALL_NATIVE : Nat := 6

def Code.CALL_FUNC : Nat := 7

/-- Deferred-call payload (`vm.rs`, enum `Call`). -/
inductive CallK where
  | setWord : Nat → CallK
  | callNative : Nat → CallK
  | callFunc : Nat → CallK
deriving DecidableEq, Repr

/-- Deferred-call entry (`vm.rs`, `Defer`): payload, base pointer,
arity and consume count. -/
structure Defer where
  call : CallK
  bp : Nat
  arity : Nat
  consume : Nat
deriving DecidableEq, Repr

/-- Little-endian bytes of a `u32` (`u32::to_ne_bytes` on the
little-endian targets the code runs on). -/
def leBytes4 (n : Nat) : List Nat :=
  [n % 256, n / 256 % 256, n / 65536 % 256, n / 16777216 % 256]

/-- Little-endian bytes of a `u16` (`u16::to_ne_bytes`). -/
def leBytes2 (n : Nat) : List Nat :=
  [n % 256, n / 256 % 256]

/-- `ArrayStack::push` on the 1024-byte `ByteCode` buffer. -/
def codePush (code : List Nat) (b : Nat) : Except Err (List Nat) :=
  if code.length < 1024 then Except.ok (code ++ [b])
  else Except.error Err.stackOverflow

/-- `ArrayStack::extend` on the 1024-byte `ByteCode` buffer. -/
def codeExtend (code : List Nat) (bs : List Nat) : Except Err (List Nat) :=
  if code.length + bs.length ≤ 1024 then Except.ok (code ++ bs)
  else Except.error Err.stackOverflow

/-- `ArrayStack::push` on the 64-entry defer stack; the head of the
list is the top of the stack. -/
def pushDefer (ds : List Defer) (d : Defer) : Except Err (List Defer) :=
  if ds.length < 64 then Except.ok (d :: ds)
  else Except.error Err.stackOverflow

/-- Bytecode emission for a fired defer (`vm.rs`, the `match
defer.call` block of `Process::compile`). -/
def emitCall (c : CallK) (code : List Nat) : Except Err (List Nat) :=
  match c with
  | CallK.setWord binding => do
    let code1 ← codePush code Code.SET_WORD
    codeExtend code1 (leBytes4 binding)
  | CallK.callNative funcId => do
    let code1 ← codePush code Code.CALL_NATIVE
    codeExtend code1 (leBytes2 funcId)
  | CallK.callFunc funcAddress => do
    let code1 ← codePush code Code.CALL_FUNC
    codeExtend code1 (leBytes4 funcAddress)

/-- Defer-flushing loop (`vm.rs`, the inner `while let Some(defer)` of
`Process::compile`): while the top defer's `bp + arity` equals the
simulated stack length, emit its call and account `-consume, +1`.  The
compile-time stack length is a `u16` (`Short`), so the arithmetic is
taken `% 2 ^ 16`. -/
def flushDefers : List Defer → Nat → List Nat →
    Except Err (List Defer × Nat × List Nat)
  | [], sl, code => Except.ok ([], sl, code)
  | d :: rest, sl, code =>
    if sl = (d.bp + d.arity) % 65536 then do
      let sl1 := ((sl + 65536 - d.consume) % 65536 + 1) % 65536
      let code1 ← emitCall d.call code
      flushDefers rest sl1 code1
    else Except.ok (d :: rest, sl, code)

/-- Option-to-result lift: how the typed memory reads surface missing
data as errors. -/
def optReq {α : Type} (o : Option α) (e : Err) : Except Err α :=
  match o with
  | some a => Except.ok a
  | none => Except.error e

/-- Modelled from the spec: `get::<Block>` on a value series — its
values and its `bindings` field. -/
def blockInfo (m : Mem) (a : Nat) : Except Err (List Value × Nat) :=
  match getObj m a with
  | some (Obj.values vals b) => Except.ok (vals, b)
  | _ => Except.error Err.typeMismatch

/-- Modelled from the spec: `get::<NativeFunc>` — the `(func_id,
arity, consume)` fields of a native descriptor, read back as the
`u16`/`u8`/`u8` they are stored as. -/
def nativeInfo (m : Mem) (a : Nat) : Except Err (Nat × Nat × Nat) :=
  match getObj m a with
  | some (Obj.native id arity consume) =>
    Except.ok (id % 65536, arity % 256, consume % 256)
  | _ => Except.error Err.typeMismatch

/-- Modelled from the spec: `get::<Func>` — the `(arity, body)` fields
of a user-function descriptor, read back as `u8`/`u32`. -/
def funcInfo (m : Mem) (a : Nat) : Except Err (Nat × Nat) :=
  match getObj m a with
  | some (Obj.funcd arity body) =>
    Except.ok (arity % 256, body % 4294967296)
  | _ => Except.error Err.typeMismatch

/-- Modelled from the spec: `get::<Value>` on a binding cell. -/
def cellVal (m : Mem) (a : Nat) : Except Err Value :=
  match getObj m a with
  | some (Obj.cell v) => Except.ok v
  | _ => Except.error Err.typeMismatch

/-- WORD resolution in the compiler (`vm.rs`, the `let value = {…}`
block of `Process::compile`): a WORD whose current binding holds a
NATIVE_FUNC or FUNC is replaced by that binding; a missing binding is
an error (`get_word`'s `?`). -/
def resolveWord (m : Mem) (v0 : Value) : Except Err Value :=
  if v0.kind = Value.WORD then do
    let resolved ← get_word m v0.data
    if resolved.kind = Value.NATIVE_FUNC ∨ resolved.kind = Value.FUNC
    then Except.ok resolved
    else Except.ok v0
  else Except.ok v0

/-- Kind dispatch of the compiler (`vm.rs`, `match value.kind()` in
`Process::compile`): emit `WORD` bytecode, push a SET_WORD /
CALL_NATIVE / CALL_FUNC defer, or emit `CONST` for plain data. -/
def compileDispatch (m : Mem) (defers : List Defer) (sl : Nat)
    (code : List Nat) (v : Value) :
    Except Err (Mem × List Defer × Nat × List Nat) :=
  if v.kind = Value.WORD then do
    let bm ← bind_word m v.data false
    let code1 ← codePush code Code.WORD
    let code2 ← codeExtend code1 (leBytes4 bm.1)
    Except.ok (bm.2, defers, (sl + 1) % 65536, code2)
  else if v.kind = Value.SET_WORD then do
    let bm ← bind_word m v.data true
    let defers1 ← pushDefer defers ⟨CallK.setWord bm.1, sl, 1, 1⟩
    Except.ok (bm.2, defers1, sl, code)
  else if v.kind = Value.NATIVE_FUNC then do
    let nf ← nativeInfo m v.data
    let defers1 ← pushDefer defers
      ⟨CallK.callNative nf.1, sl, nf.2.1, nf.2.2⟩
    Except.ok (m, defers1, sl, code)
  else if v.kind = Value.FUNC then do
    let f ← funcInfo m v.data
    let defers1 ← pushDefer defers
      ⟨CallK.callFunc (v.data % 4294967296), sl, f.1, f.1⟩
    Except.ok (m, defers1, sl, code)
  else do
    let code1 ← codeExtend code [Code.CONST, v.kind % 256]
    let code2 ← codeExtend code1 (leBytes4 v.data)
    Except.ok (m, defers, (sl + 1) % 65536, code2)

/-- Handling of one source value in the compile loop: resolution then
dispatch. -/
def compileStep (m : Mem) (defers : List Defer) (sl : Nat)
    (code : List Nat) (v0 : Value) :
    Except Err (Mem × List Defer × Nat × List Nat) := do
  let v ← resolveWord m v0
  compileDispatch m defers sl code v

/-- The value fetch of the compile loop (`vm.rs`,
`self.vm.memory.get::<Value>(ip).copied()?` at source index `i`). -/
def compileFetch (m : Mem) (blockAddr i : Nat) : Except Err Value := do
  let vb ← blockInfo m blockAddr
  optReq (vb.1.get? i) Err.outOfBounds

/-- Main compile loop (`vm.rs`, the `loop` of `Process::compile`),
structurally recursive on the number of source values left
(`remaining`, with `i` the next index — the Rust loop walks `ip` from
the block payload to `end`).  Each iteration first flushes satisfied
defers, then breaks if the source is exhausted (dropping unsatisfied
defers), else fetches value `i` and handles it with `compileStep`. -/
def compileLoop (blockAddr : Nat) :
    Nat → Nat → Mem → List Defer → Nat → List Nat →
    Except Err (Nat × List Nat × Mem)
  | 0, _, m, defers, sl, code => do
    let fl ← flushDefers defers sl code
    Except.ok (fl.2.1, fl.2.2, m)
  | remaining + 1, i, m, defers, sl, code => do
    let fl ← flushDefers defers sl code
    let v0 ← compileFetch m blockAddr i
    let stp ← compileStep m fl.1 fl.2.1 fl.2.2 v0
    compileLoop blockAddr remaining (i + 1) stp.1 stp.2.1 stp.2.2.1 stp.2.2.2

/-- The trailing stack-fix of the compiler (`vm.rs`, `match stack_len`
at the end of `Process::compile`): `NONE` when the simulated length is
0, nothing at 1, `LEAVE n` — with `n as u8` — otherwise. -/
def fixStack (sl : Nat) (code : List Nat) : Except Err (List Nat) :=
  match sl with
  | 0 => codePush code Code.NONE
  | 1 => Except.ok code
  | n => codeExtend code [Code.LEAVE, n % 256]

/-- Block compiler (`vm.rs`, `Process::compile`): run the compile
loop over the block's values (their count is `memory.len(block)`),
emit the stack-fix and a final `RET`, and allocate the byte series
(`alloc_items`). -/
def compile (m : Mem) (blockAddr : Nat) : Except Err (Nat × Mem) := do
  let vb ← blockInfo m blockAddr
  let r ← compileLoop blockAddr vb.1.length 0 m [] 0 []
  let code1 ← fixStack r.1 r.2.1
  let code2 ← codePush code1 Code.RET
  allocObj r.2.2 (Obj.bytes code2)

/-- Memoizing compile (`vm.rs`, `Process::get_binding`): a nonzero
`bindings` field of the block is returned as the cached bytecode
address; otherwise the block is compiled once and the code address
stored into `bindings`. -/
def get_binding (m : Mem) (seriesAddr : Nat) : Except Err (Nat × Mem) := do
  let vb ← blockInfo m seriesAddr
  if vb.2 ≠ 0 then Except.ok (vb.2, m)
  else do
    let r ← compile m seriesAddr
    let vb1 ← blockInfo r.2 seriesAddr
    Except.ok (r.1, setObjRaw r.2 seriesAddr (Obj.values vb1.1 r.1))

/-! The VM (`vm.rs`, `Process::run` and the natives it dispatches). -/

/-- Instruction pointer: the halt sentinel (`ip == 0`), or a byte
offset into a code series (the real `ip` is a flat byte address; the
series/offset pair is the same data under the typed arena). -/
inductive IP where
  | halt : IP
  | pos : Nat → Nat → IP
deriving DecidableEq, Repr

/-- Process state (`vm.rs`, `Process`): arena, operand stack (head =
top, 64 slots), call stack (64 slots) and instruction pointer. -/
structure PState where
  mem : Mem
  stack : List Value
  callStack : List IP
  ip : IP
deriving DecidableEq, Repr

/-- `ArrayStack::push` on the 64-slot operand stack. -/
def pushVal (s : List Value) (v : Value) : Except Err (List Value) :=
  if s.length < 64 then Except.ok (v :: s)
  else Except.error Err.stackOverflow

/-- `ArrayStack::push` on the 64-slot call stack. -/
def pushIP (s : List IP) (ip : IP) : Except Err (List IP) :=
  if s.length < 64 then Except.ok (ip :: s)
  else Except.error Err.stackOverflow

/-- `ArrayStack::pop_n`: remove the top `n` operands and return them
bottom-first, as the Rust slice is ordered. -/
def popN (s : List Value) (n : Nat) : Except Err (List Value × List Value) :=
  if n ≤ s.length then Except.ok ((s.take n).reverse, s.drop n)
  else Except.error Err.stackUnderflow

/-- `ArrayStack::nip` (the `LEAVE` primitive): replace the element `n`
deep with the top and truncate just above it; fails for `n = 0` or a
stack shorter than `n`. -/
def nip (s : List Value) (n : Nat) : Except Err (List Value) :=
  if n = 0 then Except.error Err.stackUnderflow
  else
    match s with
    | [] => Except.error Err.stackUnderflow
    | v :: _ =>
      if n ≤ s.length then Except.ok (v :: s.drop n)
      else Except.error Err.stackUnderflow

/-- Result of fetching one opcode byte (`InstructionPointer::
read_code`): `eof` ends the interpreter loop (the Rust read returns
`None` past the memory); reading from a non-bytecode object has no
defined meaning in the spec (the flat buffer would reinterpret
neighbouring bytes) and is modelled as a hard stop, `bad`. -/
inductive ReadRes where
  | eof : ReadRes
  | bad : ReadRes
  | byte : Nat → IP → ReadRes

/-- Fetch one opcode byte and advance. -/
def readCode (m : Mem) : IP → ReadRes
  | IP.halt => ReadRes.eof
  | IP.pos a o =>
    match getObj m a with
    | some (Obj.bytes bs) =>
      match bs.get? o with
      | some b => ReadRes.byte b (IP.pos a (o + 1))
      | none => ReadRes.eof
    | _ => ReadRes.bad

/-- `InstructionPointer::read_u8`: immediate byte; missing bytes are
`OutOfBounds` errors (unlike the opcode fetch). -/
def readU8 (m : Mem) : IP → Except Err (Nat × IP)
  | IP.halt => Except.error Err.outOfBounds
  | IP.pos a o =>
    match getObj m a with
    | some (Obj.bytes bs) =>
      match bs.get? o with
      | some b => Except.ok (b, IP.pos a (o + 1))
      | none => Except.error Err.outOfBounds
    | _ => Except.error Err.outOfBounds

/-- `InstructionPointer::read_u16` (native-endian = little-endian). -/
def readU16 (m : Mem) (ip : IP) : Except Err (Nat × IP) := do
  let r0 ← readU8 m ip
  let r1 ← readU8 m r0.2
  Except.ok (r0.1 + 256 * r1.1, r1.2)

/-- `InstructionPointer::read_u32` (native-endian = little-endian). -/
def readU32 (m : Mem) (ip : IP) : Except Err (Nat × IP) := do
  let r0 ← readU8 m ip
  let r1 ← readU8 m r0.2
  let r2 ← readU8 m r1.2
  let r3 ← readU8 m r2.2
  Except.ok (r0.1 + 256 * r1.1 + 65536 * r2.1 + 16777216 * r3.1, r3.2)

/-- Native `add` (`stdlib.rs`): pop two ints, checked `i32` addition,
push the sum. -/
def nativeAdd (st : PState) : Except Err PState := do
  let (vs, rest) ← popN st.stack 2
  match vs with
  | [va, vb] => do
    let a ← asInt va
    let b ← asInt vb
    let r := a + b
    if r < -2147483648 ∨ r > 2147483647 then Except.error Err.integerOverflow
    else do
      let s1 ← pushVal rest (Value.int r)
      Except.ok { st with stack := s1 }
  | _ => Except.error Err.stackUnderflow

/-- Native `lt` (`stdlib.rs`): pop two ints, push `a < b`. -/
def nativeLt (st : PState) : Except Err PState := do
  let (vs, rest) ← popN st.stack 2
  match vs with
  | [va, vb] => do
    let a ← asInt va
    let b ← asInt vb
    let s1 ← pushVal rest (Value.bool (a < b))
    Except.ok { st with stack := s1 }
  | _ => Except.error Err.stackUnderflow

/-- Native `either` (`stdlib.rs`): pop condition and two block
values, pick a branch, fetch or compile its bytecode via
`get_binding`, and `Process::call` into it. -/
def nativeEither (st : PState) : Except Err PState := do
  let (vs, rest) ← popN st.stack 3
  match vs with
  | [cond, ifTrue, ifFalse] => do
    let c ← asBool cond
    let blockVal := if c then ifTrue else ifFalse
    let series ← asBlock blockVal
    let gb ← get_binding st.mem series
    let cs ← pushIP st.callStack st.ip
    Except.ok { st with mem := gb.2, stack := rest, callStack := cs,
                        ip := IP.pos gb.1 0 }
  | _ => Except.error Err.stackUnderflow

/-- Native `func` (`stdlib.rs`): pop spec and body blocks, allocate a
`Func` descriptor with arity = length of the spec block and the body
block's address, push a FUNC value. -/
def nativeFunc (st : PState) : Except Err PState := do
  let (vs, rest) ← popN st.stack 2
  match vs with
  | [spec, body] => do
    let specAddr ← asBlock spec
    let bodyAddr ← asBlock body
    let vb ← blockInfo st.mem specAddr
    let am ← allocObj st.mem (Obj.funcd vb.1.length bodyAddr)
    let s1 ← pushVal rest (Value.func am.1)
    Except.ok { st with mem := am.2, stack := s1 }
  | _ => Except.error Err.stackUnderflow

/-- Host dispatch table (`Vm::new` fills `natives` in `NATIVES`
order, so a native's id indexes this list). -/
def nativeById (id : Nat) : Option NativeImpl :=
  (NATIVES.map NativeDescriptor.func).get? id

/-- Run one native implementation. -/
def runNative : NativeImpl → PState → Except Err PState
  | NativeImpl.addImpl => nativeAdd
  | NativeImpl.ltImpl => nativeLt
  | NativeImpl.eitherImpl => nativeEither
  | NativeImpl.funcImpl => nativeFunc

/-- Outcome of one interpreter iteration: continue, or leave the
`while` loop (opcode fetch past the end, or `RET` into the halt
sentinel). -/
inductive Outcome where
  | next : PState → Outcome
  | stop : PState → Outcome

/-- One iteration of the interpreter loop (`vm.rs`, the body of
`Process::run`'s `while let` loop): fetch an opcode and dispatch. -/
def step (st0 : PState) : Except Err Outcome :=
  match readCode st0.mem st0.ip with
  | ReadRes.eof => Except.ok (Outcome.stop st0)
  | ReadRes.bad => Except.error Err.invalidCode
  | ReadRes.byte op ip1 =>
    let st := { st0 with ip := ip1 }
    if op = Code.CONST then do
      let rk ← readU8 st.mem st.ip
      let rd ← readU32 st.mem rk.2
      let s1 ← pushVal st.stack ⟨rk.1, rd.1⟩
      Except.ok (Outcome.next { st with ip := rd.2, stack := s1 })
    else if op = Code.WORD then do
      let rb ← readU32 st.mem st.ip
      let v ← cellVal st.mem rb.1
      let s1 ← pushVal st.stack v
      Except.ok (Outcome.next { st with ip := rb.2, stack := s1 })
    else if op = Code.SET_WORD then do
      let rb ← readU32 st.mem st.ip
      let v ← optReq st.stack.head? Err.stackUnderflow
      let m1 ← setCell st.mem rb.1 v
      Except.ok (Outcome.next { st with ip := rb.2, mem := m1 })
    else if op = Code.LEAVE then do
      let rn ← readU8 st.mem st.ip
      let s1 ← nip st.stack rn.1
      Except.ok (Outcome.next { st with ip := rn.2, stack := s1 })
    else if op = Code.RET then
      match st.callStack with
      | [] => Except.error Err.stackUnderflow
      | top :: rest =>
        let st1 := { st with ip := top, callStack := rest }
        if top = IP.halt then Except.ok (Outcome.stop st1)
        else Except.ok (Outcome.next st1)
    else if op = Code.NONE then do
      let s1 ← pushVal st.stack ⟨Value.NONE, 0⟩
      Except.ok (Outcome.next { st with stack := s1 })
    else if op = Code.CALL_NATIVE then do
      let ri ← readU16 st.mem st.ip
      let impl ← optReq (nativeById ri.1) Err.badNativeFunctionIndex
      let st1 ← runNative impl { st with ip := ri.2 }
      Except.ok (Outcome.next st1)
    else if op = Code.CALL_FUNC then do
      let ra ← readU32 st.mem st.ip
      let f ← funcInfo st.mem ra.1
      let cs ← pushIP st.callStack ra.2
      Except.ok (Outcome.next
        { st with callStack := cs, ip := IP.pos f.2 0 })
    else Except.error Err.invalidCode

/-- The interpreter loop (`vm.rs`, `Process::run` before the final
pop), iterating `step` under a fuel bound. -/
def runLoop : Nat → PState → Except Err PState
  | 0, _ => Except.error Err.outOfFuel
  | fuel + 1, st =>
    match step st with
    | Except.error e => Except.error e
    | Except.ok (Outcome.stop st1) => Except.ok st1
    | Except.ok (Outcome.next st1) => runLoop fuel st1

/-- `Process::run`: the loop, then pop the final result. -/
def run (fuel : Nat) (st : PState) : Except Err (Value × PState) := do
  let st1 ← runLoop fuel st
  match st1.stack with
  | v :: rest => Except.ok (v, { st1 with stack := rest })
  | [] => Except.error Err.stackUnderflow

/-- `Process::call`: push the current ip onto the call stack, jump to
the start of a code series. -/
def call (st : PState) (codeAddr : Nat) : Except Err PState := do
  let cs ← pushIP st.callStack st.ip
  Except.ok { st with callStack := cs, ip := IP.pos codeAddr 0 }

/-- `Process::exec`: `call` then `run`. -/
def exec (fuel : Nat) (st : PState) (codeAddr : Nat) :
    Except Err (Value × PState) := do
  let st1 ← call st codeAddr
  run fuel st1

/-! The arena parse collector (`vm.rs`, `ParseCollector`) and the
driver pipeline (`Vm::parse_block`, then `Process::compile` and
`Process::exec` as in the `run_test_exec` driver). -/

/-- Collector state (`vm.rs`, `ParseCollector`): the arena plus two
256-slot transient stacks — pending values (bottom-first, as the
`ArrayStack` is laid out) and group start positions. -/
structure PCState where
  mem : Mem
  stack : List Value
  posStack : List Nat
deriving DecidableEq, Repr

/-- `ArrayStack::push` on the collector's 256-slot value stack. -/
def pushPC (s : PCState) (v : Value) : Option PCState :=
  if s.stack.length < 256 then some { s with stack := s.stack ++ [v] }
  else none

/-- `ParseCollector::begin`: record the current value-stack height. -/
def beginPC (s : PCState) : Option PCState :=
  if s.posStack.length < 256 then some { s with posStack := s.stack.length :: s.posStack }
  else none

/-- `ParseCollector::end`: pop the group's start position, move the
values above it into a freshly allocated value series (`bindings`
unset), and push a value of the given kind referring to it. -/
def endPC (s : PCState) (kind : Nat) : Option PCState :=
  match s.posStack with
  | [] => none
  | pos :: posRest =>
    let items := s.stack.drop pos
    match allocObj s.mem (Obj.values items 0) with
    | Except.ok (a, m1) =>
      pushPC { s with mem := m1, stack := s.stack.take pos, posStack := posRest }
        ⟨kind, a⟩
    | Except.error _ => none

/-- The arena collector (`vm.rs`, `impl Collector for ParseCollector`):
strings are allocated in the arena, words interned, integers stored as
INT values; float data is abstracted to 0 in place of the `f32` bit
pattern (no claim reads it); blocks and paths drain the pending
values into a new series. -/
def vmCollector : Collector PCState :=
  { string := fun s txt =>
      match allocObj s.mem (Obj.str txt) with
      | Except.ok (a, m1) => pushPC { s with mem := m1 } (Value.string a)
      | Except.error _ => none,
    word := fun s k txt =>
      match get_or_add_symbol s.mem txt with
      | Except.ok (a, m1) => pushPC { s with mem := m1 } (Value.any_word k a)
      | Except.error _ => none,
    integer := fun s n => pushPC s (Value.int n),
    float := fun s _x => pushPC s ⟨Value.FLOAT, 0⟩,
    begin_block := beginPC,
    end_block := fun s => endPC s Value.BLOCK,
    begin_path := beginPC,
    end_path := fun s => endPC s Value.PATH }

/-- `Vm::parse_block`: run the parser with the arena collector over
the input wrapped as one block, then pop the root value. -/
def vmParseBlock (m : Mem) (input : List Char) :
    Except PErr (Value × PCState) := do
  let s1 ← parseBlock vmCollector ⟨m, [], []⟩ input
  match s1.stack.getLast? with
  | some v => Except.ok (v, { s1 with stack := s1.stack.dropLast })
  | none => Except.error PErr.collectorError

/-- Driver-level errors: a parse error or a memory/VM error. -/
inductive PipeErr where
  | parseE : PErr → PipeErr
  | vmE : Err → PipeErr
deriving DecidableEq, Repr

/-- The full driver (`create_test_vm` + `run_test_exec` in the
`vm.rs` tests, the spec's §2 control flow): build the VM, parse the
source into a block, compile it, execute it on a fresh process, and
return the final value with the final process state. -/
def pipeline (fuel : Nat) (input : List Char) :
    Except PipeErr (Value × PState) := do
  let m0 ← (vmNew).mapError PipeErr.vmE
  let (root, pc) ← (vmParseBlock m0 input).mapError PipeErr.parseE
  let blockAddr ← (asBlock root).mapError PipeErr.vmE
  let (codeAddr, m1) ← (compile pc.mem blockAddr).mapError PipeErr.vmE
  let st0 : PState := ⟨m1, [], [], IP.halt⟩
  (exec fuel st0 codeAddr).mapError PipeErr.vmE

/-! The current arena revision (`mem.rs` in the source tree):
word-addressed memory, capacity/length-prefixed regions and the
`Stack` push path.  This carries claim C7. -/

/-- The memory of `mem.rs`: a mutable slice of 32-bit words
(`Memory<'a>`).  Stored words are `u32`; the claims only exercise
in-range values, so the model keeps `Nat`. -/
structure WMem where
  words : List Nat
deriving DecidableEq, Repr

/-- `Memory::get_word`. -/
def getw (m : WMem) (a : Nat) : Option Nat := m.words.get? a

/-- `Memory::set_word`. -/
def setw (m : WMem) (a : Nat) (v : Nat) : Option WMem :=
  if a < m.words.length then some ⟨m.words.set a v⟩ else none

/-- `CapAddress::alloc_slot(size_bytes)` (`mem.rs`), translated
statement by statement in mutating style — the returned memory
reflects every write made before a failure.  Reads the capacity word
at `a` and the length word at `a + 1`, rejects the allocation when
`new_len > cap_bytes` **before any write**, then writes the new
length, then checks the data area (`get_mut(data_address,
cap_words)`) lies inside the memory.  On success returns the byte
range of the fresh slot relative to the data area. -/
def alloc_slot (a : Nat) (sizeBytes : Nat) (m : WMem) :
    Option (Nat × Nat) × WMem :=
  match getw m a with
  | none => (none, m)
  | some capWords =>
    let capBytes := capWords * 4
    match getw m (a + 1) with
    | none => (none, m)
    | some oldLen =>
      let newLen := oldLen + sizeBytes
      if newLen > capBytes then (none, m)
      else
        match setw m (a + 1) newLen with
        | none => (none, m)
        | some m1 =>
          if a + 2 + capWords ≤ m1.words.length then
            (some (oldLen, newLen), m1)
          else (none, m1)

/-- One byte store into the little-endian byte view of the word slice
(`u32_slice_to_u8_slice_mut` plus the write `Item::store` performs). -/
def setByte (m : WMem) (byteAddr : Nat) (b : Nat) : Option WMem :=
  match getw m (byteAddr / 4) with
  | none => none
  | some w =>
    let p : Nat := 256 ^ (byteAddr % 4)
    setw m (byteAddr / 4) (w - w / p % 256 * p + b % 256 * p)

/-- `Item::store` of an item's byte string into a slot starting at
byte offset `off` of the data area of the region at `a`. -/
def storeBytes (a : Nat) : List Nat → Nat → WMem → Option WMem
  | [], _, m => some m
  | b :: rest, off, m =>
    match setByte m ((a + 2) * 4 + off) b with
    | none => none
    | some m1 => storeBytes a rest (off + 1) m1

/-- `Stack::push` (`mem.rs`): `alloc_slot(I::SIZE)` then
`item.store(slot)`.  The item is represented by its stored byte
string (`I::SIZE` bytes, as every `Item` implementation writes). -/
def stack_push (a : Nat) (item : List Nat) (m : WMem) :
    Option Unit × WMem :=
  match alloc_slot a item.length m with
  | (none, m1) => (none, m1)
  | (some slot, m1) =>
    match storeBytes a item slot.1 m1 with
    | none => (none, m1)
    | some m2 => (some (), m2)

/-- Claim C7.  A push that fails the capacity check leaves the Series
unchanged: when `len + size > cap * 4` (the spec's `StackOverflow`
condition), `Stack::push` returns failure and the memory — the length
field and every element word with it — is exactly the memory before
the call, because `alloc_slot` performs the range check before any
header update. -/
theorem push_capacity_failure_leaves_series_unchanged
    (m : WMem) (a : Nat) (item : List Nat) (cap len : Nat)
    (hcap : getw m a = some cap) (hlen : getw m (a + 1) = some len)
    (hover : len + item.length > cap * 4) :
    stack_push a item m = (none, m) ∧
    getw (stack_push a item m).2 (a + 1) = some len ∧
    ∀ i, getw (stack_push a item m).2 i = getw m i := by
  have halloc : alloc_slot a item.length m = (none, m) := by
    simp only [alloc_slot, hcap, hlen]
    rw [if_pos hover]
  have hpush : stack_push a item m = (none, m) := by
    simp only [stack_push, halloc]
  refine ⟨hpush, ?_, ?_⟩
  · rw [hpush]
    exact hlen
  · intro i
    rw [hpush]

/-- Concrete memory for the C7 witness: a full one-word stack region
at address 0 (capacity 1 word = 4 bytes, length 4). -/
def c7mem : WMem := ⟨[1, 4, 0]⟩

/-- Witness for C7: pushing one more byte onto the full stack of
`c7mem` fails and changes nothing. -/
theorem push_capacity_failure_witness :
    stack_push 0 [9] c7mem = (none, c7mem) ∧
    getw (stack_push 0 [9] c7mem).2 1 = some 4 ∧
    ∀ i, getw (stack_push 0 [9] c7mem).2 i = getw c7mem i :=
  push_capacity_failure_leaves_series_unchanged c7mem 0 [9] 1 4
    (by decide) (by decide) (by decide)

/-! Decimal accumulation lemmas for the parser's integer overflow
check.  This carries claim C8. -/

/-- The value the parser's digit loop would accumulate over a digit
string, starting from `acc` (the fold of `acc * 10 + digit`). -/
def digitsAccVal (acc : Int) : List Char → Int
  | [] => acc
  | c :: cs => digitsAccVal (acc * 10 + (digitVal c : Int)) cs

theorem asciiDigit_bounds {c : Char} (h : asciiDigit c = true) :
    48 ≤ c.toNat ∧ c.toNat ≤ 57 := by
  unfold asciiDigit at h
  simp only [Bool.and_eq_true, decide_eq_true_eq] at h
  exact h

theorem asciiDigit_ne_dot {c : Char} (h : asciiDigit c = true) :
    ¬ (c = '.') := by
  intro hEq
  have hb := asciiDigit_bounds h
  rw [hEq] at hb
  simp at hb

theorem digitVal_le_9 {c : Char} (h : asciiDigit c = true) :
    digitVal c ≤ 9 := by
  have hb := asciiDigit_bounds h
  have h0 : Char.toNat '0' = 48 := rfl
  unfold digitVal
  omega

/-- When the digits still to come push the accumulated integer value
past `i32::MAX`, the number-scanning loop reports `IntegerOverflow`
(the checked multiply/add of `parse_number`), whatever input follows
the digits. -/
theorem parseNumberLoop_overflow :
    ∀ (cs rest : List Char) (s : NumState),
      (∀ c ∈ cs, asciiDigit c = true) →
      s.isFloat = false →
      0 ≤ s.intValue →
      s.intValue ≤ 2147483647 →
      digitsAccVal s.intValue cs > 2147483647 →
      parseNumberLoop s (cs ++ rest) =
        Except.error PErr.integerOverflow := by
  intro cs
  induction cs with
  | nil =>
    intro rest s _hd _hf _h0 hle hval
    simp only [digitsAccVal] at hval
    omega
  | cons c cs ih =>
    intro rest s hd hf h0 hle hval
    have hdc : asciiDigit c = true := hd c (List.mem_cons_self _ _)
    have hne : ¬ (c = '.') := asciiDigit_ne_dot hdc
    have hc1 : ¬ ((c = '.' && !s.isFloat) = true) := by
      simp [hne]
    have hfl : ¬ (s.isFloat = true) := by simp [hf]
    simp only [List.cons_append, parseNumberLoop]
    rw [if_neg hc1, if_pos hdc, if_neg hfl]
    by_cases hover : s.intValue * 10 + (digitVal c : Int) > 2147483647
    · rw [if_pos hover]
    · rw [if_neg hover]
      apply ih rest
      · intro x hx
        exact hd x (List.mem_cons_of_mem _ hx)
      · exact hf
      · show (0 : Int) ≤ s.intValue * 10 + (digitVal c : Int)
        omega
      · show s.intValue * 10 + (digitVal c : Int) ≤ 2147483647
        omega
      · show digitsAccVal (s.intValue * 10 + (digitVal c : Int)) cs > 2147483647
        simpa only [digitsAccVal] using hval

/-- Claim C8.  An integer literal token whose decimal digits denote a
value greater than `i32::MAX` makes the parser return
`IntegerOverflow` instead of emitting an integer event — for a bare
digit token as well as a signed one (the checked accumulation runs on
the unsigned magnitude, before any negation). -/
theorem integer_literal_overflow_errors {σ : Type} (col : Collector σ)
    (st : σ) (first : Char) (cs rest : List Char)
    (hcs : ∀ c ∈ cs, asciiDigit c = true)
    (hlead : (asciiDigit first = true ∧
        digitsAccVal ((digitVal first : Int)) cs > 2147483647) ∨
      ((first = '+' ∨ first = '-') ∧ digitsAccVal 0 cs > 2147483647)) :
    parseNumber col st first (cs ++ rest) =
      Except.error PErr.integerOverflow := by
  rcases hlead with ⟨hd, hv⟩ | ⟨hs, hv⟩
  · have hb := asciiDigit_bounds hd
    have hp : ¬ (first = '+') := by
      intro hEq
      rw [hEq] at hb
      simp at hb
    have hm : ¬ (first = '-') := by
      intro hEq
      rw [hEq] at hb
      simp at hb
    have hloop := parseNumberLoop_overflow cs rest
      { intValue := (digitVal first : Int), floatValue := 0.0,
        isNegative := false, hasDigits := true, isFloat := false,
        decimalPosition := 0.1 }
      hcs rfl
      (by show (0 : Int) ≤ (digitVal first : Int); positivity)
      (by show ((digitVal first : Int)) ≤ 2147483647
          have := digitVal_le_9 hd; omega)
      (by show digitsAccVal ((digitVal first : Int)) cs > 2147483647
          simpa only [digitsAccVal] using hv)
    simp only [parseNumber, Bind.bind, Except.bind]
    rw [if_neg hp, if_neg hm, if_pos hd]
    simp [hloop]
  · rcases hs with hEq | hEq
    · subst hEq
      have hloop := parseNumberLoop_overflow cs rest
        { intValue := 0, floatValue := 0.0, isNegative := false,
          hasDigits := false, isFloat := false, decimalPosition := 0.1 }
        hcs rfl (by show (0 : Int) ≤ 0; omega)
        (by show (0 : Int) ≤ 2147483647; omega)
        (by show digitsAccVal (0 : Int) cs > 2147483647
            simpa only [digitsAccVal] using hv)
      simp only [parseNumber, Bind.bind, Except.bind]
      simp [hloop]
    · subst hEq
      have hloop := parseNumberLoop_overflow cs rest
        { intValue := 0, floatValue := 0.0, isNegative := true,
          hasDigits := false, isFloat := false, decimalPosition := 0.1 }
        hcs rfl (by show (0 : Int) ≤ 0; omega)
        (by show (0 : Int) ≤ 2147483647; omega)
        (by show digitsAccVal (0 : Int) cs > 2147483647
            simpa only [digitsAccVal] using hv)
      simp only [parseNumber, Bind.bind, Except.bind]
      simp [hloop]

/-- Digit tail of the C8 witness literal `2147483648` =
`i32::MAX + 1`. -/
def overflowTail : String := "147483648"

/-- Witness for C8 at the literal `2147483648`. -/
theorem integer_literal_overflow_errors_witness :
    (∀ c ∈ overflowTail.toList, asciiDigit c = true) ∧
    parseNumber evCollector ([] : List Event) '2'
        (overflowTail.toList ++ []) =
      Except.error PErr.integerOverflow :=
  ⟨by decide,
   integer_literal_overflow_errors evCollector [] '2' overflowTail.toList []
     (by decide) (Or.inl (by decide))⟩

/-- A number-scanning loop that starts at a terminator (end of input,
whitespace, or `]`) stops at once without touching the state. -/
theorem parseNumberLoop_stop (s : NumState) (rest : List Char)
    (h : rest = [] ∨
      ∃ r rs, rest = r :: rs ∧ (asciiWs r = true ∨ r = ']')) :
    ∃ consumed rest1,
      parseNumberLoop s rest = Except.ok (s, consumed, rest1) := by
  rcases h with hEq | ⟨r, rs, hEq, hterm⟩
  · subst hEq
    exact ⟨none, [], rfl⟩
  · subst hEq
    rcases hterm with hw | hr
    · have hws : r = ' ' ∨ r = '\t' ∨ r = '\n' ∨ r = '\x0d' ∨ r = '\x0c' := by
        have h5 := hw
        simp only [asciiWs, Bool.or_eq_true, decide_eq_true_eq] at h5
        tauto
      rcases hws with hEq | hEq | hEq | hEq | hEq <;> subst hEq <;>
        exact ⟨none, rs, by simp [parseNumberLoop, asciiDigit, asciiWs]⟩
    · subst hr
      exact ⟨some ']', rs, by simp [parseNumberLoop, asciiDigit, asciiWs]⟩

/-- The kind of the value bound to a name in the freshly built VM
memory. -/
def boundKind (name : String) : Except Err Nat := do
  let m ← vmNew
  match assocStr m.symbols name with
  | some sym => do
    let v ← get_word m sym
    Except.ok v.kind
  | none => Except.error Err.wordNotFound

/-- Source text for the C10 conjunct. -/
def src5p5 : String := "5 + 5"

/-- Name of the `+` native. -/
def plusStr : String := "+"

/-- Claim C10.  A `+` or `-` sign whose token contains no digits
(terminated by whitespace, `]` or end of input) is not a parse error:
the parser emits a Word event with text `+` or `-`.  Concretely,
`5 + 5` parses to integer, word `+`, integer, and in a fresh VM the
word `+` is bound to a NATIVE_FUNC value — which is how the compiler
recognizes it as the `+` native. -/
theorem bare_sign_parses_as_word :
    (∀ (evs : List Event) (first : Char) (rest : List Char),
      (first = '+' ∨ first = '-') →
      (rest = [] ∨ ∃ r rs, rest = r :: rs ∧ (asciiWs r = true ∨ r = ']')) →
      ∃ consumed rest1,
        parseNumber evCollector evs first rest =
          Except.ok (evs ++ [Event.word WordKind.word (String.mk [first])],
            consumed, rest1)) ∧
    parse evCollector [] (src5p5.toList) =
      Except.ok [Event.int 5, Event.word WordKind.word plusStr,
        Event.int 5] ∧
    boundKind plusStr = Except.ok Value.NATIVE_FUNC := by
  refine ⟨?_, by rfl, by rfl⟩
  intro evs first rest hs ht
  obtain ⟨consumed, rest1, hloop⟩ :=
    parseNumberLoop_stop
      (if first = '-' then
        { intValue := 0, floatValue := 0.0, isNegative := true,
          hasDigits := false, isFloat := false, decimalPosition := 0.1 }
       else
        { intValue := 0, floatValue := 0.0, isNegative := false,
          hasDigits := false, isFloat := false, decimalPosition := 0.1 })
      rest ht
  refine ⟨consumed, rest1, ?_⟩
  rcases hs with hEq | hEq
  · subst hEq
    rw [if_neg (by decide)] at hloop
    simp only [parseNumber, Bind.bind, Except.bind]
    simp [hloop, collRes, evCollector]
  · subst hEq
    rw [if_pos rfl] at hloop
    simp only [parseNumber, Bind.bind, Except.bind]
    simp [hloop, collRes, evCollector]

/-- Witness for C10's universal part at `+` before a whitespace
terminator. -/
theorem bare_sign_parses_as_word_witness :
    ∃ consumed rest1,
      parseNumber evCollector [] '+' [' ', '5'] =
        Except.ok ([] ++ [Event.word WordKind.word (String.mk ['+'])],
          consumed, rest1) :=
  bare_sign_parses_as_word.1 [] '+' [' ', '5'] (Or.inl rfl)
    (Or.inr ⟨' ', ['5'], rfl, Or.inl (by decide)⟩)

/-! Stack-balance machinery for claim C4.  The compiler simulates the
operand-stack height and ends every code block with a stack-fix, so a
successfully executing block always nets exactly one pushed value.
The development below makes that precise: `okValB` (BLOCK values point
at value series), `balCheck` (a code suffix is height-consistent),
`memOk` (every heap object is well-formed, memoized `bindings` hold
balanced code), `Chain` (the call stack is a nest of balanced
frames and return heights), and `Emits` (the compiler's emission
judgment). -/

/-- The heap read underlying `getObj`, on a bare heap: the predicates
below are parametrized by the heap alone, so that updates to the
`words` and `symbols` tables leave them definitionally unchanged. -/
def getObjH (hp : List Obj) (a : Nat) : Option Obj :=
  if a = 0 then none else hp.get? (a - 1)

/-- Does the address hold a value series? -/
def isValues (hp : List Obj) (a : Nat) : Bool :=
  match getObjH hp a with
  | some (Obj.values _ _) => true
  | _ => false

/-- A value is well-formed: its kind is a byte, and a BLOCK value
points (within `u32` range) at a value series.  Every value the
pipeline creates satisfies this; it is what keeps `Func` bodies value
series, so that `CALL_FUNC` cannot wander into bytecode it would
unbalance. -/
def okValB (hp : List Obj) (v : Value) : Bool :=
  decide (v.kind < 256) &&
    (if v.kind = Value.BLOCK then
      decide (v.data < 4294967296) && isValues hp v.data
     else true)

/-- The consume count of the native with the given id, per the
registered `NATIVES` table. -/
def consumeOf (id : Nat) : Nat :=
  ((NATIVES.get? id).map NativeDescriptor.consume).getD 0

/-- A stored native descriptor agrees with the registered table at its
id (as `Vm::new` guarantees: it copies the table's `u8` fields). -/
def nativeOkB (id arity consume : Nat) : Bool :=
  match NATIVES.get? (id % 65536) with
  | some d => decide (arity % 256 = d.arity) && decide (consume % 256 = d.consume)
  | none => false

/-- Height-consistency of a code suffix at simulated height `h`: each
instruction's byte layout is as the compiler emits it, CONST payloads
decode to well-formed values, `LEAVE n` occurs exactly at height `n`,
native calls consume within the registered table, and the final `RET`
stands at height 1 with nothing after it.  A `CALL_FUNC` needs no
continuation condition because executing it always faults (its target
is a value series, never bytecode, under `memOk`). -/
def balCheck (hp : List Obj) : List Nat → Nat → Bool
  | [], _ => false
  | b :: rest, h =>
    if b = 0 then decide (h = 1) && decide (rest = [])
    else if b = 1 then
      match rest with
      | k :: d0 :: d1 :: d2 :: d3 :: rest1 =>
        okValB hp ⟨k, d0 + 256 * d1 + 65536 * d2 + 16777216 * d3⟩ &&
          balCheck hp rest1 (h + 1)
      | _ => false
    else if b = 2 then balCheck hp rest (h + 1)
    else if b = 3 then
      match rest with
      | _ :: _ :: _ :: _ :: rest1 => balCheck hp rest1 (h + 1)
      | _ => false
    else if b = 4 then
      match rest with
      | _ :: _ :: _ :: _ :: rest1 => balCheck hp rest1 h
      | _ => false
    else if b = 5 then
      match rest with
      | n :: rest1 => decide (n = h) && balCheck hp rest1 1
      | _ => false
    else if b = 6 then
      match rest with
      | i0 :: i1 :: rest1 =>
        decide (i0 + 256 * i1 < 6) &&
          decide (consumeOf (i0 + 256 * i1) ≤ h + 1) &&
          balCheck hp rest1 (h + 1 - consumeOf (i0 + 256 * i1))
      | _ => false
    else if b = 7 then
      match rest with
      | _ :: _ :: _ :: _ :: _rest1 => true
      | _ => false
    else false

/-- Does the address hold balanced bytecode (for memoized `bindings`
fields)? -/
def isBalCode (hp : List Obj) (b : Nat) : Bool :=
  match getObjH hp b with
  | some (Obj.bytes c) => balCheck hp c 0
  | _ => false

/-- Well-formedness of one heap object. -/
def objOk (hp : List Obj) (o : Obj) : Bool :=
  match o with
  | Obj.values vals b => vals.all (okValB hp) && (decide (b = 0) || isBalCode hp b)
  | Obj.cell v => okValB hp v
  | Obj.funcd _ body => isValues hp (body % 4294967296)
  | Obj.native id arity consume => nativeOkB id arity consume
  | Obj.bytes _ => true
  | Obj.str _ => true

/-- Well-formedness of the whole arena. -/
def memOk (m : Mem) : Bool := m.heap.all (objOk m.heap)

/-- A live frame: its instruction pointer sits inside a bytecode
series whose remaining suffix is height-consistent at `h`. -/
def frameOk (m : Mem) (ip : IP) (h : Nat) : Prop :=
  ∃ a o c, ip = IP.pos a o ∧ getObj m a = some (Obj.bytes c) ∧
    balCheck m.heap (c.drop o) h = true

/-- The frame chain: first the executing frame, then the call stack,
ending in the halt sentinel.  `n` is the operand-stack length when
control is at the head frame; each frame contributes its base height
`b`, and returns to the next frame with length `b + 1`. -/
def Chain (m : Mem) : List IP → Nat → Prop
  | [], _ => False
  | ip :: rest, n =>
    (ip = IP.halt ∧ rest = [] ∧ n = 1) ∨
    (∃ b h, frameOk m ip h ∧ n = b + h ∧ Chain m rest (b + 1))

/-- The monotone part of a memory update during execution: value
series keep their values (only `bindings` may change), bytecode is
immutable.  Allocation, `setCell` and the `bindings` memoization all
satisfy it. -/
def MemExt (m m1 : Mem) : Prop :=
  (∀ a vals b, getObj m a = some (Obj.values vals b) →
    ∃ b1, getObj m1 a = some (Obj.values vals b1)) ∧
  (∀ a c, getObj m a = some (Obj.bytes c) → getObj m1 a = some (Obj.bytes c)) ∧
  (∀ a v, getObj m a = some (Obj.cell v) →
    ∃ v1, getObj m1 a = some (Obj.cell v1)) ∧
  (∀ a arity body, getObj m a = some (Obj.funcd arity body) →
    getObj m1 a = some (Obj.funcd arity body)) ∧
  (∀ a id arity consume, getObj m a = some (Obj.native id arity consume) →
    getObj m1 a = some (Obj.native id arity consume))

/-- A well-formed deferred call: bounded base pointer and arity (so
the `u16` fire comparison is exact), consume within arity + 1 (so the
`u16` height update is exact and nonnegative), and a native id that
indexes the registered table with its table consume count. -/
def DeferOk (d : Defer) : Prop :=
  d.bp ≤ 204 ∧ d.arity ≤ 255 ∧ d.consume ≤ d.arity + 1 ∧
  (∀ id, d.call = CallK.callNative id →
    id < 6 ∧ d.consume = consumeOf id ∧ 2 ≤ d.consume) ∧
  (∀ b, d.call = CallK.setWord b → d.consume = 1)

/-- The compiler's emission judgment: `Emits hp code h h1` when `code`
is a sequence of whole instructions taking simulated height `h` to
`h1` with all `balCheck` side conditions. -/
inductive Emits (hp : List Obj) : List Nat → Nat → Nat → Prop where
  | nil (h : Nat) : Emits hp [] h h
  | econst (k d : Nat) (rest : List Nat) (h h1 : Nat)
      (hok : okValB hp ⟨k, d % 4294967296⟩ = true)
      (hrest : Emits hp rest (h + 1) h1) :
      Emits hp (Code.CONST :: k :: (leBytes4 d ++ rest)) h h1
  | enone (rest : List Nat) (h h1 : Nat)
      (hrest : Emits hp rest (h + 1) h1) :
      Emits hp (Code.NONE :: rest) h h1
  | eword (b : Nat) (rest : List Nat) (h h1 : Nat)
      (hrest : Emits hp rest (h + 1) h1) :
      Emits hp (Code.WORD :: (leBytes4 b ++ rest)) h h1
  | esetw (b : Nat) (rest : List Nat) (h h1 : Nat)
      (hrest : Emits hp rest h h1) :
      Emits hp (Code.SET_WORD :: (leBytes4 b ++ rest)) h h1
  | eleave (rest : List Nat) (h h1 : Nat)
      (hrest : Emits hp rest 1 h1) :
      Emits hp (Code.LEAVE :: h :: rest) h h1
  | enat (id : Nat) (rest : List Nat) (h h1 : Nat)
      (hid : id < 6) (hcons : consumeOf id ≤ h + 1)
      (hrest : Emits hp rest (h + 1 - consumeOf id) h1) :
      Emits hp (Code.CALL_NATIVE :: (leBytes2 id ++ rest)) h h1
  | efunc (b : Nat) (rest : List Nat) (h h1 : Nat) :
      Emits hp (Code.CALL_FUNC :: (leBytes4 b ++ rest)) h h1

/-- The interpreter invariant: well-formed arena, well-formed operand
stack, and a frame chain matching the stack length. -/
def Inv (st : PState) : Prop :=
  memOk st.mem = true ∧ st.stack.all (okValB st.mem.heap) = true ∧
  Chain st.mem (st.ip :: st.callStack) st.stack.length

/-- The value a source string evaluates to through the full
parse–compile–exec pipeline. -/
def evalSrc (fuel : Nat) (input : List Char) : Except PipeErr Value :=
  (pipeline fuel input).map Prod.fst

/-- The bytecode the pipeline compiles for a source string (the bytes
of the series `Process::compile` returns). -/
def compiledBytes (input : List Char) : Except PipeErr (List Nat) := do
  let m0 ← (vmNew).mapError PipeErr.vmE
  let (root, pc) ← (vmParseBlock m0 input).mapError PipeErr.parseE
  let blockAddr ← (asBlock root).mapError PipeErr.vmE
  let (codeAddr, m1) ← (compile pc.mem blockAddr).mapError PipeErr.vmE
  match getObj m1 codeAddr with
  | some (Obj.bytes bs) => Except.ok bs
  | _ => Except.error (PipeErr.vmE Err.outOfBounds)


/-! Claim theorems. -/

/-- Claim C1, counterexample.  The claim says every registered
native-function descriptor satisfies `consume ≤ arity`, with `+`
described as arity 2, consume 2.  The registered table refutes this:
`stdlib.rs` registers the operator form `+` through
`NativeDescriptor::new_op("+", …, arity = 1, consume = 2)`, so the
descriptor at index 1 has consume 2 strictly greater than arity 1. -/
theorem natives_consume_le_arity_cex :
    NATIVES.get? 1 =
      some (NativeDescriptor.new_op "+" "add two numbers operator"
        NativeImpl.addImpl 1 2) ∧
    ¬ (∀ d ∈ NATIVES, d.consume ≤ d.arity) := by
  constructor
  · rfl
  · intro h
    have := h (NativeDescriptor.new_op "+" "add two numbers operator"
      NativeImpl.addImpl 1 2) (by decide)
    simp [NativeDescriptor.new_op] at this

/-- Claim C1, amended.  For every registered descriptor `arity ≤
consume ≤ arity + 1`: `NativeDescriptor::new` sets consume equal to
arity, and the two operator forms `+` and `<` are registered with
arity 1 and consume 2 — the operand already on the stack is counted by
`consume` but not by `arity`. -/
theorem natives_arity_le_consume :
    ∀ d ∈ NATIVES, d.arity ≤ d.consume ∧ d.consume ≤ d.arity + 1 := by
  decide

/-- Witness for C1's amended theorem at the `add` descriptor. -/
theorem natives_arity_le_consume_witness :
    (NativeDescriptor.new "add" "add two numbers function"
      NativeImpl.addImpl 2) ∈ NATIVES ∧
    ((NativeDescriptor.new "add" "add two numbers function"
      NativeImpl.addImpl 2).arity ≤
     (NativeDescriptor.new "add" "add two numbers function"
      NativeImpl.addImpl 2).consume ∧
     (NativeDescriptor.new "add" "add two numbers function"
      NativeImpl.addImpl 2).consume ≤
     (NativeDescriptor.new "add" "add two numbers function"
      NativeImpl.addImpl 2).arity + 1) :=
  ⟨by decide,
   natives_arity_le_consume
     (NativeDescriptor.new "add" "add two numbers function"
       NativeImpl.addImpl 2) (by decide)⟩

/-! Heap-extension lemmas: the compiler only appends to the heap (new
binding cells, new bytecode), so every existing object survives a
compile unchanged.  This carries claim C2. -/

/-- Every heap entry of `m` is still present, unchanged, in `m1`. -/
def heapLe (m m1 : Mem) : Prop :=
  ∀ i o, m.heap.get? i = some o → m1.heap.get? i = some o

theorem heapLe_refl (m : Mem) : heapLe m m := fun _ _ h => h

theorem heapLe_trans {m1 m2 m3 : Mem} (h1 : heapLe m1 m2)
    (h2 : heapLe m2 m3) : heapLe m1 m3 :=
  fun i o h => h2 i o (h1 i o h)

theorem getObj_heapLe {m m1 : Mem} (h : heapLe m m1) {a : Nat} {o : Obj}
    (hg : getObj m a = some o) : getObj m1 a = some o := by
  unfold getObj at hg ⊢
  by_cases ha : a = 0
  · simp [ha] at hg
  · simp only [ha, if_false] at hg ⊢
    exact h _ _ hg

theorem bind_eq_ok {ε α β : Type} {e : Except ε α} {f : α → Except ε β}
    {b : β} (h : (e >>= f) = Except.ok b) :
    ∃ a, e = Except.ok a ∧ f a = Except.ok b := by
  cases e with
  | error e => simp [Bind.bind, Except.bind] at h
  | ok a => exact ⟨a, rfl, by simpa [Bind.bind, Except.bind] using h⟩

theorem allocObj_heapLe {m : Mem} {o : Obj} {a : Nat} {m1 : Mem}
    (h : allocObj m o = Except.ok (a, m1)) : heapLe m m1 := by
  unfold allocObj at h
  split at h
  · cases h
    intro i ob hg
    have hlt : i < m.heap.length := (List.get?_eq_some.mp hg).1
    simp only [List.get?_eq_getElem?] at hg ⊢
    rw [List.getElem?_append_left hlt]
    exact hg
  · cases h

theorem bind_word_heapLe {m : Mem} {sym : Nat} {create : Bool}
    {cell : Nat} {m1 : Mem}
    (h : bind_word m sym create = Except.ok (cell, m1)) : heapLe m m1 := by
  unfold bind_word at h
  split at h
  · cases h
    exact heapLe_refl _
  · split at h
    · obtain ⟨p, halloc, h⟩ := bind_eq_ok h
      obtain ⟨a1, m2⟩ := p
      cases h
      intro i ob hg
      exact allocObj_heapLe halloc i ob hg
    · cases h

theorem blockInfo_eq_ok {m : Mem} {a : Nat} {p : List Value × Nat}
    (h : blockInfo m a = Except.ok p) :
    getObj m a = some (Obj.values p.1 p.2) := by
  unfold blockInfo at h
  rcases hg : getObj m a with _ | o
  · rw [hg] at h; cases h
  · rw [hg] at h
    cases o with
    | values vals b => cases h; rfl
    | bytes bs => cases h
    | native i2 a2 c2 => cases h
    | funcd a2 b => cases h
    | cell v => cases h
    | str s => cases h

theorem compileDispatch_heapLe {m : Mem} {defers : List Defer} {sl : Nat}
    {code : List Nat} {v : Value} {res : Mem × List Defer × Nat × List Nat}
    (h : compileDispatch m defers sl code v = Except.ok res) :
    heapLe m res.1 := by
  unfold compileDispatch at h
  by_cases h1 : v.kind = Value.WORD
  · simp only [h1, if_true] at h
    obtain ⟨bm, hbw, h⟩ := bind_eq_ok h
    obtain ⟨b1, m1⟩ := bm
    obtain ⟨c1, _hc1, h⟩ := bind_eq_ok h
    obtain ⟨c2, _hc2, h⟩ := bind_eq_ok h
    cases h
    exact bind_word_heapLe hbw
  · simp only [h1, if_false] at h
    by_cases h2 : v.kind = Value.SET_WORD
    · simp only [h2, if_true] at h
      obtain ⟨bm, hbw, h⟩ := bind_eq_ok h
      obtain ⟨b1, m1⟩ := bm
      obtain ⟨d1, _hd1, h⟩ := bind_eq_ok h
      cases h
      exact bind_word_heapLe hbw
    · simp only [h2, if_false] at h
      by_cases h3 : v.kind = Value.NATIVE_FUNC
      · simp only [h3, if_true] at h
        obtain ⟨nf, _hnf, h⟩ := bind_eq_ok h
        obtain ⟨d1, _hd1, h⟩ := bind_eq_ok h
        cases h
        exact heapLe_refl _
      · simp only [h3, if_false] at h
        by_cases h4 : v.kind = Value.FUNC
        · simp only [h4, if_true] at h
          obtain ⟨f, _hf, h⟩ := bind_eq_ok h
          obtain ⟨d1, _hd1, h⟩ := bind_eq_ok h
          cases h
          exact heapLe_refl _
        · simp only [h4, if_false] at h
          obtain ⟨c1, _hc1, h⟩ := bind_eq_ok h
          obtain ⟨c2, _hc2, h⟩ := bind_eq_ok h
          cases h
          exact heapLe_refl _

theorem compileStep_heapLe {m : Mem} {defers : List Defer} {sl : Nat}
    {code : List Nat} {v0 : Value} {res : Mem × List Defer × Nat × List Nat}
    (h : compileStep m defers sl code v0 = Except.ok res) :
    heapLe m res.1 := by
  unfold compileStep at h
  obtain ⟨v, _hv, h⟩ := bind_eq_ok h
  exact compileDispatch_heapLe h

theorem compileLoop_heapLe (blockAddr : Nat) :
    ∀ (remaining i : Nat) (m : Mem) (defers : List Defer) (sl : Nat)
      (code : List Nat) (res : Nat × List Nat × Mem),
      compileLoop blockAddr remaining i m defers sl code = Except.ok res →
      heapLe m res.2.2 := by
  intro remaining
  induction remaining with
  | zero =>
    intro i m defers sl code res h
    unfold compileLoop at h
    obtain ⟨fl, _hfl, h⟩ := bind_eq_ok h
    cases h
    exact heapLe_refl _
  | succ n ih =>
    intro i m defers sl code res h
    unfold compileLoop at h
    obtain ⟨fl, _hfl, h⟩ := bind_eq_ok h
    obtain ⟨v0, _hv0, h⟩ := bind_eq_ok h
    obtain ⟨stp, hstep, h⟩ := bind_eq_ok h
    exact heapLe_trans (compileStep_heapLe hstep) (ih _ _ _ _ _ _ h)

theorem compile_heapLe {m : Mem} {a : Nat} {c : Nat} {m1 : Mem}
    (h : compile m a = Except.ok (c, m1)) : heapLe m m1 := by
  unfold compile at h
  obtain ⟨vb, _hvb, h⟩ := bind_eq_ok h
  obtain ⟨r, hloop, h⟩ := bind_eq_ok h
  obtain ⟨c1, _hf, h⟩ := bind_eq_ok h
  obtain ⟨c2, _hr, h⟩ := bind_eq_ok h
  exact heapLe_trans (compileLoop_heapLe a _ _ _ _ _ _ _ hloop)
    (allocObj_heapLe h)

theorem allocObj_pos {m : Mem} {o : Obj} {a : Nat} {m1 : Mem}
    (h : allocObj m o = Except.ok (a, m1)) : 0 < a := by
  unfold allocObj at h
  split at h
  · cases h; omega
  · cases h

theorem compile_pos {m : Mem} {a : Nat} {c : Nat} {m1 : Mem}
    (h : compile m a = Except.ok (c, m1)) : 0 < c := by
  unfold compile at h
  obtain ⟨vb, _hvb, h⟩ := bind_eq_ok h
  obtain ⟨r, _hloop, h⟩ := bind_eq_ok h
  obtain ⟨c1, _hf, h⟩ := bind_eq_ok h
  obtain ⟨c2, _hr, h⟩ := bind_eq_ok h
  exact allocObj_pos h

theorem getObj_setObjRaw_self {m : Mem} {a : Nat} {o0 : Obj}
    (hg : getObj m a = some o0) (o : Obj) :
    getObj (setObjRaw m a o) a = some o := by
  unfold getObj at hg
  unfold getObj setObjRaw
  by_cases ha : a = 0
  · simp [ha] at hg
  · simp only [ha, if_false] at hg ⊢
    have hlt : a - 1 < m.heap.length := (List.get?_eq_some.mp hg).1
    simp [List.getElem?_set, hlt]

theorem blockInfo_of_getObj {m : Mem} {a : Nat} {vals : List Value} {b : Nat}
    (hg : getObj m a = some (Obj.values vals b)) :
    blockInfo m a = Except.ok (vals, b) := by
  unfold blockInfo
  rw [hg]

/-- Claim C2.  `get_binding` compiles a block exactly once: if a call
returned address `c` with memory `m1`, calling it again on `m1`
returns the same address and leaves the memory untouched — either the
first call already read a memoized nonzero `bindings` field, or it
compiled and stored the fresh code address there, which the second
call then finds. -/
theorem get_binding_idempotent (m : Mem) (a c : Nat) (m1 : Mem)
    (h : get_binding m a = Except.ok (c, m1)) :
    get_binding m1 a = Except.ok (c, m1) := by
  unfold get_binding at h ⊢
  obtain ⟨vb, hvb, h⟩ := bind_eq_ok h
  by_cases hb : vb.2 ≠ 0
  · rw [if_pos hb] at h
    cases h
    rw [hvb]
    simp only [Bind.bind, Except.bind]
    rw [if_pos hb]
  · rw [if_neg hb] at h
    obtain ⟨r, hcomp, h⟩ := bind_eq_ok h
    obtain ⟨vb1, hvb1, h⟩ := bind_eq_ok h
    cases h
    have hget : getObj r.2 a = some (Obj.values vb1.1 vb1.2) :=
      blockInfo_eq_ok hvb1
    have hset : getObj (setObjRaw r.2 a (Obj.values vb1.1 r.1)) a =
        some (Obj.values vb1.1 r.1) :=
      getObj_setObjRaw_self hget _
    have hpos : 0 < r.1 :=
      compile_pos (show compile m a = Except.ok (r.1, r.2) from hcomp)
    rw [blockInfo_of_getObj hset]
    simp only [Bind.bind, Except.bind]
    rw [if_pos (Nat.pos_iff_ne_zero.mp hpos)]

/-- Concrete arena for the C2 witness: one block holding INT(1),
`bindings` unset. -/
def c2mem : Mem := ⟨[Obj.values [Value.int 1] 0], [], []⟩

/-- The result of the first `get_binding` call on the C2 witness
arena. -/
def c2out : Nat × Mem := ((get_binding c2mem 1).toOption).getD (0, ⟨[], [], []⟩)

/-- Witness for C2 at the concrete block of `c2mem`. -/
theorem get_binding_idempotent_witness :
    get_binding c2mem 1 = Except.ok (c2out.1, c2out.2) ∧
    get_binding c2out.2 1 = Except.ok (c2out.1, c2out.2) :=
  ⟨by decide, get_binding_idempotent c2mem 1 c2out.1 c2out.2 (by decide)⟩

/-! Byte-decoding lemmas for reasoning about the interpreter on
symbolic code. -/

theorem list_drop_cons {α : Type} {bs : List α} {o : Nat} {x : α}
    {l : List α} (h : bs.drop o = x :: l) :
    bs.get? o = some x ∧ bs.drop (o + 1) = l := by
  constructor
  · have h0 : (bs.drop o)[0]? = some x := by rw [h]; simp
    rw [List.getElem?_drop] at h0
    simpa [List.get?_eq_getElem?] using h0
  · have h1 : (bs.drop o).drop 1 = l := by rw [h]; rfl
    rw [List.drop_drop] at h1
    simpa [Nat.add_comm] using h1

theorem readU8_of_drop {m : Mem} {a o : Nat} {bs : List Nat} {x : Nat}
    {l : List Nat} (hm : getObj m a = some (Obj.bytes bs))
    (hd : bs.drop o = x :: l) :
    readU8 m (IP.pos a o) = Except.ok (x, IP.pos a (o + 1)) := by
  simp only [readU8, hm, (list_drop_cons hd).1]

theorem readU32_leBytes {m : Mem} {a o : Nat} {bs : List Nat} {n : Nat}
    {l : List Nat} (hm : getObj m a = some (Obj.bytes bs))
    (hd : bs.drop o = leBytes4 n ++ l) (hn : n < 4294967296) :
    readU32 m (IP.pos a o) = Except.ok (n, IP.pos a (o + 4)) := by
  have h0 := list_drop_cons (x := n % 256)
    (l := [n / 256 % 256, n / 65536 % 256, n / 16777216 % 256] ++ l) hd
  have h1 := list_drop_cons h0.2
  have h2 := list_drop_cons h1.2
  have harith :
      n % 256 + 256 * (n / 256 % 256) + 65536 * (n / 65536 % 256) +
        16777216 * (n / 16777216 % 256) = n := by
    omega
  have hoff : o + 1 + 1 + 1 + 1 = o + 4 := by omega
  simp only [readU32, Bind.bind, Except.bind, readU8_of_drop hm hd,
    readU8_of_drop hm h0.2, readU8_of_drop hm h1.2, readU8_of_drop hm h2.2,
    harith, hoff]

theorem readU16_leBytes {m : Mem} {a o : Nat} {bs : List Nat} {n : Nat}
    {l : List Nat} (hm : getObj m a = some (Obj.bytes bs))
    (hd : bs.drop o = leBytes2 n ++ l) (hn : n < 65536) :
    readU16 m (IP.pos a o) = Except.ok (n, IP.pos a (o + 2)) := by
  have h0 := list_drop_cons (x := n % 256) (l := [n / 256 % 256] ++ l) hd
  have harith : n % 256 + 256 * (n / 256 % 256) = n := by omega
  have hoff : o + 1 + 1 = o + 2 := by omega
  simp only [readU16, Bind.bind, Except.bind, readU8_of_drop hm hd,
    readU8_of_drop hm h0.2, harith, hoff]

/-- Claim C6.  Executing a SET_WORD instruction copies the top of the
operand stack into the binding cell named by its 4-byte immediate
without popping: one interpreter step on a state whose code reads
`SET_WORD binding` and whose stack is `v :: s` leaves the stack
exactly `v :: s`, advances the instruction pointer past the 5
instruction bytes, and overwrites the cell with `v`. -/
theorem set_word_copies_top_without_pop
    (m : Mem) (v w : Value) (s : List Value) (cs : List IP)
    (a o binding : Nat) (bs tail : List Nat)
    (hcode : getObj m a = some (Obj.bytes bs))
    (hinstr : bs.drop o = Code.SET_WORD :: (leBytes4 binding ++ tail))
    (hbind : binding < 4294967296)
    (hcell : getObj m binding = some (Obj.cell w)) :
    step ⟨m, v :: s, cs, IP.pos a o⟩ =
      Except.ok (Outcome.next
        ⟨setObjRaw m binding (Obj.cell v), v :: s, cs, IP.pos a (o + 5)⟩) ∧
    getObj (setObjRaw m binding (Obj.cell v)) binding =
      some (Obj.cell v) := by
  constructor
  · have hb0 := list_drop_cons hinstr
    have hread : readCode m (IP.pos a o) =
        ReadRes.byte Code.SET_WORD (IP.pos a (o + 1)) := by
      simp only [readCode, hcode, hb0.1]
    have hru32 : readU32 m (IP.pos a (o + 1)) =
        Except.ok (binding, IP.pos a (o + 1 + 4)) :=
      readU32_leBytes hcode hb0.2 hbind
    have hoff : o + 1 + 4 = o + 5 := by omega
    rw [hoff] at hru32
    have hset : setCell m binding v =
        Except.ok (setObjRaw m binding (Obj.cell v)) := by
      simp only [setCell, hcell]
    simp [step, hread, Code.SET_WORD, Code.CONST, Code.WORD, hru32, hset,
      Bind.bind, Except.bind, optReq]
  · exact getObj_setObjRaw_self hcell _

/-- Concrete arena for the C6 witness: code `SET_WORD 2; RET` at
address 1, a cell at address 2. -/
def c6mem : Mem :=
  ⟨[Obj.bytes [4, 2, 0, 0, 0, 0], Obj.cell (Value.int 0)], [], []⟩

/-- Witness for C6 on a concrete state: the stack `[INT 7]` survives
the SET_WORD step and the cell receives INT 7. -/
theorem set_word_copies_top_without_pop_witness :
    step ⟨c6mem, [Value.int 7], [IP.halt], IP.pos 1 0⟩ =
      Except.ok (Outcome.next
        ⟨setObjRaw c6mem 2 (Obj.cell (Value.int 7)), [Value.int 7],
         [IP.halt], IP.pos 1 5⟩) ∧
    getObj (setObjRaw c6mem 2 (Obj.cell (Value.int 7))) 2 =
      some (Obj.cell (Value.int 7)) :=
  set_word_copies_top_without_pop c6mem (Value.int 7) (Value.int 0) [] [IP.halt]
    1 0 2 [4, 2, 0, 0, 0, 0] [0] (by decide) (by decide) (by decide) (by decide)

/-- Source text of the C3 scenario. -/
def srcAddAdd : String := "add add 7 8 10"

/-- Claim C3.  Parsing, compiling and executing `add add 7 8 10`
succeeds and yields INT(25), and the compiled bytecode contains the
outer `add`'s `CALL_NATIVE` (opcode 6, id 0) after the inner one —
the deferred outer call is emitted once its operands are complete, not
dropped at end of input. -/
theorem exec_nested_defers_yields_25 :
    evalSrc 200 (srcAddAdd.toList) = Except.ok (Value.int 25) ∧
    compiledBytes (srcAddAdd.toList) =
      Except.ok
        [1, 1, 7, 0, 0, 0, 1, 1, 8, 0, 0, 0, 6, 0, 0,
         1, 1, 10, 0, 0, 0, 6, 0, 0, 0] := by
  constructor
  · rfl
  · rfl

/-- Source text of the C5 scenario. -/
def srcEither : String := "either 15 < 1 [42] [22 7 + 8]"

/-- Source text of the false branch block of the C5 scenario. -/
def srcFalseBranch : String := "22 7 + 8"

/-- Claim C5.  Executing the compiled form of
`either 15 < 1 [42] [22 7 + 8]` yields INT(15): the condition is
false, `either` runs the false branch, whose compiled code pushes 22,
computes `7 + 8` postfix (`CALL_NATIVE` id 1) and keeps only the top
value with `LEAVE 2` before `RET`. -/
theorem exec_either_false_branch_yields_15 :
    evalSrc 400 (srcEither.toList) = Except.ok (Value.int 15) ∧
    compiledBytes (srcFalseBranch.toList) =
      Except.ok
        [1, 1, 22, 0, 0, 0, 1, 1, 7, 0, 0, 0, 1, 1, 8, 0, 0, 0,
         6, 1, 0, 5, 2, 0] := by
  constructor
  · rfl
  · rfl

/-- Source text of the C9 scenario. -/
def srcAddSeven : String := "add 7"

/-- Claim C9.  When the source ends while a deferred call still waits
for operands, compilation succeeds and silently emits no call
instruction for it: `add 7` compiles to just `CONST INT 7; RET`, and
executing it yields INT(7) with no error. -/
theorem unsatisfied_defer_dropped_silently :
    compiledBytes (srcAddSeven.toList) =
      Except.ok [1, 1, 7, 0, 0, 0, 0] ∧
    evalSrc 200 (srcAddSeven.toList) = Except.ok (Value.int 7) := by
  constructor
  · rfl
  · rfl

/-! Extension lemmas for the balance machinery: `MemExt` (value series
keep their values, bytecode is immutable) preserves every well-
formedness predicate, and every memory operation of the compiler and
interpreter produces a `MemExt` extension. -/

theorem getObj_heap (m : Mem) (a : Nat) : getObjH m.heap a = getObj m a := rfl

theorem memExt_refl (m : Mem) : MemExt m m :=
  ⟨fun _ _ b h => ⟨b, h⟩, fun _ _ h => h, fun _ v h => ⟨v, h⟩,
   fun _ _ _ h => h, fun _ _ _ _ h => h⟩

theorem memExt_trans {m1 m2 m3 : Mem} (h1 : MemExt m1 m2)
    (h2 : MemExt m2 m3) : MemExt m1 m3 := by
  obtain ⟨v1, b1, c1, f1, n1⟩ := h1
  obtain ⟨v2, b2, c2, f2, n2⟩ := h2
  refine ⟨fun a vals b h => ?_, fun a c h => b2 _ _ (b1 _ _ h),
    fun a v h => ?_, fun a x y h => f2 _ _ _ (f1 _ _ _ h),
    fun a x y z h => n2 _ _ _ _ (n1 _ _ _ _ h)⟩
  · obtain ⟨b2', hb⟩ := v1 a vals b h
    exact v2 a vals b2' hb
  · obtain ⟨v2', hv⟩ := c1 a v h
    exact c2 a v2' hv

theorem memExt_of_heapLe {m m1 : Mem} (h : heapLe m m1) : MemExt m m1 :=
  ⟨fun _ _ b hg => ⟨b, getObj_heapLe h hg⟩, fun _ _ hg => getObj_heapLe h hg,
   fun _ v hg => ⟨v, getObj_heapLe h hg⟩, fun _ _ _ hg => getObj_heapLe h hg,
   fun _ _ _ _ hg => getObj_heapLe h hg⟩

theorem isValues_ext {m m1 : Mem} {a : Nat} (he : MemExt m m1)
    (h : isValues m.heap a = true) : isValues m1.heap a = true := by
  unfold isValues at h ⊢
  rw [getObj_heap] at h ⊢
  rcases hg : getObj m a with _ | o
  · rw [hg] at h; cases h
  · rw [hg] at h
    cases o with
    | values vals b =>
      obtain ⟨b1, hg1⟩ := he.1 a vals b hg
      rw [hg1]
    | bytes bs => cases h
    | native i2 a2 c2 => cases h
    | funcd a2 b => cases h
    | cell v => cases h
    | str s => cases h

theorem okValB_ext {m m1 : Mem} {v : Value} (he : MemExt m m1)
    (h : okValB m.heap v = true) : okValB m1.heap v = true := by
  unfold okValB at h ⊢
  simp only [Bool.and_eq_true, decide_eq_true_eq] at h ⊢
  refine ⟨h.1, ?_⟩
  by_cases hk : v.kind = Value.BLOCK
  · simp only [hk, if_true, Bool.and_eq_true, decide_eq_true_eq] at h ⊢
    exact ⟨h.2.1, isValues_ext he h.2.2⟩
  · simp [hk]

theorem balCheck_cons (hp : List Obj) (b : Nat) (rest : List Nat) (h : Nat) :
    balCheck hp (b :: rest) h =
      (if b = 0 then decide (h = 1) && decide (rest = [])
       else if b = 1 then
         match rest with
         | k :: d0 :: d1 :: d2 :: d3 :: rest1 =>
           okValB hp ⟨k, d0 + 256 * d1 + 65536 * d2 + 16777216 * d3⟩ &&
             balCheck hp rest1 (h + 1)
         | _ => false
       else if b = 2 then balCheck hp rest (h + 1)
       else if b = 3 then
         match rest with
         | _ :: _ :: _ :: _ :: rest1 => balCheck hp rest1 (h + 1)
         | _ => false
       else if b = 4 then
         match rest with
         | _ :: _ :: _ :: _ :: rest1 => balCheck hp rest1 h
         | _ => false
       else if b = 5 then
         match rest with
         | n :: rest1 => decide (n = h) && balCheck hp rest1 1
         | _ => false
       else if b = 6 then
         match rest with
         | i0 :: i1 :: rest1 =>
           decide (i0 + 256 * i1 < 6) &&
             decide (consumeOf (i0 + 256 * i1) ≤ h + 1) &&
             balCheck hp rest1 (h + 1 - consumeOf (i0 + 256 * i1))
         | _ => false
       else if b = 7 then
         match rest with
         | _ :: _ :: _ :: _ :: _rest1 => true
         | _ => false
       else false) := by
  rcases rest with _ | ⟨x0, _ | ⟨x1, _ | ⟨x2, _ | ⟨x3, _ | ⟨x4, rest1⟩⟩⟩⟩⟩ <;> rfl

theorem balCheck_ext {m m1 : Mem} (he : MemExt m m1) :
    ∀ n l h, l.length ≤ n → balCheck m.heap l h = true →
      balCheck m1.heap l h = true := by
  intro n
  induction n with
  | zero =>
    intro l h hl hb
    rcases l with _ | ⟨b, rest⟩
    · cases hb
    · simp at hl
  | succ n ih =>
    intro l h hl hb
    rcases l with _ | ⟨b, rest⟩
    · cases hb
    · rw [balCheck_cons] at hb ⊢
      by_cases h0 : b = 0
      · simpa [h0] using hb
      · simp only [h0, if_false] at hb ⊢
        by_cases h1 : b = 1
        · simp only [h1, if_true] at hb ⊢
          rcases rest with _ | ⟨k, _ | ⟨d0, _ | ⟨d1, _ | ⟨d2, _ | ⟨d3, rest1⟩⟩⟩⟩⟩
          · cases hb
          · cases hb
          · cases hb
          · cases hb
          · cases hb
          · simp only [Bool.and_eq_true] at hb ⊢
            simp only [List.length_cons] at hl
            exact ⟨okValB_ext he hb.1, ih rest1 (h + 1) (by omega) hb.2⟩
        · simp only [h1, if_false] at hb ⊢
          by_cases h2 : b = 2
          · simp only [h2, if_true] at hb ⊢
            simp only [List.length_cons] at hl
            exact ih rest (h + 1) (by omega) hb
          · simp only [h2, if_false] at hb ⊢
            by_cases h3 : b = 3
            · simp only [h3, if_true] at hb ⊢
              rcases rest with _ | ⟨x0, _ | ⟨x1, _ | ⟨x2, _ | ⟨x3, rest1⟩⟩⟩⟩
              · cases hb
              · cases hb
              · cases hb
              · cases hb
              · simp only [List.length_cons] at hl
                exact ih rest1 (h + 1) (by omega) hb
            · simp only [h3, if_false] at hb ⊢
              by_cases h4 : b = 4
              · simp only [h4, if_true] at hb ⊢
                rcases rest with _ | ⟨x0, _ | ⟨x1, _ | ⟨x2, _ | ⟨x3, rest1⟩⟩⟩⟩
                · cases hb
                · cases hb
                · cases hb
                · cases hb
                · simp only [List.length_cons] at hl
                  exact ih rest1 h (by omega) hb
              · simp only [h4, if_false] at hb ⊢
                by_cases h5 : b = 5
                · simp only [h5, if_true] at hb ⊢
                  rcases rest with _ | ⟨x0, rest1⟩
                  · cases hb
                  · simp only [Bool.and_eq_true] at hb ⊢
                    simp only [List.length_cons] at hl
                    exact ⟨hb.1, ih rest1 1 (by omega) hb.2⟩
                · simp only [h5, if_false] at hb ⊢
                  by_cases h6 : b = 6
                  · simp only [h6, if_true] at hb ⊢
                    rcases rest with _ | ⟨i0, _ | ⟨i1, rest1⟩⟩
                    · cases hb
                    · cases hb
                    · simp only [Bool.and_eq_true] at hb ⊢
                      simp only [List.length_cons] at hl
                      exact ⟨hb.1,
                        ih rest1 (h + 1 - consumeOf (i0 + 256 * i1)) (by omega)
                          hb.2⟩
                  · simp only [h6, if_false] at hb ⊢
                    by_cases h7 : b = 7
                    · simp only [h7, if_true] at hb ⊢
                      rcases rest with _ | ⟨x0, _ | ⟨x1, _ | ⟨x2, _ | ⟨x3, rest1⟩⟩⟩⟩
                      · cases hb
                      · cases hb
                      · cases hb
                      · cases hb
                      · rfl
                    · simp only [h7, if_false] at hb
                      cases hb

theorem balCheck_ext' {m m1 : Mem} {l : List Nat} {h : Nat}
    (he : MemExt m m1) (hb : balCheck m.heap l h = true) :
    balCheck m1.heap l h = true :=
  balCheck_ext he l.length l h (Nat.le_refl _) hb

theorem isBalCode_ext {m m1 : Mem} {b : Nat} (he : MemExt m m1)
    (h : isBalCode m.heap b = true) : isBalCode m1.heap b = true := by
  unfold isBalCode at h ⊢
  rw [getObj_heap] at h ⊢
  rcases hg : getObj m b with _ | o
  · rw [hg] at h; cases h
  · rw [hg] at h
    cases o with
    | bytes bs => rw [he.2.1 b bs hg]; exact balCheck_ext' he h
    | values vals bb => cases h
    | native i2 a2 c2 => cases h
    | funcd a2 bb => cases h
    | cell v => cases h
    | str s => cases h

theorem objOk_ext {m m1 : Mem} {o : Obj} (he : MemExt m m1)
    (h : objOk m.heap o = true) : objOk m1.heap o = true := by
  cases o with
  | values vals b =>
    simp only [objOk, Bool.and_eq_true, Bool.or_eq_true,
      decide_eq_true_eq, List.all_eq_true] at h ⊢
    refine ⟨fun v hv => okValB_ext he (h.1 v hv), ?_⟩
    rcases h.2 with hb | hb
    · exact Or.inl hb
    · exact Or.inr (isBalCode_ext he hb)
  | bytes bs => exact h
  | native i2 a2 c2 => exact h
  | funcd a2 b => exact isValues_ext he h
  | cell v => exact okValB_ext he h
  | str s => exact h

theorem emits_ext {m m1 : Mem} {l : List Nat} {h h1 : Nat}
    (he : MemExt m m1) (hE : Emits m.heap l h h1) : Emits m1.heap l h h1 := by
  induction hE with
  | nil h => exact Emits.nil h
  | econst k d rest h h1 hok hrest ih =>
    exact Emits.econst k d rest h h1 (okValB_ext he hok) ih
  | enone rest h h1 hrest ih => exact Emits.enone rest h h1 ih
  | eword b rest h h1 hrest ih => exact Emits.eword b rest h h1 ih
  | esetw b rest h h1 hrest ih => exact Emits.esetw b rest h h1 ih
  | eleave rest h h1 hrest ih => exact Emits.eleave rest h h1 ih
  | enat id rest h h1 hid hcons hrest ih =>
    exact Emits.enat id rest h h1 hid hcons ih
  | efunc b rest h h1 => exact Emits.efunc b rest h h1

theorem getObj_mem_heap {m : Mem} {a : Nat} {o : Obj}
    (h : getObj m a = some o) : o ∈ m.heap := by
  unfold getObj at h
  by_cases ha : a = 0
  · simp [ha] at h
  · simp only [ha, if_false] at h
    exact List.get?_mem h

theorem memOk_getObj {m : Mem} {a : Nat} {o : Obj}
    (hm : memOk m = true) (h : getObj m a = some o) :
    objOk m.heap o = true := by
  unfold memOk at hm
  rw [List.all_eq_true] at hm
  exact hm o (getObj_mem_heap h)

/-! Composition and soundness of the emission judgment. -/

theorem emits_append {p : List Obj} {c1 c2 : List Nat} {h h2 h3 : Nat}
    (e1 : Emits p c1 h h2) (e2 : Emits p c2 h2 h3) :
    Emits p (c1 ++ c2) h h3 := by
  revert e2
  induction e1 with
  | nil h => intro e2; simpa using e2
  | econst k d rest h h1 hok hrest ih =>
    intro e2
    simpa [List.cons_append, List.append_assoc] using
      Emits.econst k d (rest ++ c2) h h3 hok (ih e2)
  | enone rest h h1 hrest ih =>
    intro e2
    simpa [List.cons_append] using Emits.enone (rest ++ c2) h h3 (ih e2)
  | eword b rest h h1 hrest ih =>
    intro e2
    simpa [List.cons_append, List.append_assoc] using
      Emits.eword b (rest ++ c2) h h3 (ih e2)
  | esetw b rest h h1 hrest ih =>
    intro e2
    simpa [List.cons_append, List.append_assoc] using
      Emits.esetw b (rest ++ c2) h h3 (ih e2)
  | eleave rest h h1 hrest ih =>
    intro e2
    simpa [List.cons_append] using Emits.eleave (rest ++ c2) h h3 (ih e2)
  | enat id rest h h1 hid hcons hrest ih =>
    intro e2
    simpa [List.cons_append, List.append_assoc] using
      Emits.enat id (rest ++ c2) h h3 hid hcons (ih e2)
  | efunc b rest h h1 =>
    intro e2
    simpa [List.cons_append, List.append_assoc] using
      @Emits.efunc p b (rest ++ c2) h h3

theorem emits_balCheck {p : List Obj} {code rest : List Nat} {h h1 : Nat}
    (hE : Emits p code h h1) (hr : balCheck p rest h1 = true) :
    balCheck p (code ++ rest) h = true := by
  revert hr
  induction hE with
  | nil h => intro hr; simpa using hr
  | econst k d rest0 h hh1 hok hrest ih =>
    intro hr
    have hdec : d % 256 + 256 * (d / 256 % 256) + 65536 * (d / 65536 % 256) +
        16777216 * (d / 16777216 % 256) = d % 4294967296 := by omega
    have hgoal : (Code.CONST :: k :: (leBytes4 d ++ rest0)) ++ rest =
        Code.CONST :: k :: (leBytes4 d ++ (rest0 ++ rest)) := by simp
    rw [hgoal, balCheck_cons]
    simp [Code.CONST, leBytes4, hdec, hok, ih hr]
  | enone rest0 h hh1 hrest ih =>
    intro hr
    rw [List.cons_append, balCheck_cons]
    simp [Code.NONE, ih hr]
  | eword b rest0 h hh1 hrest ih =>
    intro hr
    have hgoal : (Code.WORD :: (leBytes4 b ++ rest0)) ++ rest =
        Code.WORD :: (leBytes4 b ++ (rest0 ++ rest)) := by simp
    rw [hgoal, balCheck_cons]
    simp [Code.WORD, leBytes4, ih hr]
  | esetw b rest0 h hh1 hrest ih =>
    intro hr
    have hgoal : (Code.SET_WORD :: (leBytes4 b ++ rest0)) ++ rest =
        Code.SET_WORD :: (leBytes4 b ++ (rest0 ++ rest)) := by simp
    rw [hgoal, balCheck_cons]
    simp [Code.SET_WORD, leBytes4, ih hr]
  | eleave rest0 h hh1 hrest ih =>
    intro hr
    rw [List.cons_append, List.cons_append, balCheck_cons]
    simp [Code.LEAVE, ih hr]
  | enat id rest0 h hh1 hid hcons hrest ih =>
    intro hr
    have hdec : id % 256 + 256 * (id / 256 % 256) = id := by omega
    have hgoal : (Code.CALL_NATIVE :: (leBytes2 id ++ rest0)) ++ rest =
        Code.CALL_NATIVE :: (leBytes2 id ++ (rest0 ++ rest)) := by simp
    rw [hgoal, balCheck_cons]
    simp [Code.CALL_NATIVE, leBytes2, hdec, hid, hcons, ih hr]
  | efunc b rest0 h hh1 =>
    intro hr
    have hgoal : (Code.CALL_FUNC :: (leBytes4 b ++ rest0)) ++ rest =
        Code.CALL_FUNC :: (leBytes4 b ++ (rest0 ++ rest)) := by simp
    rw [hgoal, balCheck_cons]
    simp [Code.CALL_FUNC, leBytes4]

/-- Facts about the registered native table: six entries, arity in
`[1, 3]`, consume in `[2, arity + 1]`, and `consumeOf` agreement. -/
theorem NATIVES_get_facts {j : Nat} {d : NativeDescriptor}
    (h : NATIVES.get? j = some d) :
    j < 6 ∧ 1 ≤ d.arity ∧ d.arity ≤ 3 ∧ 2 ≤ d.consume ∧
      d.consume ≤ d.arity + 1 ∧ consumeOf j = d.consume := by
  have hj : j < 6 := by
    have hlen := (List.get?_eq_some.mp h).1
    simpa [NATIVES] using hlen
  interval_cases j <;>
    · simp only [NATIVES, NativeDescriptor.new, NativeDescriptor.new_op,
        List.get?] at h
      cases h
      decide

/-! Preservation of `memOk` by each memory mutation. -/

theorem getObj_alloc_new {m : Mem} {o : Obj} {a : Nat} {m1 : Mem}
    (h : allocObj m o = Except.ok (a, m1)) :
    getObj m1 a = some o ∧ a ≠ 0 ∧ a < 4294967296 := by
  unfold allocObj at h
  split at h
  · rename_i hlen
    cases h
    refine ⟨?_, by omega, by omega⟩
    unfold getObj
    simp only [show m.heap.length + 1 ≠ 0 from by omega, if_false,
      Nat.add_sub_cancel]
    simp [List.getElem?_concat_length, List.get?_eq_getElem?]
  · cases h

theorem memOk_alloc {m : Mem} {o : Obj} {a : Nat} {m1 : Mem}
    (hm : memOk m = true) (h : allocObj m o = Except.ok (a, m1))
    (ho : objOk m1.heap o = true) : memOk m1 = true := by
  have he : MemExt m m1 := memExt_of_heapLe (allocObj_heapLe h)
  unfold allocObj at h
  split at h
  · cases h
    unfold memOk at hm ⊢
    rw [List.all_eq_true] at hm ⊢
    intro x hx
    rcases List.mem_append.mp hx with hx | hx
    · exact objOk_ext he (hm x hx)
    · rw [List.mem_singleton.mp hx]
      exact ho
  · cases h

theorem getObj_setObjRaw_ne {m : Mem} {a : Nat} (o : Obj) (a1 : Nat)
    (ha : a ≠ 0) (hne : a1 ≠ a) :
    getObj (setObjRaw m a o) a1 = getObj m a1 := by
  unfold getObj setObjRaw
  by_cases h0 : a1 = 0
  · simp [h0]
  · simp only [h0, if_false]
    rw [List.get?_eq_getElem?, List.get?_eq_getElem?,
      List.getElem?_set_ne (by omega)]

theorem setCell_props {m : Mem} {a : Nat} {v : Value} {m1 : Mem}
    (hm : memOk m = true) (hv : okValB m.heap v = true)
    (h : setCell m a v = Except.ok m1) :
    memOk m1 = true ∧ MemExt m m1 := by
  unfold setCell at h
  rcases hg : getObj m a with _ | o
  · rw [hg] at h; cases h
  · rw [hg] at h
    cases o with
    | cell w =>
      cases h
      have ha : a ≠ 0 := by
        unfold getObj at hg
        by_cases h0 : a = 0
        · simp [h0] at hg
        · exact h0
      have he : MemExt m (setObjRaw m a (Obj.cell v)) := by
        refine ⟨fun a1 vals b hg1 => ?_, fun a1 c hg1 => ?_,
          fun a1 w1 hg1 => ?_, fun a1 x y hg1 => ?_,
          fun a1 x y z hg1 => ?_⟩
        · have hne : a1 ≠ a := fun hEq => by rw [hEq, hg] at hg1; cases hg1
          exact ⟨b, by rw [getObj_setObjRaw_ne _ _ ha hne]; exact hg1⟩
        · have hne : a1 ≠ a := fun hEq => by rw [hEq, hg] at hg1; cases hg1
          rw [getObj_setObjRaw_ne _ _ ha hne]; exact hg1
        · by_cases hne : a1 = a
          · exact ⟨v, by rw [hne]; exact getObj_setObjRaw_self hg _⟩
          · exact ⟨w1, by rw [getObj_setObjRaw_ne _ _ ha hne]; exact hg1⟩
        · have hne : a1 ≠ a := fun hEq => by rw [hEq, hg] at hg1; cases hg1
          rw [getObj_setObjRaw_ne _ _ ha hne]; exact hg1
        · have hne : a1 ≠ a := fun hEq => by rw [hEq, hg] at hg1; cases hg1
          rw [getObj_setObjRaw_ne _ _ ha hne]; exact hg1
      refine ⟨?_, he⟩
      unfold memOk at hm ⊢
      rw [List.all_eq_true] at hm ⊢
      intro x hx
      unfold setObjRaw at hx
      rcases List.mem_or_eq_of_mem_set hx with hx | hx
      · exact objOk_ext he (hm x hx)
      · rw [hx]
        exact okValB_ext he hv
    | values vals b => cases h
    | bytes bs => cases h
    | native i2 a2 c2 => cases h
    | funcd a2 b => cases h
    | str s => cases h

/-- Storing a compiled-code address into a block's `bindings` field
preserves well-formedness and is a `MemExt` step. -/
theorem setBindings_props {m : Mem} {a c : Nat} {vals : List Value} {b : Nat}
    {code : List Nat}
    (hm : memOk m = true) (hg : getObj m a = some (Obj.values vals b))
    (hc : getObj m c = some (Obj.bytes code))
    (hbal : balCheck m.heap code 0 = true) :
    memOk (setObjRaw m a (Obj.values vals c)) = true ∧
      MemExt m (setObjRaw m a (Obj.values vals c)) := by
  have ha : a ≠ 0 := by
    unfold getObj at hg
    by_cases h0 : a = 0
    · simp [h0] at hg
    · exact h0
  have he : MemExt m (setObjRaw m a (Obj.values vals c)) := by
    refine ⟨fun a1 vals1 b1 hg1 => ?_, fun a1 c1 hg1 => ?_,
      fun a1 w1 hg1 => ?_, fun a1 x y hg1 => ?_,
      fun a1 x y z hg1 => ?_⟩
    · by_cases hne : a1 = a
      · subst hne
        rw [hg1] at hg
        cases hg
        exact ⟨c, getObj_setObjRaw_self hg1 _⟩
      · exact ⟨b1, by rw [getObj_setObjRaw_ne _ _ ha hne]; exact hg1⟩
    · have hne : a1 ≠ a := fun hEq => by rw [hEq, hg] at hg1; cases hg1
      rw [getObj_setObjRaw_ne _ _ ha hne]; exact hg1
    · have hne : a1 ≠ a := fun hEq => by rw [hEq, hg] at hg1; cases hg1
      exact ⟨w1, by rw [getObj_setObjRaw_ne _ _ ha hne]; exact hg1⟩
    · have hne : a1 ≠ a := fun hEq => by rw [hEq, hg] at hg1; cases hg1
      rw [getObj_setObjRaw_ne _ _ ha hne]; exact hg1
    · have hne : a1 ≠ a := fun hEq => by rw [hEq, hg] at hg1; cases hg1
      rw [getObj_setObjRaw_ne _ _ ha hne]; exact hg1
  refine ⟨?_, he⟩
  have hcne : c ≠ a := fun hEq => by rw [hEq, hg] at hc; cases hc
  have hball : isBalCode (setObjRaw m a (Obj.values vals c)).heap c = true := by
    unfold isBalCode
    rw [getObj_heap, getObj_setObjRaw_ne _ _ ha hcne, hc]
    exact balCheck_ext' he hbal
  have hvals : vals.all (okValB m.heap) = true := by
    have := memOk_getObj hm hg
    simp only [objOk, Bool.and_eq_true] at this
    exact this.1
  unfold memOk at hm ⊢
  rw [List.all_eq_true] at hm ⊢
  intro x hx
  unfold setObjRaw at hx
  rcases List.mem_or_eq_of_mem_set hx with hx | hx
  · exact objOk_ext he (hm x hx)
  · rw [hx]
    simp only [objOk, Bool.and_eq_true, Bool.or_eq_true, List.all_eq_true]
    rw [List.all_eq_true] at hvals
    exact ⟨fun v hv => okValB_ext he (hvals v hv), Or.inr hball⟩

/-- The NONE value in a fresh binding cell is well-formed in any
memory. -/
theorem okValB_noneVal (hp : List Obj) : okValB hp ⟨Value.NONE, 0⟩ = true := by
  simp [okValB, Value.NONE, Value.BLOCK]

theorem bind_word_props {m : Mem} {sym : Nat} {create : Bool}
    {cell : Nat} {m1 : Mem} (hm : memOk m = true)
    (h : bind_word m sym create = Except.ok (cell, m1)) :
    memOk m1 = true := by
  unfold bind_word at h
  split at h
  · cases h; exact hm
  · split at h
    · obtain ⟨p, halloc, h⟩ := bind_eq_ok h
      obtain ⟨a1, m2⟩ := p
      cases h
      show memOk m2 = true
      exact memOk_alloc hm halloc (okValB_noneVal m2.heap)
    · cases h

theorem get_word_okValB {m : Mem} {sym : Nat} {v : Value}
    (hm : memOk m = true) (h : get_word m sym = Except.ok v) :
    okValB m.heap v = true := by
  unfold get_word at h
  split at h
  · split at h
    · rename_i w hw
      cases h
      exact memOk_getObj hm hw
    · cases h
  · cases h

theorem cellVal_okValB {m : Mem} {a : Nat} {v : Value}
    (hm : memOk m = true) (h : cellVal m a = Except.ok v) :
    okValB m.heap v = true := by
  unfold cellVal at h
  split at h
  · rename_i w hw
    cases h
    exact memOk_getObj hm hw
  · cases h

/-! Compiler correctness: the compile loop maintains the emission
judgment, the 5-bytes-per-value bound (so the simulated height never
exceeds 204 and the `u16`/`u8` casts are exact), and defer
well-formedness; the finished block is balanced code. -/

theorem codePush_spec {code : List Nat} {b : Nat} {code1 : List Nat}
    (h : codePush code b = Except.ok code1) :
    code1 = code ++ [b] ∧ code.length < 1024 := by
  unfold codePush at h
  split at h
  · cases h; exact ⟨rfl, by assumption⟩
  · cases h

theorem codeExtend_spec {code bs code1 : List Nat}
    (h : codeExtend code bs = Except.ok code1) :
    code1 = code ++ bs ∧ code.length + bs.length ≤ 1024 := by
  unfold codeExtend at h
  split at h
  · cases h; exact ⟨rfl, by assumption⟩
  · cases h

theorem pushDefer_spec {ds : List Defer} {d : Defer} {ds1 : List Defer}
    (h : pushDefer ds d = Except.ok ds1) : ds1 = d :: ds := by
  unfold pushDefer at h
  split at h
  · cases h; rfl
  · cases h

theorem emitCall_spec {c : CallK} {code code1 : List Nat}
    (h : emitCall c code = Except.ok code1) :
    (∃ b, c = CallK.setWord b ∧
      code1 = code ++ (Code.SET_WORD :: leBytes4 b) ∧
      code.length + 5 ≤ 1024) ∨
    (∃ id, c = CallK.callNative id ∧
      code1 = code ++ (Code.CALL_NATIVE :: leBytes2 id) ∧
      code.length + 3 ≤ 1024) ∨
    (∃ b, c = CallK.callFunc b ∧
      code1 = code ++ (Code.CALL_FUNC :: leBytes4 b) ∧
      code.length + 5 ≤ 1024) := by
  cases c with
  | setWord b =>
    unfold emitCall at h
    obtain ⟨ca, hpush, hext⟩ := bind_eq_ok h
    obtain ⟨hca, hlt⟩ := codePush_spec hpush
    obtain ⟨hc1, hle⟩ := codeExtend_spec hext
    subst hca
    refine Or.inl ⟨b, rfl, ?_, ?_⟩
    · rw [hc1]; simp [leBytes4]
    · simpa [leBytes4] using hle
  | callNative id =>
    unfold emitCall at h
    obtain ⟨ca, hpush, hext⟩ := bind_eq_ok h
    obtain ⟨hca, hlt⟩ := codePush_spec hpush
    obtain ⟨hc1, hle⟩ := codeExtend_spec hext
    subst hca
    refine Or.inr (Or.inl ⟨id, rfl, ?_, ?_⟩)
    · rw [hc1]; simp [leBytes2]
    · simpa [leBytes2] using hle
  | callFunc b =>
    unfold emitCall at h
    obtain ⟨ca, hpush, hext⟩ := bind_eq_ok h
    obtain ⟨hca, hlt⟩ := codePush_spec hpush
    obtain ⟨hc1, hle⟩ := codeExtend_spec hext
    subst hca
    refine Or.inr (Or.inr ⟨b, rfl, ?_, ?_⟩)
    · rw [hc1]; simp [leBytes4]
    · simpa [leBytes4] using hle

theorem flushDefers_spec {p : List Obj} :
    ∀ defers sl (code : List Nat) r,
      (∀ d ∈ defers, DeferOk d) → Emits p code 0 sl →
      5 * sl ≤ code.length → code.length ≤ 1024 →
      flushDefers defers sl code = Except.ok r →
      (∀ d ∈ r.1, DeferOk d) ∧ Emits p r.2.2 0 r.2.1 ∧
        5 * r.2.1 ≤ r.2.2.length ∧ r.2.2.length ≤ 1024 := by
  intro defers
  induction defers with
  | nil =>
    intro sl code r hD hE h5 hlen h
    unfold flushDefers at h
    cases h
    exact ⟨hD, hE, h5, hlen⟩
  | cons d rest ih =>
    intro sl code r hD hE h5 hlen h
    unfold flushDefers at h
    split at h
    · rename_i hfire
      obtain ⟨code1, hemit, h⟩ := bind_eq_ok h
      obtain ⟨hbp, har, hcons, hnat, hsetw⟩ := hD d (List.mem_cons_self d rest)
      have hDrest : ∀ d1 ∈ rest, DeferOk d1 :=
        fun d1 hd1 => hD d1 (List.mem_cons_of_mem d hd1)
      have hsl204 : sl ≤ 204 := by omega
      have hslv : sl = d.bp + d.arity := by omega
      rcases emitCall_spec hemit with
        ⟨b, hc, hc1, hsp⟩ | ⟨id, hc, hc1, hsp⟩ | ⟨b, hc, hc1, hsp⟩
      · have hcons1 : d.consume = 1 := hsetw b hc
        have hsl1 : ((sl + 65536 - d.consume) % 65536 + 1) % 65536 = sl := by
          omega
        rw [hsl1] at h
        have hE1 : Emits p code1 0 sl := by
          have hseg : Emits p (Code.SET_WORD :: (leBytes4 b ++ [])) sl sl :=
            Emits.esetw b [] sl sl (Emits.nil sl)
          have := emits_append hE hseg
          simpa [hc1] using this
        refine ih sl code1 r hDrest hE1 ?_ ?_ h
        · rw [hc1]; simp [leBytes4]; omega
        · rw [hc1]; simp [leBytes4]; omega
      · obtain ⟨hid6, hcid, hc2⟩ := hnat id hc
        have hsl1 : ((sl + 65536 - d.consume) % 65536 + 1) % 65536 =
            sl + 1 - d.consume := by omega
        rw [hsl1] at h
        have hE1 : Emits p code1 0 (sl + 1 - d.consume) := by
          have hseg : Emits p (Code.CALL_NATIVE :: (leBytes2 id ++ []))
              sl (sl + 1 - d.consume) := by
            have := @Emits.enat p id [] sl (sl + 1 - consumeOf id)
              hid6 (by omega) (Emits.nil _)
            rw [← hcid] at this
            exact this
          have := emits_append hE hseg
          simpa [hc1] using this
        refine ih (sl + 1 - d.consume) code1 r hDrest hE1 ?_ ?_ h
        · rw [hc1]; simp [leBytes2]; omega
        · rw [hc1]; simp [leBytes2]; omega
      · have hsl1 : ((sl + 65536 - d.consume) % 65536 + 1) % 65536 =
            sl + 1 - d.consume := by omega
        rw [hsl1] at h
        have hE1 : Emits p code1 0 (sl + 1 - d.consume) := by
          have hseg : Emits p (Code.CALL_FUNC :: (leBytes4 b ++ []))
              sl (sl + 1 - d.consume) :=
            Emits.efunc b [] sl (sl + 1 - d.consume)
          have := emits_append hE hseg
          simpa [hc1] using this
        refine ih (sl + 1 - d.consume) code1 r hDrest hE1 ?_ ?_ h
        · rw [hc1]; simp [leBytes4]; omega
        · rw [hc1]; simp [leBytes4]; omega
    · cases h
      exact ⟨hD, hE, h5, hlen⟩

/-- The descriptor fields `compile` reads for a NATIVE_FUNC value are
table-accurate in a well-formed arena. -/
theorem nativeInfo_facts {m : Mem} {a : Nat} {nf : Nat × Nat × Nat}
    (hm : memOk m = true) (h : nativeInfo m a = Except.ok nf) :
    nf.1 < 6 ∧ nf.2.1 ≤ 255 ∧ nf.2.2 = consumeOf nf.1 ∧ 2 ≤ nf.2.2 ∧
      nf.2.2 ≤ nf.2.1 + 1 := by
  unfold nativeInfo at h
  split at h
  · rename_i i0 a0 c0 hg
    cases h
    have hobj : nativeOkB i0 a0 c0 = true := memOk_getObj hm hg
    unfold nativeOkB at hobj
    split at hobj
    · rename_i dt hdt
      simp only [Bool.and_eq_true, decide_eq_true_eq] at hobj
      obtain ⟨hoa, hoc⟩ := hobj
      obtain ⟨hj, h1a, h3a, h2c, hca, hcons⟩ := NATIVES_get_facts hdt
      refine ⟨hj, ?_, ?_, ?_, ?_⟩
      · show a0 % 256 ≤ 255
        omega
      · show c0 % 256 = consumeOf (i0 % 65536)
        rw [hcons, hoc]
      · show 2 ≤ c0 % 256
        omega
      · show c0 % 256 ≤ a0 % 256 + 1
        omega
    · cases hobj
  · cases h

theorem funcInfo_spec {m : Mem} {a : Nat} {f : Nat × Nat}
    (h : funcInfo m a = Except.ok f) :
    ∃ a0 b0, getObj m a = some (Obj.funcd a0 b0) ∧
      f = (a0 % 256, b0 % 4294967296) := by
  unfold funcInfo at h
  split at h
  · rename_i a0 b0 hg
    cases h
    exact ⟨a0, b0, hg, rfl⟩
  · cases h

/-- A value's kind-byte/data-word truncation stays well-formed. -/
theorem okValB_mod {p : List Obj} {v : Value} (hv : okValB p v = true) :
    okValB p ⟨v.kind % 256, v.data % 4294967296⟩ = true := by
  unfold okValB at hv ⊢
  simp only [Bool.and_eq_true, decide_eq_true_eq] at hv ⊢
  have hk : v.kind % 256 = v.kind := Nat.mod_eq_of_lt hv.1
  rw [hk]
  refine ⟨hv.1, ?_⟩
  by_cases hB : v.kind = Value.BLOCK
  · simp only [hB, if_true, Bool.and_eq_true, decide_eq_true_eq] at hv ⊢
    obtain ⟨hd, hisv⟩ := hv.2
    rw [Nat.mod_eq_of_lt hd]
    exact ⟨hd, hisv⟩
  · simp [hB]

theorem resolveWord_okValB {m : Mem} {v0 v : Value}
    (hm : memOk m = true) (hv0 : okValB m.heap v0 = true)
    (h : resolveWord m v0 = Except.ok v) : okValB m.heap v = true := by
  unfold resolveWord at h
  split at h
  · obtain ⟨res, hgw, h⟩ := bind_eq_ok h
    split at h <;> cases h
    · exact get_word_okValB hm hgw
    · exact hv0
  · cases h
    exact hv0

theorem compileDispatch_spec {m : Mem} {defers : List Defer} {sl : Nat}
    {code : List Nat} {v : Value} {r : Mem × List Defer × Nat × List Nat}
    (hm : memOk m = true) (hv : okValB m.heap v = true)
    (hD : ∀ d ∈ defers, DeferOk d)
    (hE : Emits m.heap code 0 sl)
    (h5 : 5 * sl ≤ code.length) (hlen : code.length ≤ 1024)
    (h : compileDispatch m defers sl code v = Except.ok r) :
    memOk r.1 = true ∧ MemExt m r.1 ∧
    (∀ d ∈ r.2.1, DeferOk d) ∧ Emits r.1.heap r.2.2.2 0 r.2.2.1 ∧
    5 * r.2.2.1 ≤ r.2.2.2.length ∧ r.2.2.2.length ≤ 1024 := by
  have hsl204 : sl ≤ 204 := by omega
  unfold compileDispatch at h
  by_cases hk1 : v.kind = Value.WORD
  · rw [if_pos hk1] at h
    obtain ⟨bm, hbw, h⟩ := bind_eq_ok h
    obtain ⟨code1, hp1, h⟩ := bind_eq_ok h
    obtain ⟨code2, hp2, h⟩ := bind_eq_ok h
    obtain ⟨b1, m1⟩ := bm
    cases h
    have hmext : MemExt m m1 := memExt_of_heapLe (bind_word_heapLe hbw)
    obtain ⟨hc1, hlt1⟩ := codePush_spec hp1
    obtain ⟨hc2, hle2⟩ := codeExtend_spec hp2
    subst hc1
    have hslw : (sl + 1) % 65536 = sl + 1 := by omega
    refine ⟨bind_word_props hm hbw, hmext, hD, ?_, ?_, ?_⟩
    · show Emits m1.heap code2 0 ((sl + 1) % 65536)
      rw [hslw]
      have hseg : Emits m1.heap (Code.WORD :: (leBytes4 b1 ++ []))
          sl (sl + 1) := Emits.eword b1 [] sl (sl + 1) (Emits.nil _)
      have := emits_append (emits_ext hmext hE) hseg
      have hc2' : code2 = code ++ (Code.WORD :: (leBytes4 b1 ++ [])) := by
        rw [hc2]; simp
      rw [hc2']
      exact this
    · show 5 * ((sl + 1) % 65536) ≤ code2.length
      rw [hslw, hc2]
      simp [leBytes4]
      omega
    · show code2.length ≤ 1024
      rw [hc2]
      simpa [leBytes4] using hle2
  · rw [if_neg hk1] at h
    by_cases hk2 : v.kind = Value.SET_WORD
    · rw [if_pos hk2] at h
      obtain ⟨bm, hbw, h⟩ := bind_eq_ok h
      obtain ⟨defers1, hpd, h⟩ := bind_eq_ok h
      obtain ⟨b1, m1⟩ := bm
      cases h
      have hmext : MemExt m m1 := memExt_of_heapLe (bind_word_heapLe hbw)
      refine ⟨bind_word_props hm hbw, hmext, ?_, emits_ext hmext hE, h5, hlen⟩
      rw [pushDefer_spec hpd]
      intro d hd
      rcases List.mem_cons.mp hd with hd | hd
      · subst hd
        refine ⟨?_, ?_, ?_, ?_, ?_⟩
        · show sl ≤ 204
          exact hsl204
        · show (1 : Nat) ≤ 255
          omega
        · show (1 : Nat) ≤ 1 + 1
          omega
        · intro id hid
          exact absurd hid (by simp)
        · intro b hb
          rfl
      · exact hD d hd
    · rw [if_neg hk2] at h
      by_cases hk3 : v.kind = Value.NATIVE_FUNC
      · rw [if_pos hk3] at h
        obtain ⟨nf, hni, h⟩ := bind_eq_ok h
        obtain ⟨defers1, hpd, h⟩ := bind_eq_ok h
        cases h
        obtain ⟨hid6, har, hcof, h2c, hca⟩ := nativeInfo_facts hm hni
        refine ⟨hm, memExt_refl m, ?_, hE, h5, hlen⟩
        rw [pushDefer_spec hpd]
        intro d hd
        rcases List.mem_cons.mp hd with hd | hd
        · subst hd
          refine ⟨?_, ?_, ?_, ?_, ?_⟩
          · show sl ≤ 204
            exact hsl204
          · show nf.2.1 ≤ 255
            exact har
          · show nf.2.2 ≤ nf.2.1 + 1
            exact hca
          · intro id hid
            have hideq : nf.1 = id := by simpa using hid
            subst hideq
            exact ⟨hid6, hcof, h2c⟩
          · intro b hb
            exact absurd hb (by simp)
        · exact hD d hd
      · rw [if_neg hk3] at h
        by_cases hk4 : v.kind = Value.FUNC
        · rw [if_pos hk4] at h
          obtain ⟨f, hfi, h⟩ := bind_eq_ok h
          obtain ⟨defers1, hpd, h⟩ := bind_eq_ok h
          cases h
          obtain ⟨a0, b0, hg, hf⟩ := funcInfo_spec hfi
          refine ⟨hm, memExt_refl m, ?_, hE, h5, hlen⟩
          rw [pushDefer_spec hpd]
          intro d hd
          rcases List.mem_cons.mp hd with hd | hd
          · subst hd
            refine ⟨?_, ?_, ?_, ?_, ?_⟩
            · show sl ≤ 204
              exact hsl204
            · show f.1 ≤ 255
              rw [hf]
              show a0 % 256 ≤ 255
              omega
            · show f.1 ≤ f.1 + 1
              omega
            · intro id hid
              exact absurd hid (by simp)
            · intro b hb
              exact absurd hb (by simp)
          · exact hD d hd
        · rw [if_neg hk4] at h
          obtain ⟨code1, hp1, h⟩ := bind_eq_ok h
          obtain ⟨code2, hp2, h⟩ := bind_eq_ok h
          cases h
          obtain ⟨hc1, hle1⟩ := codeExtend_spec hp1
          obtain ⟨hc2, hle2⟩ := codeExtend_spec hp2
          subst hc1
          have hslw : (sl + 1) % 65536 = sl + 1 := by omega
          refine ⟨hm, memExt_refl m, hD, ?_, ?_, ?_⟩
          · show Emits m.heap code2 0 ((sl + 1) % 65536)
            rw [hslw]
            have hseg : Emits m.heap
                (Code.CONST :: (v.kind % 256) :: (leBytes4 v.data ++ []))
                sl (sl + 1) :=
              Emits.econst (v.kind % 256) v.data [] sl (sl + 1)
                (by simpa using okValB_mod hv) (Emits.nil _)
            have := emits_append hE hseg
            have hc2' : code2 =
                code ++ (Code.CONST :: (v.kind % 256) ::
                  (leBytes4 v.data ++ [])) := by
              rw [hc2]; simp
            rw [hc2']
            exact this
          · show 5 * ((sl + 1) % 65536) ≤ code2.length
            rw [hslw, hc2]
            simp [leBytes4]
            omega
          · show code2.length ≤ 1024
            rw [hc2]
            simp only [List.length_append, List.length_cons] at hle2 ⊢
            simpa [leBytes4] using hle2

theorem compileStep_spec {m : Mem} {defers : List Defer} {sl : Nat}
    {code : List Nat} {v0 : Value} {r : Mem × List Defer × Nat × List Nat}
    (hm : memOk m = true) (hv0 : okValB m.heap v0 = true)
    (hD : ∀ d ∈ defers, DeferOk d)
    (hE : Emits m.heap code 0 sl)
    (h5 : 5 * sl ≤ code.length) (hlen : code.length ≤ 1024)
    (h : compileStep m defers sl code v0 = Except.ok r) :
    memOk r.1 = true ∧ MemExt m r.1 ∧
    (∀ d ∈ r.2.1, DeferOk d) ∧ Emits r.1.heap r.2.2.2 0 r.2.2.1 ∧
    5 * r.2.2.1 ≤ r.2.2.2.length ∧ r.2.2.2.length ≤ 1024 := by
  unfold compileStep at h
  obtain ⟨v, hres, h⟩ := bind_eq_ok h
  exact compileDispatch_spec hm (resolveWord_okValB hm hv0 hres) hD hE h5
    hlen h

theorem compileFetch_okValB {m : Mem} {blockAddr i : Nat} {v0 : Value}
    (hm : memOk m = true) (h : compileFetch m blockAddr i = Except.ok v0) :
    okValB m.heap v0 = true := by
  unfold compileFetch at h
  obtain ⟨vb, hvb, h⟩ := bind_eq_ok h
  have hg := blockInfo_eq_ok hvb
  have hobj : (vb.1.all (okValB m.heap) &&
      (decide (vb.2 = 0) || isBalCode m.heap vb.2)) = true :=
    memOk_getObj hm hg
  unfold optReq at h
  split at h
  · rename_i v hv
    cases h
    simp only [Bool.and_eq_true, List.all_eq_true] at hobj
    exact hobj.1 v0 (List.get?_mem hv)
  · cases h

theorem compileLoop_spec (blockAddr : Nat) :
    ∀ remaining i (m : Mem) defers sl (code : List Nat) r,
      memOk m = true →
      (∀ d ∈ defers, DeferOk d) →
      Emits m.heap code 0 sl →
      5 * sl ≤ code.length → code.length ≤ 1024 →
      compileLoop blockAddr remaining i m defers sl code = Except.ok r →
      memOk r.2.2 = true ∧ MemExt m r.2.2 ∧
        Emits r.2.2.heap r.2.1 0 r.1 ∧ 5 * r.1 ≤ r.2.1.length ∧
        r.2.1.length ≤ 1024 := by
  intro remaining
  induction remaining with
  | zero =>
    intro i m defers sl code r hm hD hE h5 hlen h
    unfold compileLoop at h
    obtain ⟨fl, hfl, h⟩ := bind_eq_ok h
    cases h
    obtain ⟨_, hE1, h51, hlen1⟩ :=
      flushDefers_spec defers sl code fl hD hE h5 hlen hfl
    exact ⟨hm, memExt_refl m, hE1, h51, hlen1⟩
  | succ remaining ih =>
    intro i m defers sl code r hm hD hE h5 hlen h
    unfold compileLoop at h
    obtain ⟨fl, hfl, h⟩ := bind_eq_ok h
    obtain ⟨v0, hv0f, h⟩ := bind_eq_ok h
    obtain ⟨stp, hstp, h⟩ := bind_eq_ok h
    obtain ⟨hD1, hE1, h51, hlen1⟩ :=
      flushDefers_spec defers sl code fl hD hE h5 hlen hfl
    have hv0 : okValB m.heap v0 = true := compileFetch_okValB hm hv0f
    obtain ⟨hm2, hext2, hD2, hE2, h52, hlen2⟩ :=
      compileStep_spec hm hv0 hD1 hE1 h51 hlen1 hstp
    obtain ⟨hm3, hext3, hE3, h53, hlen3⟩ :=
      ih (i + 1) stp.1 stp.2.1 stp.2.2.1 stp.2.2.2 r hm2 hD2 hE2 h52 hlen2 h
    exact ⟨hm3, memExt_trans hext2 hext3, hE3, h53, hlen3⟩

/-- `Process::compile` on a well-formed arena returns a byte series
holding balanced code (net effect: exactly one value pushed, ending in
`RET` at height 1). -/
theorem compile_bal {m : Mem} {blockAddr c : Nat} {m1 : Mem}
    (hm : memOk m = true)
    (h : compile m blockAddr = Except.ok (c, m1)) :
    memOk m1 = true ∧ MemExt m m1 ∧
      ∃ code, getObj m1 c = some (Obj.bytes code) ∧
        balCheck m1.heap code 0 = true := by
  unfold compile at h
  obtain ⟨vb, hvb, h⟩ := bind_eq_ok h
  obtain ⟨r, hloop, h⟩ := bind_eq_ok h
  obtain ⟨code1, hfix, h⟩ := bind_eq_ok h
  obtain ⟨code2, hret, h⟩ := bind_eq_ok h
  obtain ⟨hm2, hext2, hE2, h52, hlen2⟩ :=
    compileLoop_spec blockAddr vb.1.length 0 m [] 0 [] r hm
      (fun d hd => absurd hd (List.not_mem_nil d)) (Emits.nil 0)
      (by simp) (by simp) hloop
  have hsl204 : r.1 ≤ 204 := by omega
  have hE3 : Emits r.2.2.heap code1 0 1 := by
    unfold fixStack at hfix
    split at hfix
    · rename_i hr0
      obtain ⟨hc1, _⟩ := codePush_spec hfix
      rw [hr0] at hE2
      rw [hc1]
      exact emits_append hE2 (Emits.enone [] 0 1 (Emits.nil 1))
    · rename_i hr1
      cases hfix
      rw [hr1] at hE2
      exact hE2
    · rename_i n hn0 hn1
      obtain ⟨hc1, _⟩ := codeExtend_spec hfix
      have hn : r.1 % 256 = r.1 := by omega
      have hseg : Emits r.2.2.heap
          (Code.LEAVE :: r.1 :: ([] : List Nat)) r.1 1 :=
        Emits.eleave [] r.1 1 (Emits.nil 1)
      have happ := emits_append hE2 hseg
      rw [hc1, hn]
      exact happ
  obtain ⟨hc2, _⟩ := codePush_spec hret
  have hbal : balCheck r.2.2.heap code2 0 = true := by
    rw [hc2]
    exact emits_balCheck hE3 rfl
  have hget := getObj_alloc_new h
  have hle := memExt_of_heapLe (allocObj_heapLe h)
  refine ⟨memOk_alloc hm2 h rfl, memExt_trans hext2 hle, code2,
    hget.1, balCheck_ext' hle hbal⟩

/-- `Process::get_binding` on a well-formed arena yields a balanced
byte series (memoized or freshly compiled) and preserves
well-formedness. -/
theorem get_binding_bal {m : Mem} {a c : Nat} {m1 : Mem}
    (hm : memOk m = true)
    (h : get_binding m a = Except.ok (c, m1)) :
    memOk m1 = true ∧ MemExt m m1 ∧
      ∃ code, getObj m1 c = some (Obj.bytes code) ∧
        balCheck m1.heap code 0 = true := by
  unfold get_binding at h
  obtain ⟨vb, hvb, h⟩ := bind_eq_ok h
  have hg := blockInfo_eq_ok hvb
  split at h
  · rename_i hne
    cases h
    have hobj : (vb.1.all (okValB m.heap) &&
        (decide (vb.2 = 0) || isBalCode m.heap vb.2)) = true :=
      memOk_getObj hm hg
    simp only [Bool.and_eq_true, Bool.or_eq_true, decide_eq_true_eq] at hobj
    rcases hobj.2 with h0 | hbc
    · exact absurd h0 hne
    · unfold isBalCode at hbc
      rw [getObj_heap] at hbc
      split at hbc
      · rename_i bs hbs
        exact ⟨hm, memExt_refl m, bs, hbs, hbc⟩
      · cases hbc
  · obtain ⟨r, hcomp, h⟩ := bind_eq_ok h
    obtain ⟨vb1, hvb1, h⟩ := bind_eq_ok h
    obtain ⟨c1, m2⟩ := r
    cases h
    obtain ⟨hm2, hext2, code, hget, hbal⟩ := compile_bal hm hcomp
    have hg1 := blockInfo_eq_ok hvb1
    have hca : c1 ≠ a := fun hEq => by rw [hEq, hg1] at hget; cases hget
    have ha : a ≠ 0 := by
      unfold getObj at hg1
      by_cases h0 : a = 0
      · simp [h0] at hg1
      · exact h0
    obtain ⟨hm3, hext3⟩ := setBindings_props hm2 hg1 hget hbal
    refine ⟨hm3, memExt_trans hext2 hext3, code, ?_,
      balCheck_ext' hext3 hbal⟩
    rw [getObj_setObjRaw_ne _ _ ha hca]
    exact hget

/-! Interpreter-side helpers: specifications of the stack primitives,
raw little-endian reads at a known code offset, and preservation of
the frame chain under memory extension. -/

theorem pushVal_spec {s : List Value} {v : Value} {s1 : List Value}
    (h : pushVal s v = Except.ok s1) : s1 = v :: s := by
  unfold pushVal at h
  split at h
  · cases h; rfl
  · cases h

theorem pushIP_spec {s : List IP} {ip : IP} {s1 : List IP}
    (h : pushIP s ip = Except.ok s1) : s1 = ip :: s := by
  unfold pushIP at h
  split at h
  · cases h; rfl
  · cases h

theorem popN_spec {s : List Value} {n : Nat} {r : List Value × List Value}
    (h : popN s n = Except.ok r) :
    r = ((s.take n).reverse, s.drop n) ∧ n ≤ s.length := by
  unfold popN at h
  split at h
  · cases h; exact ⟨rfl, by assumption⟩
  · cases h

theorem nip_spec {s : List Value} {n : Nat} {s1 : List Value}
    (h : nip s n = Except.ok s1) :
    ∃ v s', s = v :: s' ∧ s1 = v :: s.drop n ∧ 1 ≤ n ∧ n ≤ s.length := by
  unfold nip at h
  split at h
  · cases h
  · rename_i hn0
    split at h
    · cases h
    · rename_i v t
      split at h
      · rename_i hlen
        cases h
        exact ⟨v, t, rfl, rfl, by omega, hlen⟩
      · cases h

theorem optReq_spec {α : Type} {o : Option α} {e : Err} {a : α}
    (h : optReq o e = Except.ok a) : o = some a := by
  unfold optReq at h
  split at h
  · cases h; rfl
  · cases h

theorem readU32_of_drop {m : Mem} {a o : Nat} {bs : List Nat}
    {d0 d1 d2 d3 : Nat} {l : List Nat}
    (hm : getObj m a = some (Obj.bytes bs))
    (hd : bs.drop o = d0 :: d1 :: d2 :: d3 :: l) :
    readU32 m (IP.pos a o) =
      Except.ok (d0 + 256 * d1 + 65536 * d2 + 16777216 * d3,
        IP.pos a (o + 4)) := by
  have h0 := list_drop_cons hd
  have h1 := list_drop_cons h0.2
  have h2 := list_drop_cons h1.2
  have h3 := list_drop_cons h2.2
  have hoff : o + 1 + 1 + 1 + 1 = o + 4 := by omega
  simp only [readU32, Bind.bind, Except.bind, readU8_of_drop hm hd,
    readU8_of_drop hm h0.2, readU8_of_drop hm h1.2, readU8_of_drop hm h2.2,
    hoff]

theorem readU16_of_drop {m : Mem} {a o : Nat} {bs : List Nat}
    {i0 i1 : Nat} {l : List Nat}
    (hm : getObj m a = some (Obj.bytes bs))
    (hd : bs.drop o = i0 :: i1 :: l) :
    readU16 m (IP.pos a o) =
      Except.ok (i0 + 256 * i1, IP.pos a (o + 2)) := by
  have h0 := list_drop_cons hd
  have hoff : o + 1 + 1 = o + 2 := by omega
  simp only [readU16, Bind.bind, Except.bind, readU8_of_drop hm hd,
    readU8_of_drop hm h0.2, hoff]

theorem all_okValB_ext {m m1 : Mem} {s : List Value} (he : MemExt m m1)
    (h : s.all (okValB m.heap) = true) : s.all (okValB m1.heap) = true := by
  rw [List.all_eq_true] at h ⊢
  exact fun v hv => okValB_ext he (h v hv)

theorem drop_shift {α : Type} {bs : List α} {o : Nat} {l : List α}
    (h : bs.drop o = l) (k : Nat) : bs.drop (o + k) = l.drop k := by
  subst h
  rw [List.drop_drop, Nat.add_comm]

theorem chain_ext {m m1 : Mem} (he : MemExt m m1) :
    ∀ ips n, Chain m ips n → Chain m1 ips n := by
  intro ips
  induction ips with
  | nil => intro n h; exact h
  | cons ip rest ih =>
    intro n h
    rcases h with ⟨h1, h2, h3⟩ | ⟨b, ht, ⟨a, o, c, hip, hbytes, hbal⟩, hn, hch⟩
    · exact Or.inl ⟨h1, h2, h3⟩
    · exact Or.inr ⟨b, ht, ⟨a, o, c, hip, he.2.1 a c hbytes,
        balCheck_ext' he hbal⟩, hn, ih (b + 1) hch⟩

theorem isValues_getObj {m : Mem} {x : Nat}
    (h : isValues m.heap x = true) :
    ∃ vals bb, getObj m x = some (Obj.values vals bb) := by
  unfold isValues at h
  rw [getObj_heap] at h
  split at h
  · rename_i vals bb hg
    exact ⟨vals, bb, hg⟩
  · cases h

theorem okValB_int (hp : List Obj) (n : Int) :
    okValB hp (Value.int n) = true := by
  simp [okValB, Value.int, Value.INT, Value.BLOCK]

theorem okValB_bool (hp : List Obj) (b : Bool) :
    okValB hp (Value.bool b) = true := by
  simp [okValB, Value.bool, Value.BOOL, Value.BLOCK]

theorem okValB_func (hp : List Obj) (a : Nat) :
    okValB hp (Value.func a) = true := by
  simp [okValB, Value.func, Value.FUNC, Value.BLOCK]

theorem all_drop_of_all {p : Value → Bool} {s : List Value} {n : Nat}
    (h : s.all p = true) : (s.drop n).all p = true := by
  rw [List.all_eq_true] at h ⊢
  exact fun v hv => h v (List.mem_of_mem_drop hv)

theorem all_head_of_all {p : Value → Bool} {v : Value} {s : List Value}
    (h : (v :: s).all p = true) : p v = true ∧ s.all p = true := by
  simpa using h


/-- Native `add` preserves the interpreter invariant at its
consume-2 frame accounting. -/
theorem nativeAdd_inv {st2 st1 : PState} {a o b ht : Nat} {c : List Nat}
    {rest2 : List Nat}
    (hrun : nativeAdd st2 = Except.ok st1)
    (hmem : memOk st2.mem = true)
    (hstk : st2.stack.all (okValB st2.mem.heap) = true)
    (hbytes : getObj st2.mem a = some (Obj.bytes c))
    (hip2 : st2.ip = IP.pos a o)
    (hdrop : c.drop o = rest2)
    (hbal2 : balCheck st2.mem.heap rest2 (ht + 1 - 2) = true)
    (hht : 1 ≤ ht)
    (hn : st2.stack.length = b + ht)
    (hchrest : Chain st2.mem st2.callStack (b + 1)) : Inv st1 := by
  unfold nativeAdd at hrun
  obtain ⟨pr, hpop, hrun⟩ := bind_eq_ok hrun
  obtain ⟨hpr, hlen2⟩ := popN_spec hpop
  rcases hs : st2.stack with _ | ⟨x, _ | ⟨y, s'⟩⟩
  · rw [hs] at hlen2; simp at hlen2
  · rw [hs] at hlen2; simp at hlen2
  · rw [hs] at hpr
    simp only [List.take, List.reverse_cons, List.reverse_nil,
      List.nil_append, List.cons_append, List.drop] at hpr
    rw [hpr] at hrun
    simp only [] at hrun
    obtain ⟨av, hav, hrun⟩ := bind_eq_ok hrun
    obtain ⟨bv, hbv, hrun⟩ := bind_eq_ok hrun
    split at hrun
    · cases hrun
    · obtain ⟨s1, hpush, hrun⟩ := bind_eq_ok hrun
      cases hrun
      rw [pushVal_spec hpush]
      refine ⟨hmem, ?_, ?_⟩
      · show (List.all _ _) = true
        simp only [List.all_cons, Bool.and_eq_true]
        rw [hs] at hstk
        exact ⟨okValB_int _ _, (all_head_of_all (all_head_of_all hstk).2).2⟩
      · show Chain st2.mem (st2.ip :: st2.callStack) _
        rw [hip2]
        refine Or.inr ⟨b, ht + 1 - 2,
          ⟨a, o, c, rfl, hbytes, by rw [hdrop]; exact hbal2⟩, ?_, hchrest⟩
        rw [hs] at hn
        simp only [List.length_cons] at hn ⊢
        omega

/-- Native `lt` preserves the interpreter invariant. -/
theorem nativeLt_inv {st2 st1 : PState} {a o b ht : Nat} {c : List Nat}
    {rest2 : List Nat}
    (hrun : nativeLt st2 = Except.ok st1)
    (hmem : memOk st2.mem = true)
    (hstk : st2.stack.all (okValB st2.mem.heap) = true)
    (hbytes : getObj st2.mem a = some (Obj.bytes c))
    (hip2 : st2.ip = IP.pos a o)
    (hdrop : c.drop o = rest2)
    (hbal2 : balCheck st2.mem.heap rest2 (ht + 1 - 2) = true)
    (hht : 1 ≤ ht)
    (hn : st2.stack.length = b + ht)
    (hchrest : Chain st2.mem st2.callStack (b + 1)) : Inv st1 := by
  unfold nativeLt at hrun
  obtain ⟨pr, hpop, hrun⟩ := bind_eq_ok hrun
  obtain ⟨hpr, hlen2⟩ := popN_spec hpop
  rcases hs : st2.stack with _ | ⟨x, _ | ⟨y, s'⟩⟩
  · rw [hs] at hlen2; simp at hlen2
  · rw [hs] at hlen2; simp at hlen2
  · rw [hs] at hpr
    simp only [List.take, List.reverse_cons, List.reverse_nil,
      List.nil_append, List.cons_append, List.drop] at hpr
    rw [hpr] at hrun
    simp only [] at hrun
    obtain ⟨av, hav, hrun⟩ := bind_eq_ok hrun
    obtain ⟨bv, hbv, hrun⟩ := bind_eq_ok hrun
    obtain ⟨s1, hpush, hrun⟩ := bind_eq_ok hrun
    cases hrun
    rw [pushVal_spec hpush]
    refine ⟨hmem, ?_, ?_⟩
    · show (List.all _ _) = true
      simp only [List.all_cons, Bool.and_eq_true]
      rw [hs] at hstk
      exact ⟨okValB_bool _ _, (all_head_of_all (all_head_of_all hstk).2).2⟩
    · show Chain st2.mem (st2.ip :: st2.callStack) _
      rw [hip2]
      refine Or.inr ⟨b, ht + 1 - 2,
        ⟨a, o, c, rfl, hbytes, by rw [hdrop]; exact hbal2⟩, ?_, hchrest⟩
      rw [hs] at hn
      simp only [List.length_cons] at hn ⊢
      omega

/-- Native `func` preserves the interpreter invariant; the allocated
descriptor's body is a value series because the popped body BLOCK
value is well-formed. -/
theorem nativeFunc_inv {st2 st1 : PState} {a o b ht : Nat} {c : List Nat}
    {rest2 : List Nat}
    (hrun : nativeFunc st2 = Except.ok st1)
    (hmem : memOk st2.mem = true)
    (hstk : st2.stack.all (okValB st2.mem.heap) = true)
    (hbytes : getObj st2.mem a = some (Obj.bytes c))
    (hip2 : st2.ip = IP.pos a o)
    (hdrop : c.drop o = rest2)
    (hbal2 : balCheck st2.mem.heap rest2 (ht + 1 - 2) = true)
    (hht : 1 ≤ ht)
    (hn : st2.stack.length = b + ht)
    (hchrest : Chain st2.mem st2.callStack (b + 1)) : Inv st1 := by
  unfold nativeFunc at hrun
  obtain ⟨pr, hpop, hrun⟩ := bind_eq_ok hrun
  obtain ⟨hpr, hlen2⟩ := popN_spec hpop
  rcases hs : st2.stack with _ | ⟨x, _ | ⟨y, s'⟩⟩
  · rw [hs] at hlen2; simp at hlen2
  · rw [hs] at hlen2; simp at hlen2
  · rw [hs] at hpr
    simp only [List.take, List.reverse_cons, List.reverse_nil,
      List.nil_append, List.cons_append, List.drop] at hpr
    rw [hpr] at hrun
    simp only [] at hrun
    obtain ⟨specAddr, hspec, hrun⟩ := bind_eq_ok hrun
    obtain ⟨bodyAddr, hbody, hrun⟩ := bind_eq_ok hrun
    obtain ⟨vb, hvb, hrun⟩ := bind_eq_ok hrun
    obtain ⟨am, halloc, hrun⟩ := bind_eq_ok hrun
    obtain ⟨s1, hpush, hrun⟩ := bind_eq_ok hrun
    cases hrun
    obtain ⟨am1, am2⟩ := am
    rw [pushVal_spec hpush]
    -- the body value is the stack element x: it is a well-formed BLOCK
    have hxok : okValB st2.mem.heap x = true := by
      rw [hs] at hstk
      exact (all_head_of_all hstk).1
    have hbx : x.kind = Value.BLOCK ∧ bodyAddr = x.data := by
      unfold asBlock at hbody
      split at hbody
      · cases hbody; exact ⟨by assumption, rfl⟩
      · cases hbody
    have hbody32 : bodyAddr < 4294967296 ∧
        isValues st2.mem.heap bodyAddr = true := by
      unfold okValB at hxok
      rw [hbx.1] at hxok
      simp only [eq_self_iff_true, if_true, Bool.and_eq_true,
        decide_eq_true_eq] at hxok
      rw [hbx.2]
      exact hxok.2
    have hext : MemExt st2.mem am2 :=
      memExt_of_heapLe (allocObj_heapLe halloc)
    have hm2 : memOk am2 = true := by
      refine memOk_alloc hmem halloc ?_
      show isValues am2.heap (bodyAddr % 4294967296) = true
      rw [Nat.mod_eq_of_lt hbody32.1]
      exact isValues_ext hext hbody32.2
    refine ⟨hm2, ?_, ?_⟩
    · show (List.all _ _) = true
      simp only [List.all_cons, Bool.and_eq_true]
      rw [hs] at hstk
      exact ⟨okValB_func _ _,
        all_okValB_ext hext (all_head_of_all (all_head_of_all hstk).2).2⟩
    · show Chain am2 (st2.ip :: st2.callStack) _
      rw [hip2]
      refine Or.inr ⟨b, ht + 1 - 2,
        ⟨a, o, c, rfl, hext.2.1 a c hbytes,
          by rw [hdrop]; exact balCheck_ext' hext hbal2⟩, ?_,
        chain_ext hext st2.callStack (b + 1) hchrest⟩
      rw [hs] at hn
      simp only [List.length_cons] at hn ⊢
      omega

/-- Native `either` preserves the interpreter invariant: it opens a
fresh balanced frame over the branch's code and parks the resume point
at consume-3 accounting. -/
theorem nativeEither_inv {st2 st1 : PState} {a o b ht : Nat} {c : List Nat}
    {rest2 : List Nat}
    (hrun : nativeEither st2 = Except.ok st1)
    (hmem : memOk st2.mem = true)
    (hstk : st2.stack.all (okValB st2.mem.heap) = true)
    (hbytes : getObj st2.mem a = some (Obj.bytes c))
    (hip2 : st2.ip = IP.pos a o)
    (hdrop : c.drop o = rest2)
    (hbal2 : balCheck st2.mem.heap rest2 (ht + 1 - 3) = true)
    (hht : 2 ≤ ht)
    (hn : st2.stack.length = b + ht)
    (hchrest : Chain st2.mem st2.callStack (b + 1)) : Inv st1 := by
  unfold nativeEither at hrun
  obtain ⟨pr, hpop, hrun⟩ := bind_eq_ok hrun
  obtain ⟨hpr, hlen3⟩ := popN_spec hpop
  rcases hs : st2.stack with _ | ⟨x, _ | ⟨y, _ | ⟨z, s'⟩⟩⟩
  · rw [hs] at hlen3; simp at hlen3
  · rw [hs] at hlen3; simp at hlen3
  · rw [hs] at hlen3; simp at hlen3
  · rw [hs] at hpr
    simp only [List.take, List.reverse_cons, List.reverse_nil,
      List.nil_append, List.cons_append, List.drop] at hpr
    rw [hpr] at hrun
    simp only [] at hrun
    obtain ⟨cv, hcv, hrun⟩ := bind_eq_ok hrun
    obtain ⟨series, hser, hrun⟩ := bind_eq_ok hrun
    obtain ⟨gb, hgb, hrun⟩ := bind_eq_ok hrun
    obtain ⟨cs1, hcs1, hrun⟩ := bind_eq_ok hrun
    cases hrun
    obtain ⟨hm1, hext, code, hgetc, hbalc⟩ := get_binding_bal hmem hgb
    rw [pushIP_spec hcs1]
    refine ⟨hm1, ?_, ?_⟩
    · show (List.all _ _) = true
      rw [hs] at hstk
      exact all_okValB_ext hext
        (all_head_of_all (all_head_of_all (all_head_of_all hstk).2).2).2
    · show Chain gb.2 (IP.pos gb.1 0 :: st2.ip :: st2.callStack) _
      refine Or.inr ⟨s'.length, 0,
        ⟨gb.1, 0, code, rfl, hgetc, by simpa using hbalc⟩, by simp, ?_⟩
      rw [hip2]
      refine Or.inr ⟨b, ht + 1 - 3,
        ⟨a, o, c, rfl, hext.2.1 a c hbytes,
          by rw [hdrop]; exact balCheck_ext' hext hbal2⟩, ?_,
        chain_ext hext st2.callStack (b + 1) hchrest⟩
      show s'.length + 1 = b + (ht + 1 - 3)
      rw [hs] at hn
      simp only [List.length_cons] at hn
      omega


theorem step_preserves {st : PState} {out : Outcome}
    (hInv : Inv st) (h : step st = Except.ok out) :
    (∃ st1, out = Outcome.next st1 ∧ Inv st1) ∨
    (∃ st1, out = Outcome.stop st1 ∧ st1.stack.length = 1) ∨
    (∃ st1 e, out = Outcome.next st1 ∧ step st1 = Except.error e) := by
  obtain ⟨hmem, hstk, hch⟩ := hInv
  rcases hch with ⟨hhalt, hrest, hn⟩ | ⟨b, ht, ⟨a, o, c, hip, hbytes, hbal⟩, hn, hchrest⟩
  · have hread : readCode st.mem st.ip = ReadRes.eof := by
      rw [hhalt]; rfl
    unfold step at h
    rw [hread] at h
    cases h
    exact Or.inr (Or.inl ⟨st, rfl, hn⟩)
  · rcases hd : c.drop o with _ | ⟨op, rest1⟩
    · rw [hd] at hbal; cases hbal
    · rw [hd] at hbal
      have hget := (list_drop_cons hd).1
      have hdrop1 := (list_drop_cons hd).2
      have hread : readCode st.mem st.ip = ReadRes.byte op (IP.pos a (o + 1)) := by
        rw [hip]; simp only [readCode, hbytes, hget]
      unfold step at h
      rw [hread] at h
      rw [balCheck_cons] at hbal
      by_cases h0 : op = 0
      · -- RET
        subst h0
        simp only [reduceIte, Bool.and_eq_true, decide_eq_true_eq] at hbal
        obtain ⟨hht, hrest1⟩ := hbal
        simp only [Code.CONST, Code.WORD, Code.SET_WORD, Code.LEAVE, Code.RET,
          Code.NONE, Code.CALL_NATIVE, Code.CALL_FUNC, reduceIte] at h
        rcases hcs : st.callStack with _ | ⟨top, csr⟩
        · rw [hcs] at hchrest
          exact False.elim hchrest
        · rw [hcs] at h hchrest
          simp only [] at h
          rcases hchrest with ⟨htop, hcsr, hb1⟩ | ⟨b2, h2, hfr2, hn2, hch2⟩
          · subst htop
            rw [if_pos rfl] at h
            cases h
            refine Or.inr (Or.inl ⟨_, rfl, ?_⟩)
            show st.stack.length = 1
            omega
          · obtain ⟨a2, o2, c2, hip2, hbytes2, hbal2⟩ := hfr2
            have hne : top ≠ IP.halt := by rw [hip2]; intro hX; cases hX
            rw [if_neg hne] at h
            cases h
            refine Or.inl ⟨_, rfl, hmem, hstk, ?_⟩
            show Chain st.mem (top :: csr) st.stack.length
            have hlen : st.stack.length = b2 + h2 := by omega
            rw [hlen]
            exact Or.inr ⟨b2, h2, ⟨a2, o2, c2, hip2, hbytes2, hbal2⟩, rfl, hch2⟩
      · by_cases h1 : op = 1
        · -- CONST
          subst h1
          simp only [reduceIte] at hbal
          rcases rest1 with _ | ⟨k, _ | ⟨e0, _ | ⟨e1, _ | ⟨e2, _ | ⟨e3, rest2⟩⟩⟩⟩⟩
          · cases hbal
          · cases hbal
          · cases hbal
          · cases hbal
          · cases hbal
          · have hbal' : (okValB st.mem.heap
                ⟨k, e0 + 256 * e1 + 65536 * e2 + 16777216 * e3⟩ &&
                balCheck st.mem.heap rest2 (ht + 1)) = true := hbal
            rw [Bool.and_eq_true] at hbal'
            obtain ⟨hokv, hbal2⟩ := hbal'
            have hru8 : readU8 st.mem (IP.pos a (o + 1)) =
                Except.ok (k, IP.pos a (o + 2)) := by
              have := readU8_of_drop hbytes hdrop1
              have ho : o + 1 + 1 = o + 2 := by omega
              rw [ho] at this
              exact this
            have hdrop2 : c.drop (o + 2) = e0 :: e1 :: e2 :: e3 :: rest2 := by
              simpa using drop_shift hd 2
            have hru32 := readU32_of_drop hbytes hdrop2
            have ho6 : o + 2 + 4 = o + 6 := by omega
            rw [ho6] at hru32
            have hdrop6 : c.drop (o + 6) = rest2 := by
              simpa using drop_shift hd 6
            simp only [Code.CONST, Code.WORD, Code.SET_WORD, Code.LEAVE,
              Code.RET, Code.NONE, Code.CALL_NATIVE, Code.CALL_FUNC,
              reduceIte, hip] at h
            simp only [Bind.bind, Except.bind, hru8, hru32] at h
            obtain ⟨s1, hpush, h⟩ := bind_eq_ok h
            cases h
            rw [pushVal_spec hpush]
            refine Or.inl ⟨_, rfl, hmem, ?_, ?_⟩
            · show (List.all _ _) = true
              simp only [List.all_cons, Bool.and_eq_true]
              exact ⟨hokv, hstk⟩
            · show Chain st.mem (IP.pos a (o + 6) :: st.callStack) _
              refine Or.inr ⟨b, ht + 1,
                ⟨a, o + 6, c, rfl, hbytes, by rw [hdrop6]; exact hbal2⟩,
                ?_, hchrest⟩
              show (_ :: st.stack).length = b + (ht + 1)
              simp only [List.length_cons]
              omega
        · by_cases h2 : op = 2
          · -- NONE
            subst h2
            simp only [reduceIte] at hbal
            simp only [Code.CONST, Code.WORD, Code.SET_WORD, Code.LEAVE,
              Code.RET, Code.NONE, Code.CALL_NATIVE, Code.CALL_FUNC,
              reduceIte, hip, Bind.bind, Except.bind] at h
            obtain ⟨s1, hpush, h⟩ := bind_eq_ok h
            cases h
            rw [pushVal_spec hpush]
            refine Or.inl ⟨_, rfl, hmem, ?_, ?_⟩
            · show (List.all _ _) = true
              simp only [List.all_cons, Bool.and_eq_true]
              exact ⟨okValB_noneVal st.mem.heap, hstk⟩
            · show Chain st.mem (IP.pos a (o + 1) :: st.callStack) _
              refine Or.inr ⟨b, ht + 1,
                ⟨a, o + 1, c, rfl, hbytes, by rw [hdrop1]; exact hbal⟩,
                ?_, hchrest⟩
              show (_ :: st.stack).length = b + (ht + 1)
              simp only [List.length_cons]
              omega
          · by_cases h3 : op = 3
            · -- WORD
              subst h3
              simp only [reduceIte] at hbal
              rcases rest1 with _ | ⟨f0, _ | ⟨f1, _ | ⟨f2, _ | ⟨f3, rest2⟩⟩⟩⟩
              · cases hbal
              · cases hbal
              · cases hbal
              · cases hbal
              · have hru32 := readU32_of_drop hbytes hdrop1
                have ho5 : o + 1 + 4 = o + 5 := by omega
                rw [ho5] at hru32
                have hdrop5 : c.drop (o + 5) = rest2 := by
                  simpa using drop_shift hd 5
                simp only [Code.CONST, Code.WORD, Code.SET_WORD, Code.LEAVE,
                  Code.RET, Code.NONE, Code.CALL_NATIVE, Code.CALL_FUNC,
                  reduceIte, hip, Bind.bind, Except.bind, hru32] at h
                obtain ⟨v, hcell, h⟩ := bind_eq_ok h
                obtain ⟨s1, hpush, h⟩ := bind_eq_ok h
                cases h
                rw [pushVal_spec hpush]
                refine Or.inl ⟨_, rfl, hmem, ?_, ?_⟩
                · show (List.all _ _) = true
                  simp only [List.all_cons, Bool.and_eq_true]
                  exact ⟨cellVal_okValB hmem hcell, hstk⟩
                · show Chain st.mem (IP.pos a (o + 5) :: st.callStack) _
                  refine Or.inr ⟨b, ht + 1,
                    ⟨a, o + 5, c, rfl, hbytes, by rw [hdrop5]; exact hbal⟩,
                    ?_, hchrest⟩
                  show (_ :: st.stack).length = b + (ht + 1)
                  simp only [List.length_cons]
                  omega
            · by_cases h4 : op = 4
              · -- SET_WORD
                subst h4
                simp only [reduceIte] at hbal
                rcases rest1 with _ | ⟨f0, _ | ⟨f1, _ | ⟨f2, _ | ⟨f3, rest2⟩⟩⟩⟩
                · cases hbal
                · cases hbal
                · cases hbal
                · cases hbal
                · have hru32 := readU32_of_drop hbytes hdrop1
                  have ho5 : o + 1 + 4 = o + 5 := by omega
                  rw [ho5] at hru32
                  have hdrop5 : c.drop (o + 5) = rest2 := by
                    simpa using drop_shift hd 5
                  simp only [Code.CONST, Code.WORD, Code.SET_WORD, Code.LEAVE,
                    Code.RET, Code.NONE, Code.CALL_NATIVE, Code.CALL_FUNC,
                    reduceIte, hip, Bind.bind, Except.bind, hru32] at h
                  obtain ⟨v, hhead, h⟩ := bind_eq_ok h
                  obtain ⟨m1, hsetc, h⟩ := bind_eq_ok h
                  cases h
                  have hhd := optReq_spec hhead
                  have hv : okValB st.mem.heap v = true := by
                    rcases hs : st.stack with _ | ⟨v0, s'⟩
                    · rw [hs] at hhd; cases hhd
                    · rw [hs] at hhd
                      simp only [List.head?] at hhd
                      cases hhd
                      rw [hs] at hstk
                      exact (all_head_of_all hstk).1
                  obtain ⟨hm1, he1⟩ := setCell_props hmem hv hsetc
                  refine Or.inl ⟨_, rfl, hm1, all_okValB_ext he1 hstk, ?_⟩
                  show Chain m1 (IP.pos a (o + 5) :: st.callStack)
                    st.stack.length
                  refine Or.inr ⟨b, ht,
                    ⟨a, o + 5, c, rfl, he1.2.1 a c hbytes, ?_⟩,
                    hn, chain_ext he1 st.callStack (b + 1) hchrest⟩
                  rw [hdrop5]
                  exact balCheck_ext' he1 hbal
              · by_cases h5 : op = 5
                · -- LEAVE
                  subst h5
                  simp only [reduceIte] at hbal
                  rcases rest1 with _ | ⟨nv, rest2⟩
                  · cases hbal
                  · have hbal' : (decide (nv = ht) &&
                        balCheck st.mem.heap rest2 1) = true := hbal
                    rw [Bool.and_eq_true, decide_eq_true_eq] at hbal'
                    obtain ⟨hnv, hbal2⟩ := hbal'
                    have hru8 : readU8 st.mem (IP.pos a (o + 1)) =
                        Except.ok (nv, IP.pos a (o + 2)) := by
                      have := readU8_of_drop hbytes hdrop1
                      have ho : o + 1 + 1 = o + 2 := by omega
                      rw [ho] at this
                      exact this
                    have hdrop2 : c.drop (o + 2) = rest2 := by
                      simpa using drop_shift hd 2
                    simp only [Code.CONST, Code.WORD, Code.SET_WORD, Code.LEAVE,
                      Code.RET, Code.NONE, Code.CALL_NATIVE, Code.CALL_FUNC,
                      reduceIte, hip, Bind.bind, Except.bind, hru8] at h
                    obtain ⟨s1, hnip, h⟩ := bind_eq_ok h
                    cases h
                    obtain ⟨v, s', hs, hs1, hnv1, hnvlen⟩ := nip_spec hnip
                    rw [hs1]
                    refine Or.inl ⟨_, rfl, hmem, ?_, ?_⟩
                    · show (List.all _ _) = true
                      simp only [List.all_cons, Bool.and_eq_true]
                      refine ⟨?_, all_drop_of_all hstk⟩
                      rw [hs] at hstk
                      exact (all_head_of_all hstk).1
                    · show Chain st.mem (IP.pos a (o + 2) :: st.callStack) _
                      refine Or.inr ⟨b, 1,
                        ⟨a, o + 2, c, rfl, hbytes,
                          by rw [hdrop2]; exact hbal2⟩, ?_, hchrest⟩
                      show (_ :: st.stack.drop nv).length = b + 1
                      simp only [List.length_cons, List.length_drop]
                      omega
                · by_cases h6 : op = 6
                  · -- CALL_NATIVE
                    subst h6
                    simp only [reduceIte] at hbal
                    rcases rest1 with _ | ⟨i0, _ | ⟨i1, rest2⟩⟩
                    · cases hbal
                    · cases hbal
                    · have hbal' : (decide (i0 + 256 * i1 < 6) &&
                          decide (consumeOf (i0 + 256 * i1) ≤ ht + 1) &&
                          balCheck st.mem.heap rest2
                            (ht + 1 - consumeOf (i0 + 256 * i1))) = true := hbal
                      rw [Bool.and_eq_true, Bool.and_eq_true,
                        decide_eq_true_eq, decide_eq_true_eq] at hbal'
                      obtain ⟨⟨hid6, hcle⟩, hbal2⟩ := hbal'
                      have hru16 := readU16_of_drop hbytes hdrop1
                      have ho3 : o + 1 + 2 = o + 3 := by omega
                      rw [ho3] at hru16
                      have hdrop3 : c.drop (o + 3) = rest2 := by
                        simpa using drop_shift hd 3
                      simp only [Code.CONST, Code.WORD, Code.SET_WORD,
                        Code.LEAVE, Code.RET, Code.NONE, Code.CALL_NATIVE,
                        Code.CALL_FUNC, reduceIte, hip, Bind.bind,
                        Except.bind, hru16] at h
                      obtain ⟨impl, himplq, h⟩ := bind_eq_ok h
                      obtain ⟨st1, hrun, h⟩ := bind_eq_ok h
                      cases h
                      have himpl := optReq_spec himplq
                      refine Or.inl ⟨st1, rfl, ?_⟩
                      generalize hgen : i0 + 256 * i1 = id at himpl hcle hbal2 hid6
                      interval_cases id
                      · have hieq : impl = NativeImpl.addImpl := by
                          rw [show nativeById 0 = some NativeImpl.addImpl from
                            rfl] at himpl
                          injection himpl with himpl
                          exact himpl.symm
                        subst hieq
                        unfold runNative at hrun
                        have hco : consumeOf 0 = 2 := rfl
                        rw [hco] at hbal2 hcle
                        exact nativeAdd_inv hrun hmem hstk hbytes rfl hdrop3 hbal2
                          (by omega) hn hchrest
                      · have hieq : impl = NativeImpl.addImpl := by
                          rw [show nativeById 1 = some NativeImpl.addImpl from
                            rfl] at himpl
                          injection himpl with himpl
                          exact himpl.symm
                        subst hieq
                        unfold runNative at hrun
                        have hco : consumeOf 1 = 2 := rfl
                        rw [hco] at hbal2 hcle
                        exact nativeAdd_inv hrun hmem hstk hbytes rfl hdrop3 hbal2
                          (by omega) hn hchrest
                      · have hieq : impl = NativeImpl.ltImpl := by
                          rw [show nativeById 2 = some NativeImpl.ltImpl from
                            rfl] at himpl
                          injection himpl with himpl
                          exact himpl.symm
                        subst hieq
                        unfold runNative at hrun
                        have hco : consumeOf 2 = 2 := rfl
                        rw [hco] at hbal2 hcle
                        exact nativeLt_inv hrun hmem hstk hbytes rfl hdrop3 hbal2
                          (by omega) hn hchrest
                      · have hieq : impl = NativeImpl.ltImpl := by
                          rw [show nativeById 3 = some NativeImpl.ltImpl from
                            rfl] at himpl
                          injection himpl with himpl
                          exact himpl.symm
                        subst hieq
                        unfold runNative at hrun
                        have hco : consumeOf 3 = 2 := rfl
                        rw [hco] at hbal2 hcle
                        exact nativeLt_inv hrun hmem hstk hbytes rfl hdrop3 hbal2
                          (by omega) hn hchrest
                      · have hieq : impl = NativeImpl.eitherImpl := by
                          rw [show nativeById 4 = some NativeImpl.eitherImpl from
                            rfl] at himpl
                          injection himpl with himpl
                          exact himpl.symm
                        subst hieq
                        unfold runNative at hrun
                        have hco : consumeOf 4 = 3 := rfl
                        rw [hco] at hbal2 hcle
                        exact nativeEither_inv hrun hmem hstk hbytes rfl hdrop3 hbal2
                          (by omega) hn hchrest
                      · have hieq : impl = NativeImpl.funcImpl := by
                          rw [show nativeById 5 = some NativeImpl.funcImpl from
                            rfl] at himpl
                          injection himpl with himpl
                          exact himpl.symm
                        subst hieq
                        unfold runNative at hrun
                        have hco : consumeOf 5 = 2 := rfl
                        rw [hco] at hbal2 hcle
                        exact nativeFunc_inv hrun hmem hstk hbytes rfl hdrop3 hbal2
                          (by omega) hn hchrest
                  · by_cases h7 : op = 7
                    · -- CALL_FUNC: always faults on the next step,
                      -- since the Func body is a value series
                      subst h7
                      rcases rest1 with _ | ⟨g0, _ | ⟨g1, _ | ⟨g2, _ | ⟨g3, rest2⟩⟩⟩⟩
                      · simp only [reduceIte] at hbal; cases hbal
                      · simp only [reduceIte] at hbal; cases hbal
                      · simp only [reduceIte] at hbal; cases hbal
                      · simp only [reduceIte] at hbal; cases hbal
                      · have hru32 := readU32_of_drop hbytes hdrop1
                        have ho5 : o + 1 + 4 = o + 5 := by omega
                        rw [ho5] at hru32
                        simp only [Code.CONST, Code.WORD, Code.SET_WORD,
                          Code.LEAVE, Code.RET, Code.NONE, Code.CALL_NATIVE,
                          Code.CALL_FUNC, reduceIte, hip, Bind.bind,
                          Except.bind, hru32] at h
                        obtain ⟨f, hfi, h⟩ := bind_eq_ok h
                        obtain ⟨cs1, hcs1, h⟩ := bind_eq_ok h
                        cases h
                        obtain ⟨a0, b0, hgf, hf⟩ := funcInfo_spec hfi
                        have hisv : isValues st.mem.heap (b0 % 4294967296) =
                            true := memOk_getObj hmem hgf
                        obtain ⟨vals, bb, hgv⟩ := isValues_getObj hisv
                        refine Or.inr (Or.inr ⟨_, Err.invalidCode, rfl, ?_⟩)
                        subst hf
                        have hread2 : readCode st.mem
                            (IP.pos (b0 % 4294967296) 0) = ReadRes.bad := by
                          simp only [readCode, hgv]
                        unfold step
                        simp only [hread2]
                    · rw [if_neg h0, if_neg h1, if_neg h2, if_neg h3,
                        if_neg h4, if_neg h5, if_neg h6, if_neg h7] at hbal
                      cases hbal

/-- The interpreter loop ends (successfully) only with exactly one
value on the operand stack, from any state satisfying the
invariant. -/
theorem runLoop_stack_one :
    ∀ fuel (st st1 : PState), Inv st → runLoop fuel st = Except.ok st1 →
      st1.stack.length = 1 := by
  intro fuel
  induction fuel with
  | zero =>
    intro st st1 hInv h
    cases h
  | succ fuel ih =>
    intro st st1 hInv h
    unfold runLoop at h
    rcases hstep : step st with e | out
    · rw [hstep] at h; cases h
    · rw [hstep] at h
      rcases step_preserves hInv hstep with
        ⟨st2, hout, hInv2⟩ | ⟨st2, hout, hlen⟩ | ⟨st2, e, hout, herr⟩
      · subst hout
        exact ih st2 st1 hInv2 h
      · subst hout
        cases h
        exact hlen
      · subst hout
        rcases fuel with _ | fuel2
        · cases h
        · unfold runLoop at h
          rw [herr] at h
          cases h

/-- `Process::run` from an invariant state leaves the operand stack
empty after popping the result. -/
theorem run_stack_empty {fuel : Nat} {st : PState} {v : Value}
    {st2 : PState} (hInv : Inv st)
    (h : run fuel st = Except.ok (v, st2)) : st2.stack = [] := by
  unfold run at h
  obtain ⟨st1, hloop, h⟩ := bind_eq_ok h
  have hlen := runLoop_stack_one fuel st st1 hInv hloop
  rcases hs : st1.stack with _ | ⟨v0, rest⟩
  · rw [hs] at h; cases h
  · rw [hs] at h
    simp only [] at h
    cases h
    show rest = []
    rw [hs] at hlen
    simp only [List.length_cons] at hlen
    exact List.eq_nil_of_length_eq_zero (by omega)

/-! Generic parser preservation: any state predicate preserved by all
eight collector callbacks is preserved by a whole parse. -/

theorem collRes_ok {σ : Type} {r : Option σ} {s1 : σ}
    (h : collRes r = Except.ok s1) : r = some s1 := by
  unfold collRes at h
  split at h
  · cases h; rfl
  · cases h

theorem parseStringLoop_preserves {σ : Type} (col : Collector σ)
    (P : σ → Prop)
    (hstr : ∀ s t s1, col.string s t = some s1 → P s → P s1) :
    ∀ (input : List Char) (s : σ) acc esc r,
      parseStringLoop col s acc esc input = Except.ok r → P s → P r.1 := by
  intro input
  induction input with
  | nil =>
    intro s acc esc r h hP
    cases h
  | cons c rest ih =>
    intro s acc esc r h hP
    unfold parseStringLoop at h
    split at h
    · split at h
      · exact ih s _ _ r h hP
      · split at h
        · exact ih s _ _ r h hP
        · split at h
          · exact ih s _ _ r h hP
          · split at h
            · exact ih s _ _ r h hP
            · split at h
              · exact ih s _ _ r h hP
              · cases h
    · split at h
      · exact ih s _ _ r h hP
      · split at h
        · split at h
          · rename_i s1 hcb
            cases h
            exact hstr s _ s1 hcb hP
          · cases h
        · exact ih s _ _ r h hP

theorem collectWord_preserves {σ : Type} (col : Collector σ) (P : σ → Prop)
    (hword : ∀ s k t s1, col.word s k t = some s1 → P s → P s1)
    (hbp : ∀ s s1, col.begin_path s = some s1 → P s → P s1)
    {s : σ} {inPath : Bool} {symbol : String}
    {kind : WordKind} {consumed : Option Char}
    {r : σ × Bool × Option Char}
    (h : collectWord col s inPath symbol kind consumed = Except.ok r)
    (hP : P s) : P r.1 := by
  unfold collectWord at h
  split at h
  · split at h
    · obtain ⟨s1, hcb, h⟩ := bind_eq_ok h
      cases h
      exact hword s _ _ s1 (collRes_ok hcb) hP
    · obtain ⟨s1, hcb, h⟩ := bind_eq_ok h
      obtain ⟨s2, hcb2, h⟩ := bind_eq_ok h
      cases h
      exact hword s1 _ _ s2 (collRes_ok hcb2)
        (hbp s s1 (collRes_ok hcb) hP)
  · obtain ⟨s1, hcb, h⟩ := bind_eq_ok h
    cases h
    exact hword s _ _ s1 (collRes_ok hcb) hP

theorem parseWord_preserves {σ : Type} (col : Collector σ) (P : σ → Prop)
    (hword : ∀ s k t s1, col.word s k t = some s1 → P s → P s1)
    (hbp : ∀ s s1, col.begin_path s = some s1 → P s → P s1)
    {s : σ} {inPath : Bool} {first : Char}
    {rest : List Char} {r : σ × Bool × Option Char × List Char}
    (h : parseWord col s inPath first rest = Except.ok r)
    (hP : P s) : P r.1 := by
  unfold parseWord at h
  obtain ⟨q, hq, h⟩ := bind_eq_ok h
  obtain ⟨acc, kind2, consumed, rest1⟩ := q
  try simp only [] at h
  split at h
  · cases h
  · obtain ⟨t, ht, h⟩ := bind_eq_ok h
    obtain ⟨t1, tPath, tCons⟩ := t
    try simp only [] at h
    cases h
    exact collectWord_preserves col P hword hbp ht hP

theorem parseNumber_preserves {σ : Type} (col : Collector σ) (P : σ → Prop)
    (hword : ∀ s k t s1, col.word s k t = some s1 → P s → P s1)
    (hint : ∀ s n s1, col.integer s n = some s1 → P s → P s1)
    (hflt : ∀ s x s1, col.float s x = some s1 → P s → P s1)
    {s : σ} {first : Char} {rest : List Char}
    {r : σ × Option Char × List Char}
    (h : parseNumber col s first rest = Except.ok r)
    (hP : P s) : P r.1 := by
  unfold parseNumber at h
  simp only [] at h
  split at h
  · obtain ⟨y, hy, h⟩ := bind_eq_ok h
    obtain ⟨q, hq, h⟩ := bind_eq_ok h
    split at h
    · obtain ⟨s1x, hcb, h⟩ := bind_eq_ok h
      cases h
      exact hword s _ _ s1x (collRes_ok hcb) hP
    · split at h
      · obtain ⟨s1x, hcb, h⟩ := bind_eq_ok h
        cases h
        exact hflt s _ s1x (collRes_ok hcb) hP
      · split at h
        · split at h
          · obtain ⟨y2, hy2, h⟩ := bind_eq_ok h
            cases hy2
          · obtain ⟨y2, hy2, h⟩ := bind_eq_ok h
            obtain ⟨s1x, hcb, h⟩ := bind_eq_ok h
            cases h
            exact hint s _ s1x (collRes_ok hcb) hP
        · obtain ⟨y2, hy2, h⟩ := bind_eq_ok h
          obtain ⟨s1x, hcb, h⟩ := bind_eq_ok h
          cases h
          exact hint s _ s1x (collRes_ok hcb) hP
  · split at h
    · obtain ⟨y, hy, h⟩ := bind_eq_ok h
      obtain ⟨q, hq, h⟩ := bind_eq_ok h
      split at h
      · obtain ⟨s1x, hcb, h⟩ := bind_eq_ok h
        cases h
        exact hword s _ _ s1x (collRes_ok hcb) hP
      · split at h
        · obtain ⟨s1x, hcb, h⟩ := bind_eq_ok h
          cases h
          exact hflt s _ s1x (collRes_ok hcb) hP
        · split at h
          · split at h
            · obtain ⟨y2, hy2, h⟩ := bind_eq_ok h
              cases hy2
            · obtain ⟨y2, hy2, h⟩ := bind_eq_ok h
              obtain ⟨s1x, hcb, h⟩ := bind_eq_ok h
              cases h
              exact hint s _ s1x (collRes_ok hcb) hP
          · obtain ⟨y2, hy2, h⟩ := bind_eq_ok h
            obtain ⟨s1x, hcb, h⟩ := bind_eq_ok h
            cases h
            exact hint s _ s1x (collRes_ok hcb) hP
    · split at h
      · obtain ⟨y, hy, h⟩ := bind_eq_ok h
        obtain ⟨q, hq, h⟩ := bind_eq_ok h
        split at h
        · obtain ⟨s1x, hcb, h⟩ := bind_eq_ok h
          cases h
          exact hword s _ _ s1x (collRes_ok hcb) hP
        · split at h
          · obtain ⟨s1x, hcb, h⟩ := bind_eq_ok h
            cases h
            exact hflt s _ s1x (collRes_ok hcb) hP
          · split at h
            · split at h
              · obtain ⟨y2, hy2, h⟩ := bind_eq_ok h
                cases hy2
              · obtain ⟨y2, hy2, h⟩ := bind_eq_ok h
                obtain ⟨s1x, hcb, h⟩ := bind_eq_ok h
                cases h
                exact hint s _ s1x (collRes_ok hcb) hP
            · obtain ⟨y2, hy2, h⟩ := bind_eq_ok h
              obtain ⟨s1x, hcb, h⟩ := bind_eq_ok h
              cases h
              exact hint s _ s1x (collRes_ok hcb) hP
      · cases h

theorem processBlockEnd_preserves {σ : Type} (col : Collector σ)
    (P : σ → Prop)
    (heb : ∀ s s1, col.end_block s = some s1 → P s → P s1)
    (hep : ∀ s s1, col.end_path s = some s1 → P s → P s1)
    {s : σ} {inPath : Bool}
    {consumed : Option Char} {r : σ × Bool}
    (h : processBlockEnd col s inPath consumed = Except.ok r)
    (hP : P s) : P r.1 := by
  unfold processBlockEnd at h
  simp only [] at h
  split at h
  · obtain ⟨y, hy, h⟩ := bind_eq_ok h
    cases hy
    try simp only [] at h
    split at h
    · obtain ⟨s2, hcb2, h⟩ := bind_eq_ok h
      cases h
      exact heb _ _ (collRes_ok hcb2) hP
    · cases h
      exact hP
  · split at h
    · obtain ⟨s1, hcb, h⟩ := bind_eq_ok h
      obtain ⟨y, hy, h⟩ := bind_eq_ok h
      cases hy
      try simp only [] at h
      split at h
      · obtain ⟨s2, hcb2, h⟩ := bind_eq_ok h
        cases h
        exact heb _ _ (collRes_ok hcb2) (hep s s1 (collRes_ok hcb) hP)
      · cases h
        exact hep s s1 (collRes_ok hcb) hP
    · obtain ⟨y, hy, h⟩ := bind_eq_ok h
      cases hy
      try simp only [] at h
      split at h
      · obtain ⟨s2, hcb2, h⟩ := bind_eq_ok h
        cases h
        exact heb _ _ (collRes_ok hcb2) hP
      · cases h
        exact hP

theorem doParse_preserves {σ : Type} (col : Collector σ) (P : σ → Prop)
    (hstr : ∀ s t s1, col.string s t = some s1 → P s → P s1)
    (hword : ∀ s k t s1, col.word s k t = some s1 → P s → P s1)
    (hint : ∀ s n s1, col.integer s n = some s1 → P s → P s1)
    (hflt : ∀ s x s1, col.float s x = some s1 → P s → P s1)
    (hbb : ∀ s s1, col.begin_block s = some s1 → P s → P s1)
    (heb : ∀ s s1, col.end_block s = some s1 → P s → P s1)
    (hbp : ∀ s s1, col.begin_path s = some s1 → P s → P s1)
    (hep : ∀ s s1, col.end_path s = some s1 → P s → P s1) :
    ∀ fuel (s : σ) inPath input s1,
      doParse col fuel s inPath input = Except.ok s1 → P s → P s1 := by
  intro fuel
  induction fuel with
  | zero =>
    intro s inPath input s1 h hP
    cases h
  | succ fuel ih =>
    intro s inPath input s1 h hP
    unfold doParse at h
    split at h
    · cases h; exact hP
    · rename_i c rest hskip
      simp only [] at h
      split at h
      · obtain ⟨s1x, hcb, h⟩ := bind_eq_ok h
        obtain ⟨y, hy, h⟩ := bind_eq_ok h
        cases hy
        try simp only [] at h
        obtain ⟨q2, hq2, h⟩ := bind_eq_ok h
        obtain ⟨q2a, q2b⟩ := q2
        try simp only [] at h
        exact ih q2a q2b _ s1 h
          (processBlockEnd_preserves col P heb hep hq2
            (hbb s s1x (collRes_ok hcb) hP))
      · split at h
        · obtain ⟨y, hy, h⟩ := bind_eq_ok h
          cases hy
          try simp only [] at h
          obtain ⟨q2, hq2, h⟩ := bind_eq_ok h
          obtain ⟨q2a, q2b⟩ := q2
          try simp only [] at h
          exact ih q2a q2b _ s1 h
            (processBlockEnd_preserves col P heb hep hq2 hP)
        · split at h
          · obtain ⟨t, htq, h⟩ := bind_eq_ok h
            obtain ⟨t1, tCons, tRest⟩ := t
            try simp only [] at h
            obtain ⟨y, hy, h⟩ := bind_eq_ok h
            cases hy
            try simp only [] at h
            obtain ⟨q2, hq2, h⟩ := bind_eq_ok h
            obtain ⟨q2a, q2b⟩ := q2
            try simp only [] at h
            exact ih q2a q2b _ s1 h
              (processBlockEnd_preserves col P heb hep hq2
                (parseStringLoop_preserves col P hstr rest s [] false
                  _ htq hP))
          · split at h
            · obtain ⟨y, hy, h⟩ := bind_eq_ok h
              obtain ⟨y1, yPath, yCons, yRest⟩ := y
              try simp only [] at h
              obtain ⟨q2, hq2, h⟩ := bind_eq_ok h
              obtain ⟨q2a, q2b⟩ := q2
              try simp only [] at h
              exact ih q2a q2b _ s1 h
                (processBlockEnd_preserves col P heb hep hq2
                  (parseWord_preserves col P hword hbp hy hP))
            · split at h
              · obtain ⟨y, hy, h⟩ := bind_eq_ok h
                obtain ⟨y1, yPath, yCons, yRest⟩ := y
                try simp only [] at h
                obtain ⟨q2, hq2, h⟩ := bind_eq_ok h
                obtain ⟨q2a, q2b⟩ := q2
                try simp only [] at h
                exact ih q2a q2b _ s1 h
                  (processBlockEnd_preserves col P heb hep hq2
                    (parseWord_preserves col P hword hbp hy hP))
              · split at h
                · obtain ⟨t, htq, h⟩ := bind_eq_ok h
                  obtain ⟨t1, tCons, tRest⟩ := t
                  try simp only [] at h
                  obtain ⟨y, hy, h⟩ := bind_eq_ok h
                  cases hy
                  try simp only [] at h
                  obtain ⟨q2, hq2, h⟩ := bind_eq_ok h
                  obtain ⟨q2a, q2b⟩ := q2
                  try simp only [] at h
                  exact ih q2a q2b _ s1 h
                    (processBlockEnd_preserves col P heb hep hq2
                      (parseNumber_preserves col P hword hint hflt htq hP))
                · cases h

theorem parseBlock_preserves {σ : Type} (col : Collector σ) (P : σ → Prop)
    (hstr : ∀ s t s1, col.string s t = some s1 → P s → P s1)
    (hword : ∀ s k t s1, col.word s k t = some s1 → P s → P s1)
    (hint : ∀ s n s1, col.integer s n = some s1 → P s → P s1)
    (hflt : ∀ s x s1, col.float s x = some s1 → P s → P s1)
    (hbb : ∀ s s1, col.begin_block s = some s1 → P s → P s1)
    (heb : ∀ s s1, col.end_block s = some s1 → P s → P s1)
    (hbp : ∀ s s1, col.begin_path s = some s1 → P s → P s1)
    (hep : ∀ s s1, col.end_path s = some s1 → P s → P s1)
    {s : σ} {input : List Char} {s1 : σ}
    (h : parseBlock col s input = Except.ok s1) (hP : P s) : P s1 := by
  unfold parseBlock at h
  obtain ⟨t1, h1, h⟩ := bind_eq_ok h
  obtain ⟨t2, h2, h⟩ := bind_eq_ok h
  have hP1 : P t1 := hbb s t1 (collRes_ok h1) hP
  have hP2 : P t2 :=
    doParse_preserves col P hstr hword hint hflt hbb heb hbp hep
      (input.length + 1) t1 false input t2 h2 hP1
  exact heb t2 s1 (collRes_ok h) hP2

/-! The arena parse collector preserves well-formedness: every value
it pushes is well-formed and every series it allocates holds
well-formed values. -/

/-- Collector-state well-formedness: well-formed arena and pending
value stack. -/
def PCOk (s : PCState) : Prop :=
  memOk s.mem = true ∧ s.stack.all (okValB s.mem.heap) = true

theorem all_take_of_all {p : Value → Bool} {s : List Value} {n : Nat}
    (h : s.all p = true) : (s.take n).all p = true := by
  rw [List.all_eq_true] at h ⊢
  exact fun v hv => h v (List.mem_of_mem_take hv)

theorem pushPC_spec {s : PCState} {v : Value} {s1 : PCState}
    (h : pushPC s v = some s1) : s1 = { s with stack := s.stack ++ [v] } := by
  unfold pushPC at h
  split at h
  · cases h; rfl
  · cases h

theorem pushPC_pcok {s : PCState} {v : Value} {s1 : PCState}
    (h : pushPC s v = some s1) (hP : PCOk s)
    (hv : okValB s.mem.heap v = true) : PCOk s1 := by
  rw [pushPC_spec h]
  refine ⟨hP.1, ?_⟩
  show (s.stack ++ [v]).all (okValB s.mem.heap) = true
  simp only [List.all_append, List.all_cons, List.all_nil,
    Bool.and_eq_true]
  exact ⟨hP.2, hv, trivial⟩

theorem get_or_add_symbol_props {m : Mem} {name : String} {a : Nat}
    {m1 : Mem} (hm : memOk m = true)
    (h : get_or_add_symbol m name = Except.ok (a, m1)) :
    memOk m1 = true ∧ heapLe m m1 := by
  unfold get_or_add_symbol at h
  split at h
  · cases h; exact ⟨hm, heapLe_refl m⟩
  · obtain ⟨p, halloc, h⟩ := bind_eq_ok h
    obtain ⟨a2, m2⟩ := p
    cases h
    constructor
    · show memOk m2 = true
      exact memOk_alloc hm halloc rfl
    · intro i ob hg
      exact allocObj_heapLe halloc i ob hg

theorem okValB_string (hp : List Obj) (a : Nat) :
    okValB hp (Value.string a) = true := by
  simp [okValB, Value.string, Value.STRING, Value.BLOCK]

theorem okValB_any_word (hp : List Obj) (k : WordKind) (a : Nat) :
    okValB hp (Value.any_word k a) = true := by
  cases k <;>
    simp [okValB, Value.any_word, Value.WORD, Value.SET_WORD,
      Value.GET_WORD, Value.BLOCK]

theorem vm_string_pcok :
    ∀ s t s1, vmCollector.string s t = some s1 → PCOk s → PCOk s1 := by
  intro s t s1 h hP
  simp only [vmCollector] at h
  split at h
  · rename_i a m1 halloc
    have hext := memExt_of_heapLe (allocObj_heapLe halloc)
    have him : PCOk { s with mem := m1 } := by
      refine ⟨memOk_alloc hP.1 halloc rfl, ?_⟩
      show s.stack.all (okValB m1.heap) = true
      exact all_okValB_ext hext hP.2
    exact pushPC_pcok h him (okValB_string m1.heap a)
  · cases h

theorem vm_word_pcok :
    ∀ s k t s1, vmCollector.word s k t = some s1 → PCOk s → PCOk s1 := by
  intro s k t s1 h hP
  simp only [vmCollector] at h
  split at h
  · rename_i a m1 hga
    obtain ⟨hm1, hle⟩ := get_or_add_symbol_props hP.1 hga
    have hext := memExt_of_heapLe hle
    have him : PCOk { s with mem := m1 } := by
      refine ⟨hm1, ?_⟩
      show s.stack.all (okValB m1.heap) = true
      exact all_okValB_ext hext hP.2
    exact pushPC_pcok h him (okValB_any_word m1.heap k a)
  · cases h

theorem vm_integer_pcok :
    ∀ s n s1, vmCollector.integer s n = some s1 → PCOk s → PCOk s1 := by
  intro s n s1 h hP
  simp only [vmCollector] at h
  exact pushPC_pcok h hP (okValB_int s.mem.heap n)

theorem vm_float_pcok :
    ∀ s x s1, vmCollector.float s x = some s1 → PCOk s → PCOk s1 := by
  intro s x s1 h hP
  simp only [vmCollector] at h
  refine pushPC_pcok h hP ?_
  simp [okValB, Value.FLOAT, Value.BLOCK]

theorem beginPC_pcok :
    ∀ s s1, beginPC s = some s1 → PCOk s → PCOk s1 := by
  intro s s1 h hP
  unfold beginPC at h
  split at h
  · cases h
    exact ⟨hP.1, hP.2⟩
  · cases h

theorem endPC_pcok {kind : Nat}
    (hk : kind = Value.BLOCK ∨ kind = Value.PATH) :
    ∀ s s1, endPC s kind = some s1 → PCOk s → PCOk s1 := by
  intro s s1 h hP
  unfold endPC at h
  split at h
  · cases h
  · rename_i pos posRest hpos
    simp only [] at h
    split at h
    · rename_i a m1 halloc
      have hext := memExt_of_heapLe (allocObj_heapLe halloc)
      obtain ⟨hgnew, hane, ha32⟩ := getObj_alloc_new halloc
      have hm1 : memOk m1 = true := by
        refine memOk_alloc hP.1 halloc ?_
        show ((s.stack.drop pos).all (okValB m1.heap) &&
          (decide ((0 : Nat) = 0) || isBalCode m1.heap 0)) = true
        simp only [Bool.and_eq_true, Bool.or_eq_true, decide_eq_true_eq]
        exact ⟨all_okValB_ext hext (all_drop_of_all hP.2), Or.inl trivial⟩
      have him : PCOk { s with mem := m1, stack := s.stack.take pos, posStack := posRest } := by
        refine ⟨hm1, ?_⟩
        show (s.stack.take pos).all (okValB m1.heap) = true
        exact all_okValB_ext hext (all_take_of_all hP.2)
      refine pushPC_pcok h him ?_
      show okValB m1.heap ⟨kind, a⟩ = true
      have hisv : isValues m1.heap a = true := by
        unfold isValues
        rw [getObj_heap, hgnew]
      rcases hk with hk | hk <;> subst hk
      · unfold okValB
        simp only [Bool.and_eq_true, decide_eq_true_eq]
        refine ⟨by simp [Value.BLOCK], ?_⟩
        simp only [if_true, Bool.and_eq_true, decide_eq_true_eq]
        exact ⟨ha32, hisv⟩
      · simp [okValB, Value.PATH, Value.BLOCK]
    · cases h

theorem vm_end_block_pcok :
    ∀ s s1, vmCollector.end_block s = some s1 → PCOk s → PCOk s1 := by
  intro s s1 h hP
  simp only [vmCollector] at h
  exact endPC_pcok (Or.inl rfl) s s1 h hP

theorem vm_end_path_pcok :
    ∀ s s1, vmCollector.end_path s = some s1 → PCOk s → PCOk s1 := by
  intro s s1 h hP
  simp only [vmCollector] at h
  exact endPC_pcok (Or.inr rfl) s s1 h hP

theorem mem_of_getLast? {α : Type} {l : List α} {a : α}
    (h : l.getLast? = some a) : a ∈ l := by
  induction l with
  | nil => cases h
  | cons x xs ih =>
    rcases xs with _ | ⟨y, ys⟩
    · simp only [List.getLast?] at h
      cases h
      simp
    · rw [List.getLast?_cons_cons] at h
      exact List.mem_cons_of_mem x (ih h)

/-- `Vm::parse_block` from a well-formed arena yields a well-formed
arena and a well-formed root value. -/
theorem vmParseBlock_props {m : Mem} {input : List Char} {root : Value}
    {pc : PCState} (hm : memOk m = true)
    (h : vmParseBlock m input = Except.ok (root, pc)) :
    memOk pc.mem = true ∧ okValB pc.mem.heap root = true := by
  unfold vmParseBlock at h
  obtain ⟨s1, hpb, h⟩ := bind_eq_ok h
  have hP : PCOk s1 :=
    parseBlock_preserves vmCollector PCOk vm_string_pcok vm_word_pcok
      vm_integer_pcok vm_float_pcok
      (fun s s1 h hP => beginPC_pcok s s1 h hP)
      vm_end_block_pcok
      (fun s s1 h hP => beginPC_pcok s s1 h hP)
      vm_end_path_pcok hpb ⟨hm, rfl⟩
  split at h
  · rename_i v hlast
    cases h
    refine ⟨hP.1, ?_⟩
    have hmem : root ∈ s1.stack := mem_of_getLast? hlast
    have := hP.2
    rw [List.all_eq_true] at this
    exact this root hmem
  · cases h

theorem mapError_ok {ε ε' α : Type} {e : Except ε α} {f : ε → ε'} {a : α}
    (h : e.mapError f = Except.ok a) : e = Except.ok a := by
  cases e with
  | ok b => simpa [Except.mapError] using h
  | error x => simp [Except.mapError] at h

/-- The freshly constructed VM arena is well-formed. -/
theorem vmNew_memOk {m0 : Mem} (h : vmNew = Except.ok m0) :
    memOk m0 = true := by
  have hv : (vmNew.toOption.map memOk).getD false = true := by rfl
  rw [h] at hv
  simpa [Except.toOption, Option.map] using hv

/-- Claim C4.  Executing a compiled block always leaves the operand
stack empty: whenever the full parse–compile–exec pipeline returns a
result value and a final process state, that state's operand stack is
`[]` — the compiler's stack-length simulation and trailing stack-fix
guarantee each block nets exactly one value, which the final pop
removes. -/
theorem exec_leaves_stack_empty (fuel : Nat) (input : List Char)
    (v : Value) (st : PState)
    (h : pipeline fuel input = Except.ok (v, st)) : st.stack = [] := by
  unfold pipeline at h
  obtain ⟨m0, hm0, h⟩ := bind_eq_ok h
  obtain ⟨rp, hrp, h⟩ := bind_eq_ok h
  obtain ⟨root, pc⟩ := rp
  simp only [] at h
  obtain ⟨blockAddr, hba, h⟩ := bind_eq_ok h
  obtain ⟨cm, hcomp, h⟩ := bind_eq_ok h
  obtain ⟨codeAddr, m1⟩ := cm
  simp only [] at h
  have hm0ok := vmNew_memOk (mapError_ok hm0)
  have hparse := vmParseBlock_props hm0ok (mapError_ok hrp)
  obtain ⟨hm1, hext1, code, hgetc, hbalc⟩ :=
    compile_bal hparse.1 (mapError_ok hcomp)
  have hexec := mapError_ok h
  unfold exec at hexec
  obtain ⟨st1, hcall, hexec⟩ := bind_eq_ok hexec
  unfold call at hcall
  obtain ⟨cs, hpush, hcall⟩ := bind_eq_ok hcall
  cases hcall
  rw [pushIP_spec hpush] at hexec
  apply run_stack_empty _ hexec
  refine ⟨hm1, rfl, ?_⟩
  show Chain m1 (IP.pos codeAddr 0 :: IP.halt :: []) 0
  refine Or.inr ⟨0, 0,
    ⟨codeAddr, 0, code, rfl, hgetc, by simpa using hbalc⟩, rfl,
    Or.inl ⟨rfl, rfl, rfl⟩⟩

/-- Concrete pipeline output for the C4 witness: the source `1`. -/
def c4out : Value × PState :=
  ((pipeline 9 ("1".toList)).toOption).getD
    (⟨0, 0⟩, ⟨⟨[], [], []⟩, [], [], IP.halt⟩)

/-- Witness for C4: the pipeline on `1` succeeds and its final state
has an empty operand stack, via the theorem at that concrete run. -/
theorem exec_leaves_stack_empty_witness :
    pipeline 9 ("1".toList) = Except.ok c4out ∧ c4out.2.stack = [] :=
  ⟨rfl, exec_leaves_stack_empty 9 ("1".toList) c4out.1 c4out.2 rfl⟩

end Rebel
